import Mathlib

/-!
The broadcast adapter of go-socket.io

A shallow embedding of the room/connection index of the broadcast adapter and of the bridge
to the message bus:

* `map.go`: the `roomMap` / `connMap` pair guarded by `sync.RWMutex`, iterating over a copy;
* `broadcast_redis_local.go` (and the textually identical `namespace/broadcast_local.go`):
  the `roomMap` / `connMap` pair built on `sync.Map`, and the local index
  `redisBroadcastLocal` on top of it;
* `broadcast_redis_remote.go`: the handlers `onMessage`, `onRequest`, `onResponse`, the loop
  `dispatch` and the cluster queries `lenRoom` and `allRooms`. A payload is the JSON document
  its bytes spell, with integer literals for its numbers; decoding it into an `interface{}`
  rounds every number to a `float64`, and the `int` that sums the `Connections` values wraps
  at 64 bits. The bus is what the handlers are given: channels, payloads, the answers to
  `PUBSUB NUMSUB` and `PUBLISH`. A handler ends by returning, by panicking or by blocking;
* `map.go` once more, with its pointers (`map_go_mem`): the connection maps live in a memory
  and a loop over a map reads it at every turn, for `forEach` with a callback that changes
  the index;
* `namespace_handler.go`: `getDispatchDisconnectData`;
* `engineio/payload/encoder.go`: the frame encoder.

A Go `map[string]V` is an association list with pairwise distinct keys (`AList`):
`m[k]` is `lookup`, `m[k] = v` is `insert`, `delete(m, k)` is `erase`, `len(m)` is the number
of entries and `for k, v := range m` walks the entries (Go leaves the order unspecified; the
list order is one such order).  The room map stores `*connMap` pointers: a mutation of the
pointee is written back into the entry that holds the pointer (`replace`).  Locks are not
modelled: every operation runs atomically, one after the other.
-/

namespace socketio

/-- The `Conn` interface as far as the index uses it: `ID()` is the stable identifier, `handle`
stands for the identity of the connection object behind the interface value. -/
structure Conn where
  ID : String
  handle : Nat
  deriving DecidableEq, Repr

/-- One call `conn.Emit(event, args...)`. -/
structure EmitCall (α : Type) where
  conn : Conn
  event : String
  args : List α
  deriving DecidableEq, Repr

/-- The calls of `Emit` made so far, oldest first. -/
abbrev Trace (α : Type) := List (EmitCall α)

/-- The effect of `conn.Emit(event, args...)`: the call is recorded. -/
def Conn.Emit {α : Type} (conn : Conn) (event : String) (args : List α) (t : Trace α) : Trace α :=
  t ++ [⟨conn, event, args⟩]

/-- A Go `map[string]V`. -/
abbrev GoMap (V : Type) := AList (fun _ : String => V)

instance {V : Type} [DecidableEq V] : DecidableEq (GoMap V) := fun a b =>
  decidable_of_iff (a.entries = b.entries) ⟨AList.ext, fun h => congrArg AList.entries h⟩

/-- Go `len(m)`. -/
def GoMap.len {V : Type} (m : GoMap V) : Nat := m.entries.length

/-- The loop `for k := range m { if !h(k, m[k]) { break } }` over the entries `l` of `m`;
the handler may change the state `σ` it runs in. -/
def rangeLoop {V σ : Type} (h : String → V → σ → Bool × σ) : List (Σ _ : String, V) → σ → σ
  | [], s => s
  | e :: rest, s =>
    match h e.1 e.2 s with
    | (true, s') => rangeLoop h rest s'
    | (false, s') => s'

/-- `copyMap` of map.go: a fresh map filled by `res[k] = v` for every entry of `m`. -/
def copyMap {V : Type} (m : GoMap V) : GoMap V :=
  m.entries.foldl (fun res e => res.insert e.1 e.2) ∅

/-! ## map.go -/

namespace map_go

/-- The type `connMap` of map.go (`data map[string]Conn`; the mutex is not modelled). -/
structure connMap where
  data : GoMap Conn
  deriving DecidableEq

/-- `newConnMap` of map.go. -/
def newConnMap : connMap := ⟨∅⟩

/-- `connMap.join`: `cm.data[conn.ID()] = conn`. -/
def connMap.join (cm : connMap) (conn : Conn) : connMap :=
  ⟨cm.data.insert conn.ID conn⟩

/-- `connMap.leave`: `delete(cm.data, conn.ID())`. -/
def connMap.leave (cm : connMap) (conn : Conn) : connMap :=
  ⟨cm.data.erase conn.ID⟩

/-- `connMap.iterableData`: a copy of the data. -/
def connMap.iterableData (cm : connMap) : GoMap Conn :=
  copyMap cm.data

/-- `connMap.forEach`: walks a copy of the data taken at the call, until `h` returns false. -/
def connMap.forEach {σ : Type} (cm : connMap) (h : String → Conn → σ → Bool × σ) (s : σ) : σ :=
  rangeLoop h cm.iterableData.entries s

/-- `connMap.len`: `len(cm.data)`. -/
def connMap.len (cm : connMap) : Nat := cm.data.len

/-- The type `roomMap` of map.go (`data map[string]*connMap`). -/
structure roomMap where
  data : GoMap connMap
  deriving DecidableEq

/-- `newRoomMap` of map.go. -/
def newRoomMap : roomMap := ⟨∅⟩

/-- `roomMap.join`: the room's connection map is created when absent, then `cm.join(conn)`
changes the connection map the entry points to. -/
def roomMap.join (rm : roomMap) (room : String) (conn : Conn) : roomMap :=
  match rm.data.lookup room with
  | some cm => ⟨rm.data.replace room (cm.join conn)⟩
  | none =>
    let data := rm.data.insert room newConnMap
    ⟨data.replace room (newConnMap.join conn)⟩

/-- `roomMap.iterableData`: a copy of the room map; the copy holds the same `*connMap`
pointers. -/
def roomMap.iterableData (rm : roomMap) : GoMap connMap :=
  copyMap rm.data

/-- `roomMap.leaveAll`: for every room of the copy, `iterating[room].leave(conn)`, which changes
the connection map that the room's entry points to.  The room entry itself is not touched. -/
def roomMap.leaveAll (rm : roomMap) (conn : Conn) : roomMap :=
  rm.iterableData.entries.foldl
    (fun (cur : roomMap) e => ⟨cur.data.replace e.1 (e.2.leave conn)⟩) rm

/-- `roomMap.leave`: nothing when the room is absent; otherwise `cm.leave(conn)` and the room
entry is deleted when `cm.len() == 0`. -/
def roomMap.leave (rm : roomMap) (room : String) (conn : Conn) : roomMap :=
  match rm.data.lookup room with
  | none => rm
  | some cm =>
    let cm1 := cm.leave conn
    let data := rm.data.replace room cm1
    if cm1.len = 0 then ⟨data.erase room⟩ else ⟨data⟩

/-- `roomMap.delete`: `delete(rm.data, room)`. -/
def roomMap.delete (rm : roomMap) (room : String) : roomMap :=
  ⟨rm.data.erase room⟩

/-- `roomMap.getConnections`: `cm, ok := rm.data[room]`; `none` stands for `ok = false`. -/
def roomMap.getConnections (rm : roomMap) (room : String) : Option connMap :=
  rm.data.lookup room

/-- `roomMap.forEach`: walks a copy of the room map, until `h` returns false. -/
def roomMap.forEach {σ : Type} (rm : roomMap) (h : String → connMap → σ → Bool × σ) (s : σ) : σ :=
  rangeLoop h rm.iterableData.entries s

/-- No room of the map has an empty connection map. -/
def roomMap.NoEmptyRoom (rm : roomMap) : Prop :=
  ∀ room cm, rm.getConnections room = some cm → cm.len ≠ 0

/-- The local index of broadcast_redis_local.go linked against the room map of map.go. -/
structure redisBroadcastLocal where
  nsp : String
  uid : String
  roomsSync : roomMap
  deriving DecidableEq

/-- `newRedisBroadcastLocal`; the fresh uuid is an argument. -/
def newRedisBroadcastLocal (nsp uid : String) : redisBroadcastLocal :=
  ⟨nsp, uid, newRoomMap⟩

/-- `redisBroadcastLocal.getOccupants`. -/
def redisBroadcastLocal.getOccupants (bc : redisBroadcastLocal) (room : String) : Option connMap :=
  bc.roomsSync.getConnections room

/-- `redisBroadcastLocal.forEach`, the `*connMap` being taken for the connection map it points
to: the callback `f` runs in a world made of the index and a rest `τ`. The pointers `forEach`
holds while `f` changes the index are in `map_go_mem`. -/
def redisBroadcastLocal.forEach {τ : Type} (room : String)
    (f : Conn → redisBroadcastLocal × τ → redisBroadcastLocal × τ)
    (w : redisBroadcastLocal × τ) : redisBroadcastLocal × τ :=
  match w.1.getOccupants room with
  | none => w
  | some occupants => occupants.forEach (fun _ conn w1 => (true, f conn w1)) w

/-- `redisBroadcastLocal.clear`. -/
def redisBroadcastLocal.clear (bc : redisBroadcastLocal) (room : String) : redisBroadcastLocal :=
  { bc with roomsSync := bc.roomsSync.delete room }

/-- `redisBroadcastLocal.join`. -/
def redisBroadcastLocal.join (bc : redisBroadcastLocal) (room : String) (conn : Conn) :
    redisBroadcastLocal :=
  { bc with roomsSync := bc.roomsSync.join room conn }

/-- `redisBroadcastLocal.leaveAll`. -/
def redisBroadcastLocal.leaveAll (bc : redisBroadcastLocal) (conn : Conn) : redisBroadcastLocal :=
  { bc with roomsSync := bc.roomsSync.leaveAll conn }

/-- `redisBroadcastLocal.leave`. -/
def redisBroadcastLocal.leave (bc : redisBroadcastLocal) (room : String) (conn : Conn) :
    redisBroadcastLocal :=
  { bc with roomsSync := bc.roomsSync.leave room conn }

/-- `redisBroadcastLocal.allRooms`: the room names in the order of the walk. -/
def redisBroadcastLocal.allRooms (bc : redisBroadcastLocal) : List String :=
  bc.roomsSync.forEach (fun room _ rooms => (true, rooms ++ [room])) []

/-- `redisBroadcastLocal.getRoomsByConn`: for every room and every entry of its connection map,
the room is appended when the entry's key is `connection.ID()`. -/
def redisBroadcastLocal.getRoomsByConn (bc : redisBroadcastLocal) (connection : Conn) :
    List String :=
  bc.roomsSync.forEach (fun room conn rooms =>
    (true, conn.forEach (fun connID _ rooms1 =>
      (true, if connection.ID = connID then rooms1 ++ [room] else rooms1)) rooms)) []

/-- Every connection of the index is stored under its own id, as `connMap.join` stores it. -/
def redisBroadcastLocal.KeyedByID (bc : redisBroadcastLocal) : Prop :=
  ∀ e ∈ bc.roomsSync.data.entries, ∀ x ∈ e.2.data.entries, x.2.ID = x.1

instance (bc : redisBroadcastLocal) : Decidable bc.KeyedByID :=
  inferInstanceAs (Decidable (∀ e ∈ bc.roomsSync.data.entries, ∀ x ∈ e.2.data.entries, x.2.ID = x.1))

/-- The states the index gets into from a new one by its own operations. -/
inductive Reachable : redisBroadcastLocal → Prop
  | new (nsp uid : String) : Reachable (newRedisBroadcastLocal nsp uid)
  | join {bc : redisBroadcastLocal} (room : String) (conn : Conn) :
      Reachable bc → Reachable (bc.join room conn)
  | leave {bc : redisBroadcastLocal} (room : String) (conn : Conn) :
      Reachable bc → Reachable (bc.leave room conn)
  | leaveAll {bc : redisBroadcastLocal} (conn : Conn) :
      Reachable bc → Reachable (bc.leaveAll conn)
  | clear {bc : redisBroadcastLocal} (room : String) :
      Reachable bc → Reachable (bc.clear room)

end map_go

/-! ## broadcast_redis_local.go -/

namespace redis_local

/-- A `sync.Map` whose keys are strings and whose values have type `V`, the only shapes this
file ever stores (so the type assertions of the source always succeed). -/
structure SyncMap (V : Type) where
  m : GoMap V

instance {V : Type} [DecidableEq V] : DecidableEq (SyncMap V) := fun a b =>
  decidable_of_iff (a.m = b.m) (by cases a; cases b; simp)

/-- `sync.Map.Load`; `none` stands for `ok = false`. -/
def SyncMap.Load {V : Type} (s : SyncMap V) (key : String) : Option V :=
  s.m.lookup key

/-- `sync.Map.Store`. -/
def SyncMap.Store {V : Type} (s : SyncMap V) (key : String) (value : V) : SyncMap V :=
  ⟨s.m.insert key value⟩

/-- `sync.Map.LoadOrStore`: the existing value when the key is present, otherwise `value` is
stored and returned. -/
def SyncMap.LoadOrStore {V : Type} (s : SyncMap V) (key : String) (value : V) : V × SyncMap V :=
  match s.m.lookup key with
  | some actual => (actual, s)
  | none => (value, ⟨s.m.insert key value⟩)

/-- `sync.Map.Delete`. -/
def SyncMap.Delete {V : Type} (s : SyncMap V) (key : String) : SyncMap V :=
  ⟨s.m.erase key⟩

/-- `sync.Map.Range`, for a handler that stores or deletes no key of the map it walks: the
handler is called once for every entry, until it returns false. -/
def SyncMap.Range {V σ : Type} (s : SyncMap V) (f : String → V → σ → Bool × σ) (st : σ) : σ :=
  rangeLoop f s.m.entries st

/-- The type `connMap` of broadcast_redis_local.go (an embedded `sync.Map`). -/
structure connMap where
  Map : SyncMap Conn
  deriving DecidableEq

/-- `newConnMap` of broadcast_redis_local.go. -/
def newConnMap : connMap := ⟨⟨∅⟩⟩

/-- `connMap.join`: `cm.Store(conn.ID(), conn)`. -/
def connMap.join (cm : connMap) (conn : Conn) : connMap :=
  ⟨cm.Map.Store conn.ID conn⟩

/-- `connMap.leave`: `cm.Delete(conn.ID())`. -/
def connMap.leave (cm : connMap) (conn : Conn) : connMap :=
  ⟨cm.Map.Delete conn.ID⟩

/-- `connMap.forEach`: `cm.Range` with the handler `h`. -/
def connMap.forEach {σ : Type} (cm : connMap) (h : String → Conn → σ → Bool × σ) (s : σ) : σ :=
  cm.Map.Range h s

/-- The type `roomMap` of broadcast_redis_local.go (an embedded `sync.Map` of `*connMap`). -/
structure roomMap where
  Map : SyncMap connMap
  deriving DecidableEq

/-- `newRoomMap` of broadcast_redis_local.go. -/
def newRoomMap : roomMap := ⟨⟨∅⟩⟩

/-- `roomMap.join`: `LoadOrStore(room, newConnMap())`, then `cm.join(conn)` changes the
connection map the entry points to. -/
def roomMap.join (rm : roomMap) (room : String) (conn : Conn) : roomMap :=
  match rm.Map.LoadOrStore room newConnMap with
  | (cm, m1) => ⟨⟨m1.m.replace room (cm.join conn)⟩⟩

/-- `roomMap.leave`: nothing when the room is absent, otherwise `cm.leave(conn)`; the room entry
stays. -/
def roomMap.leave (rm : roomMap) (room : String) (conn : Conn) : roomMap :=
  match rm.Map.Load room with
  | none => rm
  | some cm => ⟨⟨rm.Map.m.replace room (cm.leave conn)⟩⟩

/-- `roomMap.delete`: `rm.Delete(room)`. -/
def roomMap.delete (rm : roomMap) (room : String) : roomMap :=
  ⟨rm.Map.Delete room⟩

/-- `roomMap.getConnections`; `none` stands for `(nil, false)`. -/
def roomMap.getConnections (rm : roomMap) (room : String) : Option connMap :=
  rm.Map.Load room

/-- `roomMap.forEach`: `rm.Range` with the handler `h`. -/
def roomMap.forEach {σ : Type} (rm : roomMap) (h : String → connMap → σ → Bool × σ) (s : σ) : σ :=
  rm.Map.Range h s

/-- `roomMap.leaveAll`: `rm.forEach` with a handler doing `cm.leave(conn)`, which changes the
connection map that the room's entry points to. -/
def roomMap.leaveAll (rm : roomMap) (conn : Conn) : roomMap :=
  rm.forEach (fun room cm (cur : roomMap) =>
    (true, ⟨⟨cur.Map.m.replace room (cm.leave conn)⟩⟩)) rm

/-- The type `redisBroadcastLocal` of broadcast_redis_local.go. -/
structure redisBroadcastLocal where
  nsp : String
  uid : String
  roomsSync : roomMap
  deriving DecidableEq

/-- `newRedisBroadcastLocal`; the fresh uuid is an argument. -/
def newRedisBroadcastLocal (nsp uid : String) : redisBroadcastLocal :=
  ⟨nsp, uid, newRoomMap⟩

/-- `redisBroadcastLocal.getOccupants`. -/
def redisBroadcastLocal.getOccupants (bc : redisBroadcastLocal) (room : String) : Option connMap :=
  bc.roomsSync.getConnections room

/-- `redisBroadcastLocal.forEach`, for a callback `f` that leaves the index alone and acts on
an outside state `σ`. -/
def redisBroadcastLocal.forEach {σ : Type} (bc : redisBroadcastLocal) (room : String)
    (f : Conn → σ → σ) (s : σ) : σ :=
  match bc.getOccupants room with
  | none => s
  | some occupants => occupants.forEach (fun _ conn s1 => (true, f conn s1)) s

/-- `redisBroadcastLocal.clear`. -/
def redisBroadcastLocal.clear (bc : redisBroadcastLocal) (room : String) : redisBroadcastLocal :=
  { bc with roomsSync := bc.roomsSync.delete room }

/-- `redisBroadcastLocal.join`. -/
def redisBroadcastLocal.join (bc : redisBroadcastLocal) (room : String) (conn : Conn) :
    redisBroadcastLocal :=
  { bc with roomsSync := bc.roomsSync.join room conn }

/-- `redisBroadcastLocal.leaveAll`. -/
def redisBroadcastLocal.leaveAll (bc : redisBroadcastLocal) (conn : Conn) : redisBroadcastLocal :=
  { bc with roomsSync := bc.roomsSync.leaveAll conn }

/-- `redisBroadcastLocal.leave`. -/
def redisBroadcastLocal.leave (bc : redisBroadcastLocal) (room : String) (conn : Conn) :
    redisBroadcastLocal :=
  { bc with roomsSync := bc.roomsSync.leave room conn }

/-- `redisBroadcastLocal.send`: `Emit(event, args...)` on every connection of the room's
connection map; nothing when the room is absent. -/
def redisBroadcastLocal.send {α : Type} (bc : redisBroadcastLocal) (room event : String)
    (args : List α) (t : Trace α) : Trace α :=
  match bc.getOccupants room with
  | none => t
  | some conns => conns.forEach (fun _ conn t1 => (true, conn.Emit event args t1)) t

/-- `redisBroadcastLocal.sendAll`: for every room, `Emit(event, args...)` on every connection of
its connection map. -/
def redisBroadcastLocal.sendAll {α : Type} (bc : redisBroadcastLocal) (event : String)
    (args : List α) (t : Trace α) : Trace α :=
  bc.roomsSync.forEach (fun _ conn t1 =>
    (true, conn.forEach (fun _ conn1 t2 => (true, conn1.Emit event args t2)) t1)) t

/-- `redisBroadcastLocal.allRooms`: the room names in the order of the walk. -/
def redisBroadcastLocal.allRooms (bc : redisBroadcastLocal) : List String :=
  bc.roomsSync.forEach (fun room _ rooms => (true, rooms ++ [room])) []

/-- `redisBroadcastLocal.lenRoom`: walks the rooms and does `res++` for every room whose name
equals `roomID`. -/
def redisBroadcastLocal.lenRoom (bc : redisBroadcastLocal) (roomID : String) : Nat :=
  bc.roomsSync.forEach (fun room _ res => (true, if room = roomID then res + 1 else res)) 0

/-- `redisBroadcastLocal.getRoomsByConn`: for every room and every entry of its connection map,
the room is appended when the entry's key is `connection.ID()`. -/
def redisBroadcastLocal.getRoomsByConn (bc : redisBroadcastLocal) (connection : Conn) :
    List String :=
  bc.roomsSync.forEach (fun room conn rooms =>
    (true, conn.forEach (fun connID _ rooms1 =>
      (true, if connection.ID = connID then rooms1 ++ [room] else rooms1)) rooms)) []

/-- Every connection of the index is stored under its own id, as `connMap.join` stores it. -/
def redisBroadcastLocal.KeyedByID (bc : redisBroadcastLocal) : Prop :=
  ∀ e ∈ bc.roomsSync.Map.m.entries, ∀ x ∈ e.2.Map.m.entries, x.2.ID = x.1

instance (bc : redisBroadcastLocal) : Decidable bc.KeyedByID :=
  inferInstanceAs
    (Decidable (∀ e ∈ bc.roomsSync.Map.m.entries, ∀ x ∈ e.2.Map.m.entries, x.2.ID = x.1))

/-- The states the index gets into from a new one by its own operations. -/
inductive Reachable : redisBroadcastLocal → Prop
  | new (nsp uid : String) : Reachable (newRedisBroadcastLocal nsp uid)
  | join {bc : redisBroadcastLocal} (room : String) (conn : Conn) :
      Reachable bc → Reachable (bc.join room conn)
  | leave {bc : redisBroadcastLocal} (room : String) (conn : Conn) :
      Reachable bc → Reachable (bc.leave room conn)
  | leaveAll {bc : redisBroadcastLocal} (conn : Conn) :
      Reachable bc → Reachable (bc.leaveAll conn)
  | clear {bc : redisBroadcastLocal} (room : String) :
      Reachable bc → Reachable (bc.clear room)

/-- The type `broadcastLocal` of namespace/broadcast_local.go, a file that repeats
broadcast_redis_local.go word for word, room map included. -/
structure broadcastLocal where
  nsp : String
  uid : String
  roomsSync : roomMap
  deriving DecidableEq

/-- `newBroadcastLocal`; the fresh uuid is an argument. -/
def newBroadcastLocal (nsp uid : String) : broadcastLocal :=
  ⟨nsp, uid, newRoomMap⟩

/-- `broadcastLocal.join`. -/
def broadcastLocal.join (bc : broadcastLocal) (room : String) (conn : Conn) : broadcastLocal :=
  { bc with roomsSync := bc.roomsSync.join room conn }

/-- `broadcastLocal.getOccupants`. -/
def broadcastLocal.getOccupants (bc : broadcastLocal) (room : String) : Option connMap :=
  bc.roomsSync.getConnections room

/-- `broadcastLocal.lenRoom`: walks the rooms and does `res++` for every room whose name equals
`roomID`. -/
def broadcastLocal.lenRoom (bc : broadcastLocal) (roomID : String) : Nat :=
  bc.roomsSync.forEach (fun room _ res => (true, if room = roomID then res + 1 else res)) 0

end redis_local

/-! ## encoding/json -/

/-- A JSON document; its number literals are the integer literals, which is what `json.Marshal`
writes for a Go integer (`Connections`, an integer argument of a broadcast). The same tree is
used for the value `encoding/json` decodes into an `interface{}`: `nil`, `bool`, `float64`,
`string`, `[]interface{}` and `map[string]interface{}` (the members in document order, the
last one of a name being the one a lookup finds); there `num n` is the `float64` of value `n`,
see `decodeInterface`. -/
inductive JSON where
  | null
  | bool (b : Bool)
  | num (n : Int)
  | str (s : String)
  | arr (xs : List JSON)
  | obj (kvs : List (String × JSON))

/-- A `[]byte` payload on the bus: the JSON document the bytes spell, `none` when they are not
valid JSON. -/
abbrev Payload := Option JSON

/-- Decoding the members of a JSON object into a Go map with `dec` decoding a member's value:
members are stored in document order, a later one of the same name replaces the earlier one;
`none` when a value does not fit the element type (`Unmarshal` then returns an error). -/
def decodeObject {V : Type} (dec : JSON → Option V) (kvs : List (String × JSON)) :
    Option (GoMap V) :=
  kvs.foldl (fun acc kv => acc.bind (fun m => (dec kv.2).map (fun x => m.insert kv.1 x)))
    (some ∅)

/-- The multiple of `2 ^ k` nearest to `m`, the even multiple when two are as near. -/
def roundTo (k m : Nat) : Nat :=
  (if 2 ^ k < 2 * (m % 2 ^ k) ∨ (2 * (m % 2 ^ k) = 2 ^ k ∧ m / 2 ^ k % 2 = 1)
    then m / 2 ^ k + 1 else m / 2 ^ k) * 2 ^ k

/-- The least `j ≥ k` with `m < 2 ^ (53 + j)`, looked for among `fuel` values from `k` on;
`k + fuel` when there is none. -/
def droppedBits (m : Nat) : Nat → Nat → Nat
  | 0, k => k
  | fuel + 1, k => if m < 2 ^ (53 + k) then k else droppedBits m fuel (k + 1)

/-- `strconv.ParseFloat(s, 64)` for the integer literal `s` of `n`, as the decoder calls it for
a number stored in an `interface{}`: the `float64` nearest to `n`, which is an integer, given
by its value. A `float64` has 53 significant bits, so an `n` of more bits is rounded to the
nearest multiple of the power of two that leaves 53 of them, ties going to the even one.
`none` stands for the range error, when the rounded value is `2 ^ 1024` or more. -/
def ParseFloat (n : Int) : Option Int :=
  if n.natAbs < 2 ^ 53 then some n
  else
    let v := roundTo (droppedBits n.natAbs 972 0) n.natAbs
    if droppedBits v 972 0 = 972 then none
    else some (if n < 0 then -(v : Int) else (v : Int))

/-- The value of the Go `int` (64 bits, two's complement) that the integer `x` wraps to. -/
def int64 (x : Int) : Int :=
  (x + 2 ^ 63) % 2 ^ 64 - 2 ^ 63

/-- The conversion `int(f)` of the `float64` of integer value `v`: `v` when an `int` holds it;
otherwise the language leaves the result to the implementation, and it is the smallest `int`
on amd64. -/
def intOfFloat64 (v : Int) : Int :=
  if -(2 ^ 63) ≤ v ∧ v < 2 ^ 63 then v else -(2 ^ 63)

mutual
/-- Decoding a JSON value into an `interface{}`: every number becomes a `float64`; `none` when
a number is out of the range of `float64` (`Unmarshal` then returns an error). -/
def decodeInterface : JSON → Option JSON
  | .null => some .null
  | .bool b => some (.bool b)
  | .num n => (ParseFloat n).map .num
  | .str s => some (.str s)
  | .arr xs => (decodeInterfaces xs).map .arr
  | .obj kvs => (decodeMembers kvs).map .obj
/-- Decoding the elements of a JSON array into a `[]interface{}`. -/
def decodeInterfaces : List JSON → Option (List JSON)
  | [] => some []
  | x :: xs =>
    match decodeInterface x, decodeInterfaces xs with
    | some y, some ys => some (y :: ys)
    | _, _ => none
/-- Decoding the members of a JSON object into a `map[string]interface{}`. -/
def decodeMembers : List (String × JSON) → Option (List (String × JSON))
  | [] => some []
  | (k, x) :: kvs =>
    match decodeInterface x, decodeMembers kvs with
    | some y, some ys => some ((k, y) :: ys)
    | _, _ => none
end

mutual
/-- Every number of the value is an integer of absolute value at most `2 ^ 53`: the integers
that a `float64` holds exactly, without a gap. -/
def JSON.float64Exact : JSON → Bool
  | .num n => decide (n.natAbs ≤ 2 ^ 53)
  | .arr xs => float64ExactList xs
  | .obj kvs => float64ExactMembers kvs
  | _ => true
/-- The elements of an array all satisfy `JSON.float64Exact`. -/
def float64ExactList : List JSON → Bool
  | [] => true
  | x :: xs => x.float64Exact && float64ExactList xs
/-- The members of an object all satisfy `JSON.float64Exact`. -/
def float64ExactMembers : List (String × JSON) → Bool
  | [] => true
  | (_, x) :: kvs => x.float64Exact && float64ExactMembers kvs
end

/-- Decoding a JSON value into a `[]interface{}`: `null` gives the nil slice, an array the
slice of its decoded elements (the empty array the empty slice, which the list `[]` stands for
as well). -/
def decodeSlice : JSON → Option (List JSON)
  | .null => some []
  | .arr xs => decodeInterfaces xs
  | _ => none

/-- Decoding a JSON value into a `string`: `null` leaves the zero value. -/
def decodeString : JSON → Option String
  | .null => some ""
  | .str s => some s
  | _ => none

/-- `json.Unmarshal(msg, &m)` for `m map[string][]interface{}`; `none` stands for `err != nil`.
The document `null` leaves the nil map. -/
def UnmarshalSliceMap : Payload → Option (GoMap (List JSON))
  | some .null => some ∅
  | some (.obj kvs) => decodeObject decodeSlice kvs
  | _ => none

/-- `json.Unmarshal(msg, &m)` for `m map[string]string`; `none` stands for `err != nil`. -/
def UnmarshalStringMap : Payload → Option (GoMap String)
  | some .null => some ∅
  | some (.obj kvs) => decodeObject decodeString kvs
  | _ => none

/-- `json.Unmarshal(msg, &m)` for `m map[string]interface{}`; `none` stands for `err != nil`. -/
def UnmarshalAnyMap : Payload → Option (GoMap JSON)
  | some .null => some ∅
  | some (.obj kvs) => decodeObject decodeInterface kvs
  | _ => none

/-- `json.Marshal` of the slice `args` that a variadic call `f(a1, ..., an)` hands over, every
argument being given by the document `json.Marshal` writes for it: the slice is nil when the
call lists no argument, and is then written `null`. A call `f(xs...)` with an empty slice that
is not nil writes `[]` instead; `decodeSlice` reads both as no argument. -/
def marshalSlice : List JSON → JSON
  | [] => .null
  | x :: xs => .arr (x :: xs)

/-- `m[k]` on a Go `map[string]string`: the zero value when the key is absent. -/
def GoMap.getString (m : GoMap String) (k : String) : String :=
  (m.lookup k).getD ""

/-- `xs[i]` for a Go `int` index; `none` stands for the run-time panic "index out of range". -/
def index {α : Type} (xs : List α) (i : Int) : Option α :=
  if i < 0 then none else xs.get? i.toNat

/-- Prepends a character to the first segment. -/
def consHead (c : Char) : List (List Char) → List (List Char)
  | [] => [[c]]
  | seg :: rest => (c :: seg) :: rest

/-- The segments of a character list between the occurrences of `#`. -/
def splitHash : List Char → List (List Char)
  | [] => [[]]
  | c :: cs => if c = '#' then [] :: splitHash cs else consHead c (splitHash cs)

/-- `strings.Split(s, "#")`. -/
def Split (s : String) : List String :=
  (splitHash s.toList).map String.mk

/-- How a call of a handler ends: it returns (with its `error` result where it has one, `none`
for `nil`), it panics, or it blocks for ever on a send to a full channel. -/
inductive Ending where
  | returned (err : Option String)
  | panicked (why : String)
  | blocked
  deriving DecidableEq, Repr

/-- A `chan bool` made with capacity 1: the values in its buffer. -/
abbrev Chan := List Bool

/-- `ch <- v` on a channel of capacity 1: `none` when the buffer is full (the sender blocks). -/
def Chan.send (ch : Chan) (v : Bool) : Option Chan :=
  if ch.length < 1 then some (ch ++ [v]) else none


/-! ## broadcast_redis_remote.go -/

namespace redis_local

/-- The constant `roomLenReqType`. -/
def roomLenReqType : String := "0"

/-- The constant `clearRoomReqType`. -/
def clearRoomReqType : String := "1"

/-- The constant `allRoomReqType`. -/
def allRoomReqType : String := "2"

/-- The type `roomLenRequest`; `done` is the buffer of the channel of capacity 1. The `int`
`connections` is kept in the 64-bit range by `onResponse`; `numSub` and `msgCount` count
subscribers and responses, far from the ends of that range, and are plain integers. -/
structure roomLenRequest where
  RequestType : String
  RequestID : String
  Room : String
  numSub : Int
  msgCount : Int
  connections : Int
  done : Chan

/-- The type `clearRoomRequest`. -/
structure clearRoomRequest where
  RequestType : String
  RequestID : String
  Room : String
  UUID : String

/-- The type `allRoomRequest`; `done` is the buffer of the channel of capacity 1. -/
structure allRoomRequest where
  RequestType : String
  RequestID : String
  rooms : GoMap Bool
  numSub : Int
  msgCount : Int
  done : Chan

/-- The type `roomLenResponse`. -/
structure roomLenResponse where
  RequestType : String
  RequestID : String
  Connections : Int

/-- The type `allRoomResponse`. -/
structure allRoomResponse where
  RequestType : String
  RequestID : String
  Rooms : List String

/-- `json.Marshal(&req)` of a `roomLenRequest`: the exported fields in their order. -/
def roomLenRequest.Marshal (req : roomLenRequest) : JSON :=
  .obj [("RequestType", .str req.RequestType), ("RequestID", .str req.RequestID),
    ("Room", .str req.Room)]

/-- `json.Marshal(&req)` of a `clearRoomRequest`. -/
def clearRoomRequest.Marshal (req : clearRoomRequest) : JSON :=
  .obj [("RequestType", .str req.RequestType), ("RequestID", .str req.RequestID),
    ("Room", .str req.Room), ("UUID", .str req.UUID)]

/-- `json.Marshal(&req)` of an `allRoomRequest`. -/
def allRoomRequest.Marshal (req : allRoomRequest) : JSON :=
  .obj [("RequestType", .str req.RequestType), ("RequestID", .str req.RequestID)]

/-- `json.Marshal(&res)` of a `roomLenResponse`; `Connections` is a Go `int`, so what is
written is a 64-bit value. -/
def roomLenResponse.Marshal (res : roomLenResponse) : JSON :=
  .obj [("RequestType", .str res.RequestType), ("RequestID", .str res.RequestID),
    ("Connections", .num (int64 res.Connections))]

/-- The `float64` that a node reads in `res["Connections"]` from the response written for
`Connections = k`. -/
def roomLenResponse.decoded (k : Int) : Int :=
  (ParseFloat (int64 k)).getD 0

/-- `json.Marshal(&res)` of an `allRoomResponse`; `Rooms` is never the nil slice. -/
def allRoomResponse.Marshal (res : allRoomResponse) : JSON :=
  .obj [("RequestType", .str res.RequestType), ("RequestID", .str res.RequestID),
    ("Rooms", .arr (res.Rooms.map JSON.str))]

/-- A value of `bc.requests`: an `interface{}` holding a `*roomLenRequest` or an
`*allRoomRequest`. -/
inductive Request where
  | roomLen (req : roomLenRequest)
  | allRoom (req : allRoomRequest)

/-- The type `redisBroadcastRemote`. `pub` stands for the publishing connection: the `PUBLISH`
commands sent over it, oldest first, each with its channel and message. The subscribing
connection is the list of frames given to `dispatch`. -/
structure redisBroadcastRemote where
  pub : List (String × JSON)
  key : String
  reqChannel : String
  resChannel : String
  requests : GoMap Request
  local_ : redisBroadcastLocal

/-- The state the handlers of one node run in: the adapter and the calls of `Emit` made on the
connections of the node. -/
structure World where
  bc : redisBroadcastRemote
  emits : Trace JSON

/-- `newRedisBroadcastRemote`, on the path where both dials and both subscriptions succeed;
`pfx` is `opts.Prefix`. -/
def newRedisBroadcastRemote (nsp : String) (pfx : String) (rbcLocal : redisBroadcastLocal) :
    redisBroadcastRemote :=
  { pub := []
    key := pfx ++ "#" ++ nsp ++ "#" ++ rbcLocal.uid
    reqChannel := pfx ++ "-request#" ++ nsp
    resChannel := pfx ++ "-response#" ++ nsp
    requests := ∅
    local_ := rbcLocal }

/-- `redisBroadcastRemote.onMessage`. -/
def redisBroadcastRemote.onMessage (w : World) (channel : String) (msg : Payload) :
    Ending × World :=
  let channelParts := Split channel
  match index channelParts ((channelParts.length : Int) - 2) with
  | none => (.panicked "index out of range", w)
  | some nsp =>
    if w.bc.local_.nsp ≠ nsp then (.returned none, w)
    else
      match index channelParts ((channelParts.length : Int) - 1) with
      | none => (.panicked "index out of range", w)
      | some uid =>
        if w.bc.local_.uid = uid then (.returned none, w)
        else
          match UnmarshalSliceMap msg with
          | none => (.returned (some "invalid broadcast message"), w)
          | some bcMessage =>
            let args := (bcMessage.lookup "args").getD []
            let opts := (bcMessage.lookup "opts").getD []
            match index opts 0 with
            | none => (.panicked "index out of range", w)
            | some (.str room) =>
              match index opts 1 with
              | none => (.panicked "index out of range", w)
              | some (.str event) =>
                if room ≠ "" then
                  (.returned none, { w with emits := w.bc.local_.send room event args w.emits })
                else
                  (.returned none, { w with emits := w.bc.local_.sendAll event args w.emits })
              | some _ => (.returned (some "invalid event"), w)
            | some _ => (.returned (some "invalid room"), w)

/-- `redisBroadcastRemote.publish` with the message already marshalled: the `PUBLISH` command
is sent, what the bus answers is ignored. -/
def redisBroadcastRemote.publish (w : World) (channel : String) (msg : JSON) : World :=
  { w with bc := { w.bc with pub := w.bc.pub ++ [(channel, msg)] } }

/-- The message `json.Marshal(bcMessage)` of `publishMessage`: the map with the keys "opts" and
"args", written with its keys sorted. -/
def bcMessageJSON (room event : String) (args : List JSON) : JSON :=
  .obj [("args", marshalSlice args), ("opts", .arr [.str room, .str event])]

/-- `redisBroadcastRemote.publishClear`; the fresh uuid is an argument. -/
def redisBroadcastRemote.publishClear (w : World) (room uuid : String) : World :=
  redisBroadcastRemote.publish w w.bc.reqChannel
    (clearRoomRequest.Marshal
      { RequestType := clearRoomReqType, RequestID := uuid, Room := room,
        UUID := w.bc.local_.uid })

/-- `redisBroadcastRemote.onRequest`. -/
def redisBroadcastRemote.onRequest (w : World) (msg : Payload) : Ending × World :=
  match UnmarshalStringMap msg with
  | none => (.returned none, w)
  | some req =>
    if req.getString "RequestType" = roomLenReqType then
      (.returned none, redisBroadcastRemote.publish w w.bc.resChannel
        (roomLenResponse.Marshal
          { RequestType := req.getString "RequestType", RequestID := req.getString "RequestID",
            Connections := (w.bc.local_.lenRoom (req.getString "Room") : Nat) }))
    else if req.getString "RequestType" = allRoomReqType then
      (.returned none, redisBroadcastRemote.publish w w.bc.resChannel
        (allRoomResponse.Marshal
          { RequestType := req.getString "RequestType", RequestID := req.getString "RequestID",
            Rooms := w.bc.local_.allRooms }))
    else if req.getString "RequestType" = clearRoomReqType then
      if w.bc.local_.uid = req.getString "UUID" then (.returned none, w)
      else
        (.returned none,
          { w with bc := { w.bc with local_ := w.bc.local_.clear (req.getString "Room") } })
    else (.returned none, w)

/-- The pending record `req` is put back under `id`: the handlers change the record that the
entry of `bc.requests` points to. -/
def World.setRequest (w : World) (id : String) (req : Request) : World :=
  { w with bc := { w.bc with requests := w.bc.requests.replace id req } }

/-- The loop `for _, room := range rooms { allRoomReq.rooms[room.(string)] = true }`; the flag
is false when `room.(string)` panics on a value that is no string, the map then being what the
loop made of it up to there. -/
def addRooms : List JSON → GoMap Bool → Bool × GoMap Bool
  | [], m => (true, m)
  | .str room :: rest, m => addRooms rest (m.insert room true)
  | _ :: _, m => (false, m)

/-- `redisBroadcastRemote.onResponse`. -/
def redisBroadcastRemote.onResponse (w : World) (msg : Payload) : Ending × World :=
  match UnmarshalAnyMap msg with
  | none => (.returned none, w)
  | some res =>
    match res.lookup "RequestID" with
    | some (.str id) =>
      match w.bc.requests.lookup id with
      | none => (.returned none, w)
      | some req =>
        match res.lookup "RequestType" with
        | some (.str ty) =>
          if ty = roomLenReqType then
            match req with
            | .roomLen roomLenReq =>
              match res.lookup "Connections" with
              | some (.num k) =>
                let r1 := { roomLenReq with
                  msgCount := roomLenReq.msgCount + 1
                  connections := int64 (roomLenReq.connections + intOfFloat64 k) }
                if r1.numSub = r1.msgCount then
                  match r1.done.send true with
                  | some ch => (.returned none, w.setRequest id (.roomLen { r1 with done := ch }))
                  | none => (.blocked, w.setRequest id (.roomLen r1))
                else (.returned none, w.setRequest id (.roomLen r1))
              | _ =>
                (.panicked "interface conversion",
                  w.setRequest id
                    (.roomLen { roomLenReq with msgCount := roomLenReq.msgCount + 1 }))
            | .allRoom _ => (.panicked "interface conversion", w)
          else if ty = allRoomReqType then
            match req with
            | .allRoom allRoomReq =>
              match res.lookup "Rooms" with
              | some (.arr rooms) =>
                match addRooms rooms allRoomReq.rooms with
                | (false, m) =>
                  (.panicked "interface conversion",
                    w.setRequest id
                      (.allRoom { allRoomReq with
                        msgCount := allRoomReq.msgCount + 1, rooms := m }))
                | (true, m) =>
                  let r1 := { allRoomReq with msgCount := allRoomReq.msgCount + 1, rooms := m }
                  if r1.numSub = r1.msgCount then
                    match r1.done.send true with
                    | some ch =>
                      (.returned none, w.setRequest id (.allRoom { r1 with done := ch }))
                    | none => (.blocked, w.setRequest id (.allRoom r1))
                  else (.returned none, w.setRequest id (.allRoom r1))
              | _ =>
                match allRoomReq.done.send true with
                | some ch =>
                  (.returned none, w.setRequest id (.allRoom { allRoomReq with done := ch }))
                | none => (.blocked, w)
            | .roomLen _ => (.panicked "interface conversion", w)
          else (.returned none, w)
        | _ => (.returned none, w)
    | _ => (.panicked "interface conversion", w)

/-- What `bc.sub.Receive()` returns: a `redis.Message`, a `redis.Subscription`, a `redis.Pong`
or an `error`. -/
inductive Frame where
  | Message (Channel : String) (Data : Payload)
  | Subscription (Count : Int)
  | Pong
  | error

/-- Where the loop of `dispatch` stands: `running` when it goes on to the next `Receive`,
`returned` when `dispatch` has returned, `panicked` or `blocked` when a handler panicked or
blocked. -/
inductive LoopState where
  | running
  | returned
  | panicked
  | blocked
  deriving DecidableEq, Repr

/-- One turn of the loop of `redisBroadcastRemote.dispatch`, for the received value `m`. -/
def redisBroadcastRemote.dispatchTurn (w : World) (m : Frame) : LoopState × World :=
  match m with
  | .Message Channel Data =>
    if Channel = w.bc.reqChannel then
      match redisBroadcastRemote.onRequest w Data with
      | (.returned _, w1) => (.running, w1)
      | (.panicked _, w1) => (.panicked, w1)
      | (.blocked, w1) => (.blocked, w1)
    else if Channel = w.bc.resChannel then
      match redisBroadcastRemote.onResponse w Data with
      | (.returned _, w1) => (.running, w1)
      | (.panicked _, w1) => (.panicked, w1)
      | (.blocked, w1) => (.blocked, w1)
    else
      match redisBroadcastRemote.onMessage w Channel Data with
      | (.returned none, w1) => (.running, w1)
      | (.returned (some _), w1) => (.returned, w1)
      | (.panicked _, w1) => (.panicked, w1)
      | (.blocked, w1) => (.blocked, w1)
  | .Subscription Count => if Count = 0 then (.returned, w) else (.running, w)
  | .Pong => (.running, w)
  | .error => (.returned, w)

/-- `redisBroadcastRemote.dispatch` on the frames the subscribing connection delivers: the
state of the loop, the state of the node and the frames left unprocessed when the loop has
stopped or waits for a frame that is not there yet. -/
def redisBroadcastRemote.dispatch : World → List Frame → LoopState × World × List Frame
  | w, [] => (.running, w, [])
  | w, m :: rest =>
    match redisBroadcastRemote.dispatchTurn w m with
    | (.running, w1) => redisBroadcastRemote.dispatch w1 rest
    | (st, w1) => (st, w1, rest)

/-- The channel `done` of a pending record. -/
def Request.done : Request → Chan
  | .roomLen req => req.done
  | .allRoom req => req.done

/-- The pending record with its channel `done` holding `ch`. -/
def Request.withDone : Request → Chan → Request
  | .roomLen req, ch => .roomLen { req with done := ch }
  | .allRoom req, ch => .allRoom { req with done := ch }

/-- The receive `<-req.done` of the caller that registered the record `id`, tried once: `none`
when the channel is empty. -/
def redisBroadcastRemote.tryReceiveDone (w : World) (id : String) : Option World :=
  match w.bc.requests.lookup id with
  | none => none
  | some req =>
    match req.done with
    | [] => none
    | _ :: ch => some (w.setRequest id (req.withDone ch))

/-- The caller blocked in `<-req.done` while the dispatch loop hands the response payloads
`inbound` to `onResponse`: the state when the caller has received from `done`, `none` when it
never does (no signal comes, or the dispatch loop panics or blocks). -/
def redisBroadcastRemote.awaitDone (id : String) : World → List Payload → Option World
  | w, [] => redisBroadcastRemote.tryReceiveDone w id
  | w, msg :: rest =>
    match redisBroadcastRemote.tryReceiveDone w id with
    | some w1 => some w1
    | none =>
      match redisBroadcastRemote.onResponse w msg with
      | (.returned _, w1) => redisBroadcastRemote.awaitDone id w1 rest
      | _ => none

/-- `redisBroadcastRemote.lenRoom` up to the wait on `done`. The fresh uuid is an argument;
`numSub` is what `getNumSub` returns (`none` for an error) and `publishOk` tells whether the
`PUBLISH` of the request returned no error. The first component is the value returned when the
call returns before waiting. -/
def redisBroadcastRemote.lenRoomStart (w : World) (room uuid : String) (numSub : Option Int)
    (publishOk : Bool) : Option Int × World :=
  match numSub with
  | none => (some (-1), w)
  | some n =>
    let req : roomLenRequest :=
      { RequestType := roomLenReqType, RequestID := uuid, Room := room, numSub := n,
        msgCount := 0, connections := 0, done := [] }
    let w1 : World :=
      { w with bc := { w.bc with requests := w.bc.requests.insert uuid (.roomLen req) } }
    let w2 := redisBroadcastRemote.publish w1 w1.bc.reqChannel req.Marshal
    if publishOk then (none, w2) else (some (-1), w2)

/-- `redisBroadcastRemote.lenRoom` after the receive from `done`: the record is deleted and
`req.connections` returned. -/
def redisBroadcastRemote.lenRoomFinish (w : World) (uuid : String) : Int × World :=
  (match w.bc.requests.lookup uuid with
    | some (.roomLen req) => req.connections
    | _ => 0,
   { w with bc := { w.bc with requests := w.bc.requests.erase uuid } })

/-- `redisBroadcastRemote.lenRoom`, with the response payloads `inbound` handled by the
dispatch loop while the call waits; `none` when the call never returns. -/
def redisBroadcastRemote.lenRoom (w : World) (room uuid : String) (numSub : Option Int)
    (publishOk : Bool) (inbound : List Payload) : Option (Int × World) :=
  match redisBroadcastRemote.lenRoomStart w room uuid numSub publishOk with
  | (some v, w1) => some (v, w1)
  | (none, w1) =>
    match redisBroadcastRemote.awaitDone uuid w1 inbound with
    | none => none
    | some w2 => some (redisBroadcastRemote.lenRoomFinish w2 uuid)

/-- `redisBroadcastRemote.allRooms` up to the wait on `done`; an error of `getNumSub` is
ignored and leaves `numSub` 0. -/
def redisBroadcastRemote.allRoomsStart (w : World) (uuid : String) (numSub : Option Int)
    (publishOk : Bool) : Option (List String) × World :=
  let req : allRoomRequest :=
    { RequestType := allRoomReqType, RequestID := uuid, rooms := ∅, numSub := numSub.getD 0,
      msgCount := 0, done := [] }
  let w1 : World :=
    { w with bc := { w.bc with requests := w.bc.requests.insert uuid (.allRoom req) } }
  let w2 := redisBroadcastRemote.publish w1 w1.bc.reqChannel req.Marshal
  if publishOk then (none, w2) else (some [], w2)

/-- `redisBroadcastRemote.allRooms` after the receive from `done`: the keys of `req.rooms` are
collected, the record is deleted. -/
def redisBroadcastRemote.allRoomsFinish (w : World) (uuid : String) : List String × World :=
  (match w.bc.requests.lookup uuid with
    | some (.allRoom req) => req.rooms.keys
    | _ => [],
   { w with bc := { w.bc with requests := w.bc.requests.erase uuid } })

/-- `redisBroadcastRemote.allRooms`, with the response payloads `inbound` handled by the
dispatch loop while the call waits; `none` when the call never returns. -/
def redisBroadcastRemote.allRooms (w : World) (uuid : String) (numSub : Option Int)
    (publishOk : Bool) (inbound : List Payload) : Option (List String × World) :=
  match redisBroadcastRemote.allRoomsStart w uuid numSub publishOk with
  | (some v, w1) => some (v, w1)
  | (none, w1) =>
    match redisBroadcastRemote.awaitDone uuid w1 inbound with
    | none => none
    | some w2 => some (redisBroadcastRemote.allRoomsFinish w2 uuid)

/-! ### broadcast_redis_v8.go and the bus -/

/-- `redisBroadcast.Len`: `bc.remote.lenRoom(room)`. -/
def redisBroadcast.Len (w : World) (room uuid : String) (numSub : Option Int)
    (publishOk : Bool) (inbound : List Payload) : Option (Int × World) :=
  redisBroadcastRemote.lenRoom w room uuid numSub publishOk inbound

/-- The responses that the nodes `nodes` publish when the request `request` reaches them on the
request channel: for each node, what its `onRequest` adds to the `PUBLISH` commands. -/
def answers (nodes : List World) (request : JSON) : List Payload :=
  nodes.flatMap (fun nd =>
    (((redisBroadcastRemote.onRequest nd (some request)).2.bc.pub.drop nd.bc.pub.length).map
      (fun m => some m.2)))

/-- `Len(room)` issued at the node `issuer` of a cluster whose other nodes are `peers`, on a
bus that works: every node is subscribed to the request channel, so `PUBSUB NUMSUB` answers the
number of nodes; the request reaches every node, the issuer included; the responses reach the
issuer in the order of the nodes. -/
def clusterLen (issuer : World) (peers : List World) (room uuid : String) :
    Option (Int × World) :=
  let started :=
    (redisBroadcastRemote.lenRoomStart issuer room uuid (some ((peers.length : Int) + 1)) true).2
  match started.bc.pub.getLast? with
  | none => none
  | some request =>
    redisBroadcast.Len issuer room uuid (some ((peers.length : Int) + 1)) true
      (answers (started :: peers) request.2)

end redis_local


namespace redis_local

/-- Node A of the scenarios of the spec: namespace "/", uid "A", the connections c1 and c2 in
room "r", the prefix "socket.io". -/
def scenarioA : World :=
  ⟨newRedisBroadcastRemote "/" "socket.io"
    (((newRedisBroadcastLocal "/" "A").join "r" ⟨"c1", 1⟩).join "r" ⟨"c2", 2⟩), []⟩

/-- Node B of the scenarios of the spec: namespace "/", uid "B", the connection c3 in room
"r", the prefix "socket.io". -/
def scenarioB : World :=
  ⟨newRedisBroadcastRemote "/" "socket.io"
    ((newRedisBroadcastLocal "/" "B").join "r" ⟨"c3", 3⟩), []⟩

end redis_local


namespace redis_local

/-- The field `msgCount` of a pending record. -/
def Request.msgCount : Request → Int
  | .roomLen req => req.msgCount
  | .allRoom req => req.msgCount

/-- The field `numSub` of a pending record. -/
def Request.numSub : Request → Int
  | .roomLen req => req.numSub
  | .allRoom req => req.numSub

end redis_local


namespace redis_local

/-- `redisBroadcastRemote.clear`: `go bc.publishClear(room)`; the fresh uuid is an argument. -/
def redisBroadcastRemote.clear (w : World) (room uuid : String) : World :=
  redisBroadcastRemote.publishClear w room uuid

/-- `redisBroadcast.Clear`: `bc.local.clear(room)`, then `bc.remote.clear(room)`. -/
def redisBroadcast.Clear (w : World) (room uuid : String) : World :=
  redisBroadcastRemote.clear
    { w with bc := { w.bc with local_ := w.bc.local_.clear room } } room uuid

/-- `redisBroadcast.AllRooms`: `bc.remote.allRooms()`. -/
def redisBroadcast.AllRooms (w : World) (uuid : String) (numSub : Option Int)
    (publishOk : Bool) (inbound : List Payload) : Option (List String × World) :=
  redisBroadcastRemote.allRooms w uuid numSub publishOk inbound

/-- The payload of the last `PUBLISH` command of the node, `none` when it sent none. -/
def lastPublished (w : World) : Payload :=
  w.bc.pub.getLast?.map (fun m => m.2)

end redis_local

/-! ## namespace_handler.go -/

/-- `getDispatchDisconnectData`, the arguments being the values held by the `reflect.Value`s
(`JSON.obj` for a `map[string]interface{}`). The result is the pair `(reason, details)`,
`details` being `none` for the nil map; `Except.error` stands for the panic of a type
assertion. -/
def getDispatchDisconnectData (args : List JSON) :
    Except String (String × Option (List (String × JSON))) :=
  let step1 : Except String String :=
    if args.length > 0 then
      match index args 0 with
      | some (.str s) => .ok s
      | _ => .error "interface conversion"
    else .ok ""
  match step1 with
  | .error e => .error e
  | .ok reason =>
    if args.length > 1 then
      match index args 0 with
      | some (.obj kvs) => .ok (reason, some kvs)
      | _ => .error "interface conversion"
    else .ok (reason, none)


namespace redis_local

/-- Node A of the scenarios after its first `Clear("r")`. -/
def scenarioA_cleared : World :=
  redisBroadcast.Clear scenarioA "r" "u1"

/-- Node B of the scenarios after it has applied the clearRoom request of node A's first
`Clear("r")` and the connection c4 has then joined the room "r" on it. -/
def scenarioB_rejoined : World :=
  let b1 := (redisBroadcastRemote.onRequest scenarioB (lastPublished scenarioA_cleared)).2
  { b1 with bc := { b1.bc with local_ := b1.bc.local_.join "r" ⟨"c4", 4⟩ } }

end redis_local


/-! ## engineio/payload/encoder.go

Bytes are natural numbers below 256. The packages `frame` and `packet` are not among the
sources: of a frame type the encoder only asks whether it is `frame.Binary`, of a packet type
only its `StringByte()`. -/

namespace payload

/-- The type `frame.Type`, as far as the encoder tells its values apart: `frame.Binary` and
the text frames. -/
inductive FrameType where
  | Text
  | Binary
  deriving DecidableEq

/-- The type `packet.Type`, given by the byte its method `StringByte()` returns. -/
structure PacketType where
  StringByte : Nat
  deriving DecidableEq

/-- An `io.Writer`: the bytes delivered to it so far; with `err` set, every `Write` delivers
nothing and returns that error. -/
structure Writer where
  received : List Nat
  err : Option String
  deriving DecidableEq

/-- `Write` on an `io.Writer`; the second component is the error, `none` for nil. -/
def Writer.Write (w : Writer) (p : List Nat) : Writer × Option String :=
  match w.err with
  | some e => (w, some e)
  | none => ({ w with received := w.received ++ p }, none)

/-- `bytes.Buffer.WriteTo`: the content of the buffer is written to `w` (`none` is the nil
writer, on which the call panics) and the buffer is reset when all of it was written. The
result is the buffer, the writer and the error; `none` stands for the panic. -/
def bufferWriteTo (buf : List Nat) (w : Option Writer) :
    Option (List Nat × Option Writer × Option String) :=
  if buf.length > 0 then
    match w with
    | none => none
    | some wr =>
      match wr.Write buf with
      | (wr1, some e) => some (buf, some wr1, some e)
      | (wr1, none) => some ([], some wr1, none)
  else some ([], w, none)

/-- The alphabet of `base64.StdEncoding`: the character of the 6-bit value `i`. -/
def encodeStdChar (i : Nat) : Nat :=
  if i < 26 then 65 + i
  else if i < 52 then 97 + (i - 26)
  else if i < 62 then 48 + (i - 52)
  else if i = 62 then 43
  else 47

/-- `base64.StdEncoding.Encode`: three bytes give four characters; a rest of two bytes gives
three characters and one '=', a rest of one byte two characters and "==". -/
def encodeStd : List Nat → List Nat
  | a :: b :: c :: rest =>
    [encodeStdChar ((a * 65536 + b * 256 + c) / 262144 % 64),
     encodeStdChar ((a * 65536 + b * 256 + c) / 4096 % 64),
     encodeStdChar ((a * 65536 + b * 256 + c) / 64 % 64),
     encodeStdChar ((a * 65536 + b * 256 + c) % 64)] ++ encodeStd rest
  | [a, b] =>
    [encodeStdChar ((a * 65536 + b * 256) / 262144 % 64),
     encodeStdChar ((a * 65536 + b * 256) / 4096 % 64),
     encodeStdChar ((a * 65536 + b * 256) / 64 % 64), 61]
  | [a] =>
    [encodeStdChar (a * 65536 / 262144 % 64), encodeStdChar (a * 65536 / 4096 % 64), 61, 61]
  | [] => []

/-- The state of the stream encoder `base64.NewEncoder(base64.StdEncoding, &e.frameCache)`:
the bytes it holds back, fewer than three, until a group of three is complete. What it encodes
goes to the frame cache of the encoder that owns it. -/
structure b64Encoder where
  buf : List Nat
  deriving DecidableEq

/-- The interface `writerFeeder`: what `getWriter()` returns, and what `putWriter(err)`
returns for each `err`. -/
structure writerFeeder where
  getWriter : Except String Writer
  putWriter : Option String → Option String

/-- The type `encoder`; `b64Writer` and `rawWriter` are `none` when nil. -/
structure encoder where
  supportBinary : Bool
  feeder : writerFeeder
  ft : FrameType
  pt : PacketType
  header : List Nat
  frameCache : List Nat
  b64Writer : Option b64Encoder
  rawWriter : Option Writer

/-- `encoder.NextWriter`: the error of `getWriter`, or the encoder itself, made ready for the
frame. -/
def encoder.NextWriter (e : encoder) (ft : FrameType) (pt : PacketType) :
    Except String encoder :=
  match e.feeder.getWriter with
  | .error err => .error err
  | .ok w =>
    .ok { e with
      rawWriter := some w
      ft := ft
      pt := pt
      frameCache := []
      b64Writer := if ft = .Binary then some ⟨[]⟩ else none }

/-- `encoder.Write`; it returns `(len(p), nil)` on both paths, a `bytes.Buffer` taking every
write. The stream encoder encodes the complete groups of three of what it held back followed
by `p`, and holds back the rest. -/
def encoder.Write (e : encoder) (p : List Nat) : encoder :=
  match e.b64Writer with
  | some b =>
    let data := b.buf ++ p
    let n := data.length / 3 * 3
    { e with
      frameCache := e.frameCache ++ encodeStd (data.take n)
      b64Writer := some ⟨data.drop n⟩ }
  | none => { e with frameCache := e.frameCache ++ p }

/-- `encoder.writeTextHeader`; `WriteByte` on a `bytes.Buffer` returns nil. -/
def encoder.writeTextHeader (e : encoder) : encoder × Option String :=
  ({ e with header := e.header ++ [e.pt.StringByte] }, none)

/-- `encoder.writeB64Header`; 98 is 'b'. -/
def encoder.writeB64Header (e : encoder) : encoder × Option String :=
  ({ e with header := (e.header ++ [e.pt.StringByte]) ++ [98] }, none)

/-- `encoder.Close`: the returned error and the encoder; `none` stands for the panic of a
write to the nil `rawWriter`. Closing the stream encoder encodes, padded, what it held back. -/
def encoder.Close (e : encoder) : Option (Option String × encoder) :=
  let e1 : encoder :=
    match e.b64Writer with
    | some b => { e with frameCache := e.frameCache ++ encodeStd b.buf, b64Writer := some ⟨[]⟩ }
    | none => e
  let e2 : encoder := { e1 with header := [] }
  let (e3, err3) := if e2.ft = .Binary then e2.writeB64Header else e2.writeTextHeader
  let step4 : Option (encoder × Option String) :=
    match err3 with
    | some err => some (e3, some err)
    | none =>
      match bufferWriteTo e3.header e3.rawWriter with
      | none => none
      | some (h, w, err) => some ({ e3 with header := h, rawWriter := w }, err)
  match step4 with
  | none => none
  | some (e4, err4) =>
    let step5 : Option (encoder × Option String) :=
      match err4 with
      | some err => some (e4, some err)
      | none =>
        match bufferWriteTo e4.frameCache e4.rawWriter with
        | none => none
        | some (c, w, err) => some ({ e4 with frameCache := c, rawWriter := w }, err)
    match step5 with
    | none => none
    | some (e5, err5) =>
      match e5.feeder.putWriter err5 with
      | some werr => some (some werr, e5)
      | none => some (err5, e5)

/-- One frame written through the encoder: `NextWriter(ft, pt)`, a `Write` for each chunk, then
`Close`. The result is the error returned (by `NextWriter`, else by `Close`) and the encoder;
`none` stands for a panic. -/
def encoder.writeFrame (e : encoder) (ft : FrameType) (pt : PacketType)
    (chunks : List (List Nat)) : Option (Option String × encoder) :=
  match e.NextWriter ft pt with
  | .error err => some (some err, e)
  | .ok e1 => (chunks.foldl encoder.Write e1).Close

/-- The bytes of a string, for the examples. -/
def bytesOf (s : String) : List Nat :=
  s.toList.map Char.toNat

end payload


namespace payload

/-- An encoder as a previous frame can have left it, with bytes in the header, in the frame
cache and in the stream encoder; its feeder hands out an empty writer that takes every write,
and `putWriter` returns the error it is given. -/
def usedEncoder : encoder :=
  { supportBinary := true
    feeder := { getWriter := .ok ⟨[], none⟩, putWriter := fun err => err }
    ft := .Binary
    pt := ⟨50⟩
    header := [50, 98]
    frameCache := [65, 65, 65, 65]
    b64Writer := some ⟨[7]⟩
    rawWriter := none }

end payload


/-! ## map.go with its pointers

In `map_go` above a `*connMap` is taken for the connection map it points to, which is right as
long as no pointer is held across a change of the index. `forEach` holds two while the callback
runs and may change the index: `occupants`, and the map `iterating` that `iterableData` has
made. Here the maps `map[string]Conn` live in a memory, a `*connMap` is an address, and a loop
over a map reads the map again at every turn. -/

namespace map_go_mem

/-- The memory: the maps `map[string]Conn` made so far, each at the address that is its
position. -/
abbrev Memory := List (GoMap Conn)

/-- The content of the map at the address `a`. -/
def Memory.read (mem : Memory) (a : Nat) : GoMap Conn :=
  mem.getD a ∅

/-- The memory after the map at the address `a` has been changed into `m`. -/
def Memory.write (mem : Memory) (a : Nat) (m : GoMap Conn) : Memory :=
  mem.set a m

/-- A new map with the content `m`: the memory with it, and its address. -/
def Memory.alloc (mem : Memory) (m : GoMap Conn) : Memory × Nat :=
  (mem ++ [m], mem.length)

/-- A `*connMap`: `data` is the address of the map in its field `data`, which `newConnMap`
sets and nothing changes. -/
structure connMap where
  data : Nat
  deriving DecidableEq

/-- `newConnMap`. -/
def newConnMap (mem : Memory) : Memory × connMap :=
  ((mem.alloc ∅).1, ⟨(mem.alloc ∅).2⟩)

/-- `connMap.join`: `cm.data[conn.ID()] = conn`. -/
def connMap.join (cm : connMap) (conn : Conn) (mem : Memory) : Memory :=
  mem.write cm.data ((mem.read cm.data).insert conn.ID conn)

/-- `connMap.leave`: `delete(cm.data, conn.ID())`. -/
def connMap.leave (cm : connMap) (conn : Conn) (mem : Memory) : Memory :=
  mem.write cm.data ((mem.read cm.data).erase conn.ID)

/-- `connMap.len`: `len(cm.data)`. -/
def connMap.len (cm : connMap) (mem : Memory) : Nat :=
  (mem.read cm.data).len

/-- `connMap.iterableData`: `copyMap(cm.data)`, a new map; the result is the memory with it and
its address. -/
def connMap.iterableData (cm : connMap) (mem : Memory) : Memory × Nat :=
  mem.alloc (copyMap (mem.read cm.data))

/-- The loop `for k := range m { if !h(k, m[k]) { break } }` over a map that the handler may
change while the loop runs: `m s` is the content of the map in the state `s`. Every turn takes
the first entry of the map as it is then whose key the loop has not produced yet, so an entry
removed before its turn is not produced, and an entry added during the loop is (the language
allows it to be produced or skipped). `produced` are the keys produced so far; the loop makes
at most `fuel` calls of `h`, and the result is `none` when that was not enough. -/
def rangeMap {V σ : Type} (m : σ → GoMap V) (h : String → V → σ → Bool × σ) :
    Nat → List String → σ → Option σ
  | 0, produced, s =>
    match (m s).entries.find? (fun e => decide (e.1 ∉ produced)) with
    | none => some s
    | some _ => none
  | fuel + 1, produced, s =>
    match (m s).entries.find? (fun e => decide (e.1 ∉ produced)) with
    | none => some s
    | some e =>
      match h e.1 e.2 s with
      | (true, s1) => rangeMap m h fuel (produced ++ [e.1]) s1
      | (false, s1) => some s1

/-- The type `roomMap` of map.go: `data` maps a room to its `*connMap`. -/
structure roomMap where
  data : GoMap connMap
  deriving DecidableEq

/-- `newRoomMap`. -/
def newRoomMap : roomMap := ⟨∅⟩

/-- `roomMap.join`. -/
def roomMap.join (rm : roomMap) (room : String) (conn : Conn) (mem : Memory) :
    roomMap × Memory :=
  match rm.data.lookup room with
  | some cm => (rm, cm.join conn mem)
  | none =>
    let (mem1, cm) := newConnMap mem
    (⟨rm.data.insert room cm⟩, cm.join conn mem1)

/-- `roomMap.iterableData`: a copy of the map of the rooms. The loops over it change no map of
rooms, so the copy is kept as a value. -/
def roomMap.iterableData (rm : roomMap) : GoMap connMap :=
  copyMap rm.data

/-- `roomMap.leaveAll`. -/
def roomMap.leaveAll (rm : roomMap) (conn : Conn) (mem : Memory) : Memory :=
  rangeLoop (fun _ cm mem1 => (true, cm.leave conn mem1)) rm.iterableData.entries mem

/-- `roomMap.leave`. -/
def roomMap.leave (rm : roomMap) (room : String) (conn : Conn) (mem : Memory) :
    roomMap × Memory :=
  match rm.data.lookup room with
  | none => (rm, mem)
  | some cm =>
    if cm.len (cm.leave conn mem) = 0 then (⟨rm.data.erase room⟩, cm.leave conn mem)
    else (rm, cm.leave conn mem)

/-- `roomMap.delete`. -/
def roomMap.delete (rm : roomMap) (room : String) : roomMap :=
  ⟨rm.data.erase room⟩

/-- `roomMap.getConnections`; `none` stands for `(nil, false)`. -/
def roomMap.getConnections (rm : roomMap) (room : String) : Option connMap :=
  rm.data.lookup room

/-- The type `redisBroadcastLocal`, over the room map of map.go. -/
structure redisBroadcastLocal where
  nsp : String
  uid : String
  roomsSync : roomMap
  deriving DecidableEq

/-- `newRedisBroadcastLocal`; the fresh uuid is an argument. -/
def newRedisBroadcastLocal (nsp uid : String) : redisBroadcastLocal :=
  ⟨nsp, uid, newRoomMap⟩

/-- What the code runs in: the index, the memory its pointers point into, the rest `ext` of
the state of the program, and the connections that the callback of a `forEach` has been called
with, oldest first. -/
structure World (τ : Type) where
  bc : redisBroadcastLocal
  mem : Memory
  ext : τ
  calls : List Conn

/-- A new index in an empty memory. -/
def World.new {τ : Type} (nsp uid : String) (x : τ) : World τ :=
  ⟨newRedisBroadcastLocal nsp uid, [], x, []⟩

/-- `redisBroadcastLocal.getOccupants`. -/
def redisBroadcastLocal.getOccupants (bc : redisBroadcastLocal) (room : String) :
    Option connMap :=
  bc.roomsSync.getConnections room

/-- `redisBroadcastLocal.clear`. -/
def redisBroadcastLocal.clear {τ : Type} (room : String) (w : World τ) : World τ :=
  { w with bc := { w.bc with roomsSync := w.bc.roomsSync.delete room } }

/-- `redisBroadcastLocal.join`. -/
def redisBroadcastLocal.join {τ : Type} (room : String) (conn : Conn) (w : World τ) :
    World τ :=
  { w with
    bc := { w.bc with roomsSync := (w.bc.roomsSync.join room conn w.mem).1 }
    mem := (w.bc.roomsSync.join room conn w.mem).2 }

/-- `redisBroadcastLocal.leaveAll`. -/
def redisBroadcastLocal.leaveAll {τ : Type} (conn : Conn) (w : World τ) : World τ :=
  { w with mem := w.bc.roomsSync.leaveAll conn w.mem }

/-- `redisBroadcastLocal.leave`. -/
def redisBroadcastLocal.leave {τ : Type} (room : String) (conn : Conn) (w : World τ) :
    World τ :=
  { w with
    bc := { w.bc with roomsSync := (w.bc.roomsSync.leave room conn w.mem).1 }
    mem := (w.bc.roomsSync.leave room conn w.mem).2 }

/-- What a callback does to the index: a call of one of the methods that change it. -/
inductive Op where
  | join (room : String) (conn : Conn)
  | leave (room : String) (conn : Conn)
  | leaveAll (conn : Conn)
  | clear (room : String)

/-- The call that `op` stands for. -/
def Op.run {τ : Type} : Op → World τ → World τ
  | .join room conn, w => redisBroadcastLocal.join room conn w
  | .leave room conn, w => redisBroadcastLocal.leave room conn w
  | .leaveAll conn, w => redisBroadcastLocal.leaveAll conn w
  | .clear room, w => redisBroadcastLocal.clear room w

/-- An `EachFunc`, a callback `func(Conn)`: called with a connection in a state of the program,
it makes the calls `ops` on the index, one after the other, and leaves `ext` as the rest of the
state. It reaches the index through its methods only: a map that `forEach` holds in a local
variable is out of its reach. -/
structure EachFunc (τ : Type) where
  ops : Conn → World τ → List Op
  ext : Conn → World τ → τ

/-- The call `f(conn)`. -/
def EachFunc.call {τ : Type} (f : EachFunc τ) (conn : Conn) (w : World τ) : World τ :=
  { (f.ops conn w).foldl (fun w1 op => op.run w1) w with
    ext := f.ext conn w
    calls := w.calls ++ [conn] }

/-- `connMap.forEach`: the loop runs over the map `iterating` that `iterableData` has made;
`fuel` bounds the calls of `h`. -/
def connMap.forEach {τ : Type} (cm : connMap) (h : String → Conn → World τ → Bool × World τ)
    (fuel : Nat) (w : World τ) : Option (World τ) :=
  rangeMap (fun w1 => w1.mem.read (cm.iterableData w.mem).2) h fuel []
    { w with mem := (cm.iterableData w.mem).1 }

/-- `redisBroadcastLocal.forEach`. -/
def redisBroadcastLocal.forEach {τ : Type} (room : String) (f : EachFunc τ) (fuel : Nat)
    (w : World τ) : Option (World τ) :=
  match w.bc.getOccupants room with
  | none => some w
  | some occupants => occupants.forEach (fun _ conn w1 => (true, f.call conn w1)) fuel w

/-- Every `*connMap` of the index points into the memory. -/
def World.WellFormed {τ : Type} (w : World τ) : Prop :=
  ∀ e ∈ w.bc.roomsSync.data.entries, e.2.data < w.mem.length

instance {τ : Type} (w : World τ) : Decidable w.WellFormed :=
  inferInstanceAs (Decidable (∀ e ∈ w.bc.roomsSync.data.entries, e.2.data < w.mem.length))

/-- The states the index gets into from a new one by the methods that change it. -/
inductive Reachable {τ : Type} : World τ → Prop
  | new (nsp uid : String) (x : τ) : Reachable (World.new nsp uid x)
  | run {w : World τ} (op : Op) : Reachable w → Reachable (op.run w)

/-- The index with c1 and c2 in the room "r", made by two calls of `join` on a new index. -/
def twoInRoom : World Unit :=
  redisBroadcastLocal.join "r" ⟨"c2", 2⟩
    (redisBroadcastLocal.join "r" ⟨"c1", 1⟩ (World.new "/" "node" ()))

/-- A callback that removes the room "r" and then joins the connection c9 to "r". -/
def clearAndJoin : EachFunc Unit :=
  { ops := fun _ _ => [.clear "r", .join "r" ⟨"c9", 9⟩]
    ext := fun _ _ => () }

/-- A callback that removes c1 and c2 from the room "r". -/
def leaveBoth : EachFunc Unit :=
  { ops := fun _ _ => [.leave "r" ⟨"c1", 1⟩, .leave "r" ⟨"c2", 2⟩]
    ext := fun _ _ => () }

end map_go_mem


/-! ## Association lists: replacing a value, copying, walking -/

section lists

variable {V : Type}

theorem kreplace_cons (a : String) (b : V) (e : Σ _ : String, V) (l : List (Σ _ : String, V)) :
    List.kreplace a b (e :: l) = if a = e.1 then ⟨a, b⟩ :: l else e :: List.kreplace a b l := by
  unfold List.kreplace
  split_ifs with h
  · exact List.lookmap_cons_some _ _ (by simp [h])
  · exact List.lookmap_cons_none _ _ (by simp [h])

theorem dlookup_kreplace_self (a : String) (b : V) (l : List (Σ _ : String, V)) :
    List.dlookup a (List.kreplace a b l) = (List.dlookup a l).map (fun _ => b) := by
  induction l with
  | nil => simp [List.kreplace]
  | cons e l ih =>
    obtain ⟨k, v⟩ := e
    rw [kreplace_cons]
    by_cases h : a = k
    · subst h
      simp
    · simp [h, List.dlookup_cons_ne, ih]

theorem dlookup_cons_other {k a1 : String} (h : a1 ≠ k) (v : V) (l : List (Σ _ : String, V)) :
    List.dlookup a1 ((⟨k, v⟩ : Σ _ : String, V) :: l) = List.dlookup a1 l :=
  List.dlookup_cons_ne l _ h

theorem dlookup_kreplace_ne {a a1 : String} (h : a1 ≠ a) (b : V) (l : List (Σ _ : String, V)) :
    List.dlookup a1 (List.kreplace a b l) = List.dlookup a1 l := by
  induction l with
  | nil => simp [List.kreplace]
  | cons e l ih =>
    obtain ⟨k, v⟩ := e
    rw [kreplace_cons]
    by_cases hk : a = k
    · subst hk
      simp only [if_true]
      rw [dlookup_cons_other h, dlookup_cons_other h]
    · simp only [hk, if_false]
      by_cases h1 : a1 = k
      · subst h1
        simp
      · rw [dlookup_cons_other h1, dlookup_cons_other h1, ih]

theorem kreplace_kreplace (a : String) (b c : V) (l : List (Σ _ : String, V)) :
    List.kreplace a c (List.kreplace a b l) = List.kreplace a c l := by
  induction l with
  | nil => simp [List.kreplace]
  | cons e l ih =>
    by_cases h : a = e.1
    · simp [kreplace_cons, h]
    · simp [kreplace_cons, h, ih]

theorem kreplace_eq_map (a : String) (b : V) {l : List (Σ _ : String, V)} (nd : l.NodupKeys) :
    List.kreplace a b l = l.map (fun e => if e.1 = a then (⟨a, b⟩ : Σ _ : String, V) else e) := by
  induction l with
  | nil => simp [List.kreplace]
  | cons e l ih =>
    rw [kreplace_cons]
    have hnd := List.nodupKeys_cons.1 nd
    by_cases h : a = e.1
    · have hmap : l.map (fun x => if x.1 = a then (⟨a, b⟩ : Σ _ : String, V) else x) = l := by
        conv_rhs => rw [← List.map_id l]
        apply List.map_congr_left
        intro x hx
        have : x.1 ≠ a := fun hxa => hnd.1 (by rw [← h, ← hxa]; exact List.mem_keys_of_mem hx)
        simp [this]
      rw [List.map_cons, hmap]
      simp [h]
    · have h1 : ¬ e.1 = a := fun he => h he.symm
      simp [h, h1, ih hnd.2]

theorem foldl_kreplace (g : V → V) :
    ∀ (ks L : List (Σ _ : String, V)), L.NodupKeys → ks.NodupKeys → (∀ e ∈ ks, e ∈ L) →
      ks.foldl (fun cur e => List.kreplace e.1 (g e.2) cur) L
        = L.map (fun x => if x.1 ∈ ks.keys then (⟨x.1, g x.2⟩ : Σ _ : String, V) else x) := by
  intro ks
  induction ks with
  | nil => intro L _ _ _; simp
  | cons e ks ih =>
    intro L ndL ndks hsub
    have hk := List.nodupKeys_cons.1 ndks
    have heL : e ∈ L := hsub e (List.mem_cons_self _ _)
    have hstep : List.kreplace e.1 (g e.2) L
        = L.map (fun x => if x.1 = e.1 then (⟨e.1, g e.2⟩ : Σ _ : String, V) else x) :=
      kreplace_eq_map e.1 (g e.2) ndL
    rw [List.foldl_cons, ih _ ((List.kreplace_nodupKeys _ _).2 ndL) hk.2]
    · rw [hstep, List.map_map]
      apply List.map_congr_left
      intro x hx
      by_cases hxe : x.1 = e.1
      · have hxeq : x = e := ndL.eq_of_fst_eq hx heL hxe
        subst hxeq
        simp [hk.1]
      · have hne : ¬ e.1 = x.1 := fun h => hxe h.symm
        simp [hxe, List.keys_cons, List.mem_cons]
    · intro x hx
      have hxL : x ∈ L := hsub x (List.mem_cons_of_mem _ hx)
      have hxe : x.1 ≠ e.1 := fun h => hk.1 (h ▸ List.mem_keys_of_mem hx)
      rw [hstep, List.mem_map]
      exact ⟨x, hxL, by simp [hxe]⟩

theorem foldl_kreplace_self (g : V → V) {L : List (Σ _ : String, V)} (nd : L.NodupKeys)
    {ks : List (Σ _ : String, V)} (ndks : ks.NodupKeys) (h1 : ∀ e ∈ ks, e ∈ L)
    (h2 : ∀ e ∈ L, e ∈ ks) :
    ks.foldl (fun cur e => List.kreplace e.1 (g e.2) cur) L
      = L.map (fun x => (⟨x.1, g x.2⟩ : Σ _ : String, V)) := by
  rw [foldl_kreplace g ks L nd ndks h1]
  apply List.map_congr_left
  intro x hx
  simp [List.mem_keys_of_mem (h2 x hx)]

theorem rangeLoop_true {σ : Type} (g : String → V → σ → σ) (l : List (Σ _ : String, V)) (s : σ) :
    rangeLoop (fun k v s1 => (true, g k v s1)) l s = l.foldl (fun s1 e => g e.1 e.2 s1) s := by
  induction l generalizing s with
  | nil => rfl
  | cons e l ih => simp [rangeLoop, ih]

theorem foldl_append_flatMap {α β : Type} (h : α → List β) (l : List α) (init : List β) :
    l.foldl (fun acc e => acc ++ h e) init = init ++ l.flatMap h := by
  induction l generalizing init with
  | nil => simp
  | cons e l ih => simp [ih, List.flatMap_cons, List.append_assoc]

theorem flatMap_key_hit {β : Type} (a : String) (r : β) {l : List (Σ _ : String, V)}
    (nd : l.NodupKeys) :
    l.flatMap (fun x => if a = x.1 then [r] else []) = if a ∈ l.keys then [r] else [] := by
  induction l with
  | nil => simp
  | cons e l ih =>
    have hnd := List.nodupKeys_cons.1 nd
    rw [List.flatMap_cons, ih hnd.2]
    by_cases h : a = e.1
    · have : a ∉ l.keys := h ▸ hnd.1
      simp [h, hnd.1]
    · simp [h, List.keys_cons]

theorem flatMap_if_eq_filter {W : Type} (p : W → Prop) [DecidablePred p]
    (l : List (Σ _ : String, W)) :
    l.flatMap (fun e => if p e.2 then [e.1] else [])
      = (l.filter (fun e => decide (p e.2))).map (fun e => e.1) := by
  induction l with
  | nil => simp
  | cons e l ih =>
    rw [List.flatMap_cons, ih]
    by_cases h : p e.2 <;> simp [h, List.filter_cons]

theorem nodup_filter_keys {W : Type} (q : (Σ _ : String, W) → Bool) {l : List (Σ _ : String, W)}
    (nd : l.NodupKeys) : ((l.filter q).map (fun e => e.1)).Nodup := by
  have hsub : ((l.filter q).map (fun e => e.1)).Sublist (l.map (fun e => e.1)) :=
    (List.filter_sublist l).map _
  exact hsub.nodup nd

theorem rangeLoop_key_hit {β : Type} (a : String) (r : β) {l : List (Σ _ : String, V)}
    (nd : l.NodupKeys) (acc : List β) :
    rangeLoop (fun connID (_ : V) (acc1 : List β) =>
        (true, if a = connID then acc1 ++ [r] else acc1)) l acc
      = acc ++ if a ∈ l.keys then [r] else [] := by
  rw [rangeLoop_true (fun connID (_ : V) (acc1 : List β) =>
    if a = connID then acc1 ++ [r] else acc1)]
  have hfun : (fun (s1 : List β) (e : Σ _ : String, V) => if a = e.1 then s1 ++ [r] else s1)
      = (fun s1 e => s1 ++ (fun x : Σ _ : String, V => if a = x.1 then [r] else []) e) := by
    funext s1 e
    by_cases h : a = e.1 <;> simp [h]
  rw [hfun, foldl_append_flatMap, flatMap_key_hit a r nd]

theorem rangeLoop_collect {W : Type} (p : W → Prop) [DecidablePred p]
    (l : List (Σ _ : String, W)) :
    rangeLoop (fun room (w : W) (acc : List String) =>
        (true, acc ++ if p w then [room] else [])) l []
      = (l.filter (fun e => decide (p e.2))).map (fun e => e.1) := by
  rw [rangeLoop_true (fun room (w : W) (acc : List String) =>
    acc ++ if p w then [room] else [])]
  rw [foldl_append_flatMap (fun e : Σ _ : String, W => if p e.2 then [e.1] else [])]
  simp [flatMap_if_eq_filter]

theorem foldl_insert_entries :
    ∀ (l : List (Σ _ : String, V)) (acc : GoMap V), l.NodupKeys → (∀ e ∈ l, e.1 ∉ acc) →
      (l.foldl (fun (res : GoMap V) e => res.insert e.1 e.2) acc).entries
        = l.reverse ++ acc.entries := by
  intro l
  induction l with
  | nil => intro acc _ _; simp
  | cons e l ih =>
    intro acc nd hacc
    have hnd := List.nodupKeys_cons.1 nd
    have he : e.1 ∉ acc := hacc e (List.mem_cons_self _ _)
    rw [List.foldl_cons, ih _ hnd.2]
    · rw [AList.insert_entries_of_neg he]
      simp
    · intro x hx
      rw [AList.mem_insert]
      rintro (h | h)
      · exact hnd.1 (h ▸ List.mem_keys_of_mem hx)
      · exact hacc x (List.mem_cons_of_mem _ hx) h

theorem copyMap_entries (m : GoMap V) : (copyMap m).entries = m.entries.reverse := by
  unfold copyMap
  rw [foldl_insert_entries m.entries ∅ m.nodupKeys (fun e _ => AList.not_mem_empty e.1)]
  simp

theorem nodupKeys_reverse {l : List (Σ _ : String, V)} (nd : l.NodupKeys) :
    l.reverse.NodupKeys :=
  (List.perm_nodupKeys (List.reverse_perm l)).2 nd

theorem keys_reverse_mem {l : List (Σ _ : String, V)} (a : String) :
    a ∈ l.reverse.keys ↔ a ∈ l.keys := by
  simp [List.keys]

end lists

namespace GoMap

variable {V : Type}

theorem lookup_replace_self (m : GoMap V) (k : String) (v : V) :
    (m.replace k v).lookup k = (m.lookup k).map (fun _ => v) :=
  dlookup_kreplace_self k v m.entries

theorem lookup_replace_ne (m : GoMap V) {k k1 : String} (h : k1 ≠ k) (v : V) :
    (m.replace k v).lookup k1 = m.lookup k1 :=
  dlookup_kreplace_ne h v m.entries

theorem replace_replace (m : GoMap V) (k : String) (v w : V) :
    (m.replace k v).replace k w = m.replace k w :=
  AList.ext (kreplace_kreplace k v w m.entries)

theorem replace_insert (m : GoMap V) (k : String) (v w : V) :
    (m.insert k v).replace k w = m.insert k w :=
  AList.ext (by simp [AList.replace, AList.insert_entries, kreplace_cons])

theorem entries_replace (m : GoMap V) (k : String) (v : V) :
    (m.replace k v).entries
      = m.entries.map (fun e => if e.1 = k then (⟨k, v⟩ : Σ _ : String, V) else e) :=
  kreplace_eq_map k v m.nodupKeys

end GoMap

/-! ## map.go: join and leave -/

namespace map_go

theorem roomMap.lookup_join (rm : roomMap) (room : String) (conn : Conn) (r : String) :
    (rm.join room conn).data.lookup r
      = if r = room then some (((rm.data.lookup room).getD newConnMap).join conn)
        else rm.data.lookup r := by
  unfold roomMap.join
  by_cases h : r = room
  · subst h
    cases hl : rm.data.lookup r with
    | none => simp [GoMap.lookup_replace_self, AList.lookup_insert]
    | some cm => simp [GoMap.lookup_replace_self, hl]
  · cases hl : rm.data.lookup room with
    | none => simp [h, GoMap.lookup_replace_ne _ h, AList.lookup_insert_ne h]
    | some cm => simp [h, GoMap.lookup_replace_ne _ h]

theorem connMap.join_join (cm : connMap) (conn : Conn) :
    (cm.join conn).join conn = cm.join conn := by
  simp [connMap.join, AList.insert_insert]

theorem roomMap.lookup_leave (rm : roomMap) (room : String) (conn : Conn) (r : String) :
    (rm.leave room conn).data.lookup r
      = if r = room then
          (rm.data.lookup room).bind
            (fun cm => if (cm.leave conn).len = 0 then none else some (cm.leave conn))
        else rm.data.lookup r := by
  unfold roomMap.leave
  by_cases h : r = room
  · subst h
    cases hl : rm.data.lookup r with
    | none => simp [hl]
    | some cm =>
      by_cases h0 : (cm.leave conn).len = 0
      · simp [h0, AList.lookup_erase]
      · simp [h0, GoMap.lookup_replace_self, hl]
  · cases hl : rm.data.lookup room with
    | none => simp [h]
    | some cm =>
      by_cases h0 : (cm.leave conn).len = 0
      · simp [h, h0, AList.lookup_erase_ne h, GoMap.lookup_replace_ne _ h]
      · simp [h, h0, GoMap.lookup_replace_ne _ h]

end map_go

/-! ## The rooms of a connection -/

namespace redis_local

theorem redisBroadcastLocal.getRoomsByConn_eq (bc : redisBroadcastLocal) (c : Conn) :
    bc.getRoomsByConn c
      = (bc.roomsSync.Map.m.entries.filter
          (fun e => decide (c.ID ∈ e.2.Map.m.entries.keys))).map (fun e => e.1) := by
  unfold redisBroadcastLocal.getRoomsByConn roomMap.forEach SyncMap.Range
  have hfun : (fun room (conn : connMap) (rooms : List String) =>
        (true, conn.forEach (fun connID _ rooms1 =>
          (true, if c.ID = connID then rooms1 ++ [room] else rooms1)) rooms))
      = (fun room (conn : connMap) (rooms : List String) =>
        (true, rooms ++ if c.ID ∈ conn.Map.m.entries.keys then [room] else [])) := by
    funext room conn rooms
    simp only [connMap.forEach, SyncMap.Range]
    rw [rangeLoop_key_hit c.ID room conn.Map.m.nodupKeys rooms]
  rw [hfun]
  exact rangeLoop_collect (fun w : connMap => c.ID ∈ w.Map.m.entries.keys) _

theorem redisBroadcastLocal.mem_getRoomsByConn (bc : redisBroadcastLocal) (c : Conn)
    (r : String) :
    r ∈ bc.getRoomsByConn c
      ↔ ∃ cm, bc.getOccupants r = some cm ∧ c.ID ∈ cm.Map.m.keys := by
  rw [redisBroadcastLocal.getRoomsByConn_eq]
  simp only [List.mem_map, List.mem_filter, decide_eq_true_eq,
    redisBroadcastLocal.getOccupants, roomMap.getConnections, SyncMap.Load]
  constructor
  · rintro ⟨⟨k, cm⟩, ⟨hmem, hp⟩, rfl⟩
    exact ⟨cm, AList.mem_lookup_iff.2 hmem, hp⟩
  · rintro ⟨cm, hl, hp⟩
    exact ⟨⟨r, cm⟩, ⟨AList.mem_lookup_iff.1 hl, hp⟩, rfl⟩

end redis_local

namespace map_go

theorem redisBroadcastLocal.getRoomsByConn_eq_mapgo (bc : redisBroadcastLocal) (c : Conn) :
    bc.getRoomsByConn c
      = (bc.roomsSync.data.entries.reverse.filter
          (fun e => decide (c.ID ∈ e.2.data.entries.keys))).map (fun e => e.1) := by
  unfold redisBroadcastLocal.getRoomsByConn roomMap.forEach roomMap.iterableData
  have hfun : (fun room (conn : connMap) (rooms : List String) =>
        (true, conn.forEach (fun connID _ rooms1 =>
          (true, if c.ID = connID then rooms1 ++ [room] else rooms1)) rooms))
      = (fun room (conn : connMap) (rooms : List String) =>
        (true, rooms ++ if c.ID ∈ conn.data.entries.keys then [room] else [])) := by
    funext room conn rooms
    simp only [connMap.forEach, connMap.iterableData]
    rw [rangeLoop_key_hit c.ID room (copyMap conn.data).nodupKeys rooms, copyMap_entries]
    simp only [keys_reverse_mem]
  rw [hfun, copyMap_entries]
  exact rangeLoop_collect (fun w : connMap => c.ID ∈ w.data.entries.keys) _

theorem redisBroadcastLocal.mem_getRoomsByConn_mapgo (bc : redisBroadcastLocal) (c : Conn)
    (r : String) :
    r ∈ bc.getRoomsByConn c
      ↔ ∃ cm, bc.getOccupants r = some cm ∧ c.ID ∈ cm.data.keys := by
  rw [redisBroadcastLocal.getRoomsByConn_eq_mapgo]
  simp only [List.mem_map, List.mem_filter, decide_eq_true_eq, List.mem_reverse,
    redisBroadcastLocal.getOccupants, roomMap.getConnections]
  constructor
  · rintro ⟨⟨k, cm⟩, ⟨hmem, hp⟩, rfl⟩
    exact ⟨cm, AList.mem_lookup_iff.2 hmem, hp⟩
  · rintro ⟨cm, hl, hp⟩
    exact ⟨⟨r, cm⟩, ⟨AList.mem_lookup_iff.1 hl, hp⟩, rfl⟩

end map_go

/-! ## leaveAll -/

theorem filter_map_leave {W : Type} (G : W → W) (p : W → Bool)
    (l : List (Σ _ : String, W)) :
    ((l.map (fun x => (⟨x.1, G x.2⟩ : Σ _ : String, W))).filter (fun e => p e.2)).map
        (fun e => e.1)
      = (l.filter (fun e => p (G e.2))).map (fun e => e.1) := by
  induction l with
  | nil => simp
  | cons e l ih =>
    simp only [List.map_cons, List.filter_cons]
    by_cases h : p (G e.2) = true
    · simp only [h, if_true, List.map_cons, ih]
    · simp only [h, if_false]
      exact ih

namespace redis_local

theorem roomMap.foldl_leave_entries (c : Conn) (ks : List (Σ _ : String, connMap)) :
    ∀ cur : roomMap,
      (ks.foldl (fun (cur1 : roomMap) e =>
          (⟨⟨cur1.Map.m.replace e.1 (e.2.leave c)⟩⟩ : roomMap)) cur).Map.m.entries
        = ks.foldl (fun L e => List.kreplace e.1 (e.2.leave c) L) cur.Map.m.entries := by
  induction ks with
  | nil => intro cur; rfl
  | cons e ks ih =>
    intro cur
    rw [List.foldl_cons, List.foldl_cons, ih]
    rfl

theorem roomMap.leaveAll_entries (rm : roomMap) (c : Conn) :
    (rm.leaveAll c).Map.m.entries
      = rm.Map.m.entries.map (fun e => (⟨e.1, e.2.leave c⟩ : Σ _ : String, connMap)) := by
  unfold roomMap.leaveAll roomMap.forEach SyncMap.Range
  rw [rangeLoop_true (fun room (cm : connMap) (cur : roomMap) =>
    (⟨⟨cur.Map.m.replace room (cm.leave c)⟩⟩ : roomMap))]
  rw [roomMap.foldl_leave_entries]
  exact foldl_kreplace_self (fun cm : connMap => cm.leave c) rm.Map.m.nodupKeys
    rm.Map.m.nodupKeys (fun _ h => h) (fun _ h => h)

theorem connMap.mem_keys_leave (cm : connMap) (c : Conn) (k : String) :
    k ∈ (cm.leave c).Map.m.entries.keys ↔ k ≠ c.ID ∧ k ∈ cm.Map.m.entries.keys := by
  have h := @AList.mem_erase _ _ _ c.ID k cm.Map.m
  simpa [connMap.leave, SyncMap.Delete, AList.mem_keys, AList.keys] using h

theorem redisBroadcastLocal.getRoomsByConn_leaveAll (bc : redisBroadcastLocal) (c d : Conn) :
    (bc.leaveAll c).getRoomsByConn d
      = (bc.roomsSync.Map.m.entries.filter
          (fun e => decide (d.ID ≠ c.ID ∧ d.ID ∈ e.2.Map.m.entries.keys))).map
            (fun e => e.1) := by
  rw [redisBroadcastLocal.getRoomsByConn_eq]
  simp only [redisBroadcastLocal.leaveAll, roomMap.leaveAll_entries]
  rw [filter_map_leave (fun cm : connMap => cm.leave c)
    (fun w => decide (d.ID ∈ w.Map.m.entries.keys))]
  simp only [connMap.mem_keys_leave]

end redis_local

namespace map_go

theorem roomMap.foldl_leave_entries_mapgo (c : Conn) (ks : List (Σ _ : String, connMap)) :
    ∀ cur : roomMap,
      (ks.foldl (fun (cur1 : roomMap) e =>
          (⟨cur1.data.replace e.1 (e.2.leave c)⟩ : roomMap)) cur).data.entries
        = ks.foldl (fun L e => List.kreplace e.1 (e.2.leave c) L) cur.data.entries := by
  induction ks with
  | nil => intro cur; rfl
  | cons e ks ih =>
    intro cur
    rw [List.foldl_cons, List.foldl_cons, ih]
    rfl

theorem roomMap.leaveAll_entries_mapgo (rm : roomMap) (c : Conn) :
    (rm.leaveAll c).data.entries
      = rm.data.entries.map (fun e => (⟨e.1, e.2.leave c⟩ : Σ _ : String, connMap)) := by
  unfold roomMap.leaveAll roomMap.iterableData
  rw [roomMap.foldl_leave_entries_mapgo, copyMap_entries]
  exact foldl_kreplace_self (fun cm : connMap => cm.leave c) rm.data.nodupKeys
    (nodupKeys_reverse rm.data.nodupKeys) (fun _ h => List.mem_reverse.1 h)
    (fun _ h => List.mem_reverse.2 h)

theorem connMap.mem_keys_leave_mapgo (cm : connMap) (c : Conn) (k : String) :
    k ∈ (cm.leave c).data.entries.keys ↔ k ≠ c.ID ∧ k ∈ cm.data.entries.keys := by
  have h := @AList.mem_erase _ _ _ c.ID k cm.data
  simpa [connMap.leave, AList.mem_keys, AList.keys] using h

theorem redisBroadcastLocal.getRoomsByConn_leaveAll_mapgo (bc : redisBroadcastLocal)
    (c d : Conn) :
    (bc.leaveAll c).getRoomsByConn d
      = (bc.roomsSync.data.entries.reverse.filter
          (fun e => decide (d.ID ≠ c.ID ∧ d.ID ∈ e.2.data.entries.keys))).map
            (fun e => e.1) := by
  rw [redisBroadcastLocal.getRoomsByConn_eq_mapgo]
  simp only [redisBroadcastLocal.leaveAll, roomMap.leaveAll_entries_mapgo, ← List.map_reverse]
  rw [filter_map_leave (fun cm : connMap => cm.leave c)
    (fun w => decide (d.ID ∈ w.data.entries.keys))]
  simp only [connMap.mem_keys_leave_mapgo]

end map_go

/-! ## allRooms -/

theorem rangeLoop_names {W : Type} (l : List (Σ _ : String, W)) :
    rangeLoop (fun room (_ : W) (rooms : List String) => (true, rooms ++ [room])) l []
      = l.keys := by
  rw [rangeLoop_true (fun room (_ : W) (rooms : List String) => rooms ++ [room])]
  rw [foldl_append_flatMap (fun e : Σ _ : String, W => [e.1])]
  induction l with
  | nil => rfl
  | cons e l ih => simpa [List.flatMap_cons, List.keys] using ih

theorem redis_local.redisBroadcastLocal.allRooms_eq (bc : redis_local.redisBroadcastLocal) :
    bc.allRooms = bc.roomsSync.Map.m.keys := by
  unfold redis_local.redisBroadcastLocal.allRooms redis_local.roomMap.forEach
    redis_local.SyncMap.Range
  exact rangeLoop_names _

theorem map_go.redisBroadcastLocal.allRooms_eq_mapgo (bc : map_go.redisBroadcastLocal) :
    bc.allRooms = bc.roomsSync.data.entries.reverse.keys := by
  unfold map_go.redisBroadcastLocal.allRooms map_go.roomMap.forEach map_go.roomMap.iterableData
  rw [rangeLoop_names, copyMap_entries]

/-! ## Connections are stored under their own id -/

theorem dlookup_map_value {W : Type} (g : W → W) (a : String) (l : List (Σ _ : String, W)) :
    List.dlookup a (l.map (fun x => (⟨x.1, g x.2⟩ : Σ _ : String, W)))
      = (List.dlookup a l).map g := by
  induction l with
  | nil => rfl
  | cons e l ih =>
    obtain ⟨k, v⟩ := e
    by_cases h : a = k
    · subst h
      simp
    · rw [List.map_cons, dlookup_cons_other h, dlookup_cons_other h, ih]

namespace redis_local

theorem connMap.Load_join (cm : connMap) (conn : Conn) (k : String) :
    (cm.join conn).Map.Load k = if k = conn.ID then some conn else cm.Map.Load k := by
  by_cases h : k = conn.ID
  · subst h
    simp [connMap.join, SyncMap.Store, SyncMap.Load, AList.lookup_insert]
  · simp [connMap.join, SyncMap.Store, SyncMap.Load, AList.lookup_insert_ne h, h]

theorem connMap.Load_leave (cm : connMap) (conn : Conn) (k : String) :
    (cm.leave conn).Map.Load k = if k = conn.ID then none else cm.Map.Load k := by
  by_cases h : k = conn.ID
  · subst h
    simp [connMap.leave, SyncMap.Delete, SyncMap.Load, AList.lookup_erase]
  · simp [connMap.leave, SyncMap.Delete, SyncMap.Load, AList.lookup_erase_ne h, h]

theorem roomMap.getConnections_join (rm : roomMap) (room : String) (conn : Conn) (r : String) :
    (rm.join room conn).getConnections r
      = if r = room then some (((rm.getConnections room).getD newConnMap).join conn)
        else rm.getConnections r := by
  unfold roomMap.join SyncMap.LoadOrStore
  simp only [roomMap.getConnections, SyncMap.Load]
  by_cases h : r = room
  · subst h
    cases hl : rm.Map.m.lookup r with
    | none => simp [GoMap.lookup_replace_self, AList.lookup_insert]
    | some cm => simp [GoMap.lookup_replace_self, hl]
  · cases hl : rm.Map.m.lookup room with
    | none => simp [h, GoMap.lookup_replace_ne _ h, AList.lookup_insert_ne h]
    | some cm => simp [h, GoMap.lookup_replace_ne _ h]

theorem roomMap.getConnections_leave (rm : roomMap) (room : String) (conn : Conn) (r : String) :
    (rm.leave room conn).getConnections r
      = if r = room then (rm.getConnections room).map (fun cm => cm.leave conn)
        else rm.getConnections r := by
  unfold roomMap.leave
  simp only [roomMap.getConnections, SyncMap.Load]
  by_cases h : r = room
  · subst h
    cases hl : rm.Map.m.lookup r with
    | none => simp [hl]
    | some cm => simp [GoMap.lookup_replace_self, hl]
  · cases hl : rm.Map.m.lookup room with
    | none => simp [h]
    | some cm => simp [h, GoMap.lookup_replace_ne _ h]

theorem roomMap.getConnections_leaveAll (rm : roomMap) (conn : Conn) (r : String) :
    (rm.leaveAll conn).getConnections r
      = (rm.getConnections r).map (fun cm => cm.leave conn) := by
  simp only [roomMap.getConnections, SyncMap.Load, AList.lookup, roomMap.leaveAll_entries]
  exact dlookup_map_value (fun cm : connMap => cm.leave conn) r _

theorem roomMap.getConnections_delete (rm : roomMap) (room r : String) :
    (rm.delete room).getConnections r = if r = room then none else rm.getConnections r := by
  by_cases h : r = room
  · subst h
    simp [roomMap.delete, roomMap.getConnections, SyncMap.Delete, SyncMap.Load,
      AList.lookup_erase]
  · simp [roomMap.delete, roomMap.getConnections, SyncMap.Delete, SyncMap.Load,
      AList.lookup_erase_ne h, h]

theorem redisBroadcastLocal.keyedByID_iff (bc : redisBroadcastLocal) :
    bc.KeyedByID ↔ ∀ room cm, bc.getOccupants room = some cm →
      ∀ k v, cm.Map.Load k = some v → v.ID = k := by
  unfold redisBroadcastLocal.KeyedByID
  simp only [redisBroadcastLocal.getOccupants, roomMap.getConnections, SyncMap.Load]
  constructor
  · intro h room cm hget k v hv
    exact h ⟨room, cm⟩ (AList.mem_lookup_iff.1 hget) ⟨k, v⟩ (AList.mem_lookup_iff.1 hv)
  · rintro h ⟨room, cm⟩ he ⟨k, v⟩ hx
    exact h room cm (AList.mem_lookup_iff.2 he) k v (AList.mem_lookup_iff.2 hx)

theorem Reachable.keyedByID {bc : redisBroadcastLocal} (hr : Reachable bc) : bc.KeyedByID := by
  rw [redisBroadcastLocal.keyedByID_iff]
  induction hr with
  | new nsp uid =>
    intro room cm hget
    simp [redisBroadcastLocal.getOccupants, newRedisBroadcastLocal, newRoomMap,
      roomMap.getConnections, SyncMap.Load] at hget
  | @join bc room conn _ ih =>
    intro r cm hget k v hv
    simp only [redisBroadcastLocal.getOccupants, redisBroadcastLocal.join,
      roomMap.getConnections_join] at hget
    by_cases hr1 : r = room
    · simp only [hr1, if_true, Option.some.injEq] at hget
      subst hget
      rw [connMap.Load_join] at hv
      by_cases hk : k = conn.ID
      · simp only [hk, if_true, Option.some.injEq] at hv
        rw [← hv, hk]
      · simp only [hk, if_false] at hv
        cases hold : bc.roomsSync.getConnections room with
        | none =>
          simp [hold, newConnMap, SyncMap.Load] at hv
        | some cm0 =>
          simp only [hold, Option.getD_some] at hv
          exact ih room cm0 hold k v hv
    · simp only [hr1, if_false] at hget
      exact ih r cm hget k v hv
  | @leave bc room conn _ ih =>
    intro r cm hget k v hv
    simp only [redisBroadcastLocal.getOccupants, redisBroadcastLocal.leave,
      roomMap.getConnections_leave] at hget
    by_cases hr1 : r = room
    · simp only [hr1, if_true, Option.map_eq_some'] at hget
      obtain ⟨cm0, hold, rfl⟩ := hget
      rw [connMap.Load_leave] at hv
      by_cases hk : k = conn.ID
      · simp [hk] at hv
      · simp only [hk, if_false] at hv
        exact ih room cm0 hold k v hv
    · simp only [hr1, if_false] at hget
      exact ih r cm hget k v hv
  | @leaveAll bc conn _ ih =>
    intro r cm hget k v hv
    simp only [redisBroadcastLocal.getOccupants, redisBroadcastLocal.leaveAll,
      roomMap.getConnections_leaveAll, Option.map_eq_some'] at hget
    obtain ⟨cm0, hold, rfl⟩ := hget
    rw [connMap.Load_leave] at hv
    by_cases hk : k = conn.ID
    · simp [hk] at hv
    · simp only [hk, if_false] at hv
      exact ih r cm0 hold k v hv
  | @clear bc room _ ih =>
    intro r cm hget k v hv
    simp only [redisBroadcastLocal.getOccupants, redisBroadcastLocal.clear,
      roomMap.getConnections_delete] at hget
    by_cases hr1 : r = room
    · simp [hr1] at hget
    · simp only [hr1, if_false] at hget
      exact ih r cm hget k v hv

end redis_local

namespace map_go

theorem connMap.lookup_join_mapgo (cm : connMap) (conn : Conn) (k : String) :
    (cm.join conn).data.lookup k = if k = conn.ID then some conn else cm.data.lookup k := by
  by_cases h : k = conn.ID
  · subst h
    simp [connMap.join, AList.lookup_insert]
  · simp [connMap.join, AList.lookup_insert_ne h, h]

theorem connMap.lookup_leave_mapgo (cm : connMap) (conn : Conn) (k : String) :
    (cm.leave conn).data.lookup k = if k = conn.ID then none else cm.data.lookup k := by
  by_cases h : k = conn.ID
  · subst h
    simp [connMap.leave, AList.lookup_erase]
  · simp [connMap.leave, AList.lookup_erase_ne h, h]

theorem roomMap.lookup_leaveAll_mapgo (rm : roomMap) (conn : Conn) (r : String) :
    (rm.leaveAll conn).data.lookup r = (rm.data.lookup r).map (fun cm => cm.leave conn) := by
  simp only [AList.lookup, roomMap.leaveAll_entries_mapgo]
  exact dlookup_map_value (fun cm : connMap => cm.leave conn) r _

theorem roomMap.lookup_delete_mapgo (rm : roomMap) (room r : String) :
    (rm.delete room).data.lookup r = if r = room then none else rm.data.lookup r := by
  by_cases h : r = room
  · subst h
    simp [roomMap.delete, AList.lookup_erase]
  · simp [roomMap.delete, AList.lookup_erase_ne h, h]

theorem redisBroadcastLocal.keyedByID_iff_mapgo (bc : redisBroadcastLocal) :
    bc.KeyedByID ↔ ∀ room cm, bc.roomsSync.data.lookup room = some cm →
      ∀ k v, cm.data.lookup k = some v → v.ID = k := by
  unfold redisBroadcastLocal.KeyedByID
  constructor
  · intro h room cm hget k v hv
    exact h ⟨room, cm⟩ (AList.mem_lookup_iff.1 hget) ⟨k, v⟩ (AList.mem_lookup_iff.1 hv)
  · rintro h ⟨room, cm⟩ he ⟨k, v⟩ hx
    exact h room cm (AList.mem_lookup_iff.2 he) k v (AList.mem_lookup_iff.2 hx)

theorem Reachable.keyedByID_mapgo {bc : redisBroadcastLocal} (hr : Reachable bc) :
    bc.KeyedByID := by
  rw [redisBroadcastLocal.keyedByID_iff_mapgo]
  induction hr with
  | new nsp uid =>
    intro room cm hget
    simp [newRedisBroadcastLocal, newRoomMap] at hget
  | @join bc room conn _ ih =>
    intro r cm hget k v hv
    simp only [redisBroadcastLocal.join, roomMap.lookup_join] at hget
    by_cases hr1 : r = room
    · simp only [hr1, if_true, Option.some.injEq] at hget
      subst hget
      rw [connMap.lookup_join_mapgo] at hv
      by_cases hk : k = conn.ID
      · simp only [hk, if_true, Option.some.injEq] at hv
        rw [← hv, hk]
      · simp only [hk, if_false] at hv
        cases hold : bc.roomsSync.data.lookup room with
        | none =>
          simp [hold, newConnMap] at hv
        | some cm0 =>
          simp only [hold, Option.getD_some] at hv
          exact ih room cm0 hold k v hv
    · simp only [hr1, if_false] at hget
      exact ih r cm hget k v hv
  | @leave bc room conn _ ih =>
    intro r cm hget k v hv
    simp only [redisBroadcastLocal.leave, roomMap.lookup_leave] at hget
    by_cases hr1 : r = room
    · simp only [hr1, if_true, Option.bind_eq_some] at hget
      obtain ⟨cm0, hold, hcm⟩ := hget
      by_cases h0 : (cm0.leave conn).len = 0
      · simp [h0] at hcm
      · simp only [h0, if_false, Option.some.injEq] at hcm
        subst hcm
        rw [connMap.lookup_leave_mapgo] at hv
        by_cases hk : k = conn.ID
        · simp [hk] at hv
        · simp only [hk, if_false] at hv
          exact ih room cm0 hold k v hv
    · simp only [hr1, if_false] at hget
      exact ih r cm hget k v hv
  | @leaveAll bc conn _ ih =>
    intro r cm hget k v hv
    simp only [redisBroadcastLocal.leaveAll, roomMap.lookup_leaveAll_mapgo,
      Option.map_eq_some'] at hget
    obtain ⟨cm0, hold, rfl⟩ := hget
    rw [connMap.lookup_leave_mapgo] at hv
    by_cases hk : k = conn.ID
    · simp [hk] at hv
    · simp only [hk, if_false] at hv
      exact ih r cm0 hold k v hv
  | @clear bc room _ ih =>
    intro r cm hget k v hv
    simp only [redisBroadcastLocal.clear, roomMap.lookup_delete_mapgo] at hget
    by_cases hr1 : r = room
    · simp [hr1] at hget
    · simp only [hr1, if_false] at hget
      exact ih r cm hget k v hv

theorem roomMap.noEmptyRoom_new : newRoomMap.NoEmptyRoom := by
  intro room cm hget
  simp [roomMap.getConnections, newRoomMap] at hget

theorem roomMap.noEmptyRoom_join {rm : roomMap} (h : rm.NoEmptyRoom) (room : String)
    (conn : Conn) : (rm.join room conn).NoEmptyRoom := by
  intro r cm hget
  simp only [roomMap.getConnections, roomMap.lookup_join] at hget
  by_cases hr1 : r = room
  · simp only [hr1, if_true, Option.some.injEq] at hget
    subst hget
    simp [connMap.len, GoMap.len, connMap.join, AList.insert_entries]
  · simp only [hr1, if_false] at hget
    exact h r cm hget

theorem roomMap.noEmptyRoom_leave {rm : roomMap} (h : rm.NoEmptyRoom) (room : String)
    (conn : Conn) : (rm.leave room conn).NoEmptyRoom := by
  intro r cm hget
  simp only [roomMap.getConnections, roomMap.lookup_leave] at hget
  by_cases hr1 : r = room
  · simp only [hr1, if_true, Option.bind_eq_some] at hget
    obtain ⟨cm0, _, hcm⟩ := hget
    by_cases h0 : (cm0.leave conn).len = 0
    · simp [h0] at hcm
    · simp only [h0, if_false, Option.some.injEq] at hcm
      rw [← hcm]
      exact h0
  · simp only [hr1, if_false] at hget
    exact h r cm hget

end map_go

/-! ## lenRoom -/

theorem rangeLoop_count_name {W : Type} (roomID : String) {l : List (Σ _ : String, W)}
    (nd : l.NodupKeys) :
    rangeLoop (fun room (_ : W) (res : Nat) =>
        (true, if room = roomID then res + 1 else res)) l 0
      = if roomID ∈ l.keys then 1 else 0 := by
  rw [rangeLoop_true (fun room (_ : W) (res : Nat) => if room = roomID then res + 1 else res)]
  have hgen : ∀ (l1 : List (Σ _ : String, W)) (n : Nat),
      l1.foldl (fun (s1 : Nat) e => if e.1 = roomID then s1 + 1 else s1) n
        = n + l1.keys.count roomID := by
    intro l1
    induction l1 with
    | nil => intro n; simp
    | cons e l1 ih =>
      intro n
      rw [List.foldl_cons, ih, List.keys_cons, List.count_cons]
      by_cases h : e.1 = roomID
      · simp only [h, if_true, beq_self_eq_true]
        omega
      · have h1 : (e.1 == roomID) = false := by simpa using h
        simp [h, h1]
  rw [hgen, Nat.zero_add]
  by_cases hm : roomID ∈ l.keys
  · simp [hm, List.count_eq_one_of_mem nd hm]
  · simp [hm, List.count_eq_zero_of_not_mem hm]

theorem redis_local.redisBroadcastLocal.lenRoom_eq (bc : redis_local.redisBroadcastLocal)
    (roomID : String) :
    bc.lenRoom roomID = if roomID ∈ bc.roomsSync.Map.m.keys then 1 else 0 :=
  rangeLoop_count_name roomID bc.roomsSync.Map.m.nodupKeys

/-! ## Emit calls and callback calls -/

theorem countP_value_eq {l : List (Σ _ : String, Conn)} (nd : l.NodupKeys)
    (hk : ∀ x ∈ l, x.2.ID = x.1) (c : Conn) :
    l.countP (fun e => decide (e.2 = c)) = if l.dlookup c.ID = some c then 1 else 0 := by
  induction l with
  | nil => simp
  | cons e l ih =>
    obtain ⟨k, v⟩ := e
    have hnd := List.nodupKeys_cons.1 nd
    have hkv : v.ID = k := hk ⟨k, v⟩ (List.mem_cons_self _ _)
    have ih1 := ih hnd.2 (fun x hx => hk x (List.mem_cons_of_mem _ hx))
    rw [List.countP_cons, ih1]
    by_cases hc : c.ID = k
    · subst hc
      have hnone : List.dlookup c.ID l = none := List.dlookup_eq_none.2 hnd.1
      rw [hnone, List.dlookup_cons_eq]
      by_cases hv : v = c <;> simp [hv]
    · have hv : v ≠ c := fun h => hc (by rw [← h, hkv])
      rw [dlookup_cons_other hc]
      simp [hv]

theorem rangeLoop_emit {α : Type} (event : String) (args : List α)
    (l : List (Σ _ : String, Conn)) (t : Trace α) :
    rangeLoop (fun _ (conn : Conn) (t1 : Trace α) => (true, conn.Emit event args t1)) l t
      = t ++ l.map (fun e => (⟨e.2, event, args⟩ : EmitCall α)) := by
  rw [rangeLoop_true (fun _ (conn : Conn) (t1 : Trace α) => conn.Emit event args t1)]
  induction l generalizing t with
  | nil => simp
  | cons e l ih =>
    rw [List.foldl_cons, ih]
    simp [Conn.Emit]

theorem countP_emit {α : Type} (event : String) (args : List α)
    (l : List (Σ _ : String, Conn)) (c : Conn) :
    (l.map (fun e => (⟨e.2, event, args⟩ : EmitCall α))).countP (fun x => decide (x.conn = c))
      = l.countP (fun e => decide (e.2 = c)) := by
  rw [List.countP_map]
  rfl

theorem count_values (l : List (Σ _ : String, Conn)) (c : Conn) :
    (l.map (fun e => e.2)).count c = l.countP (fun e => decide (e.2 = c)) := by
  induction l with
  | nil => rfl
  | cons e l ih =>
    rw [List.map_cons, List.count_cons, ih, List.countP_cons]
    by_cases h : e.2 = c <;> simp [h]

theorem countP_flatMap_indicator {A B : Type} (p : B → Bool) (q : A → Bool) (f : A → List B)
    (L : List A) (h : ∀ e ∈ L, (f e).countP p = if q e = true then 1 else 0) :
    (L.flatMap f).countP p = L.countP q := by
  induction L with
  | nil => rfl
  | cons e L ih =>
    rw [List.flatMap_cons, List.countP_append, List.countP_cons,
      ih (fun x hx => h x (List.mem_cons_of_mem _ hx)), h e (List.mem_cons_self _ _)]
    exact Nat.add_comm _ _

namespace redis_local

theorem redisBroadcastLocal.send_eq {α : Type} (bc : redisBroadcastLocal) (room event : String)
    (args : List α) (t : Trace α) :
    bc.send room event args t
      = t ++ match bc.getOccupants room with
        | none => []
        | some cm => cm.Map.m.entries.map (fun e => (⟨e.2, event, args⟩ : EmitCall α)) := by
  unfold redisBroadcastLocal.send
  cases bc.getOccupants room with
  | none => simp
  | some cm => simp [connMap.forEach, SyncMap.Range, rangeLoop_emit]

theorem redisBroadcastLocal.sendAll_eq {α : Type} (bc : redisBroadcastLocal) (event : String)
    (args : List α) (t : Trace α) :
    bc.sendAll event args t
      = t ++ bc.roomsSync.Map.m.entries.flatMap (fun e =>
          e.2.Map.m.entries.map (fun x => (⟨x.2, event, args⟩ : EmitCall α))) := by
  unfold redisBroadcastLocal.sendAll roomMap.forEach SyncMap.Range
  have hfun : (fun (_ : String) (conn : connMap) (t1 : Trace α) =>
        (true, conn.forEach (fun _ conn1 t2 => (true, conn1.Emit event args t2)) t1))
      = (fun (_ : String) (conn : connMap) (t1 : Trace α) =>
        (true, t1 ++ conn.Map.m.entries.map (fun x => (⟨x.2, event, args⟩ : EmitCall α)))) := by
    funext _ conn t1
    simp only [connMap.forEach, SyncMap.Range, rangeLoop_emit]
  rw [hfun, rangeLoop_true (fun (_ : String) (conn : connMap) (t1 : Trace α) =>
    t1 ++ conn.Map.m.entries.map (fun x => (⟨x.2, event, args⟩ : EmitCall α)))]
  exact foldl_append_flatMap (fun e : Σ _ : String, connMap =>
    e.2.Map.m.entries.map (fun x => (⟨x.2, event, args⟩ : EmitCall α))) _ t

end redis_local


/-! ## Channel names -/

theorem splitHash_cons (c : Char) (cs : List Char) :
    splitHash (c :: cs) = if c = '#' then [] :: splitHash cs else consHead c (splitHash cs) :=
  rfl

theorem splitHash_ne_nil (l : List Char) : splitHash l ≠ [] := by
  cases l with
  | nil => simp [splitHash]
  | cons c cs =>
    rw [splitHash_cons]
    split_ifs
    · simp
    · cases splitHash cs <;> simp [consHead]

theorem consHead_append (c : Char) {A : List (List Char)} (h : A ≠ []) (B : List (List Char)) :
    consHead c (A ++ B) = consHead c A ++ B := by
  cases A with
  | nil => exact absurd rfl h
  | cons seg rest => rfl

theorem splitHash_append_hash (l1 l2 : List Char) :
    splitHash (l1 ++ '#' :: l2) = splitHash l1 ++ splitHash l2 := by
  induction l1 with
  | nil => simp [splitHash_cons]; rfl
  | cons c cs ih =>
    rw [List.cons_append, splitHash_cons c (cs ++ '#' :: l2), splitHash_cons c cs, ih]
    by_cases h : c = '#'
    · simp [h]
    · simp only [h, if_false]
      rw [consHead_append c (splitHash_ne_nil cs)]

theorem splitHash_no_hash {l : List Char} (h : '#' ∉ l) : splitHash l = [l] := by
  induction l with
  | nil => rfl
  | cons c cs ih =>
    have hc : c ≠ '#' := fun hc => h (by simp [hc])
    have hcs : '#' ∉ cs := fun hm => h (List.mem_cons_of_mem _ hm)
    rw [splitHash_cons, ih hcs]
    simp [hc, consHead]

theorem Split_key (pfx nsp uid : String) (hn : '#' ∉ nsp.toList) (hu : '#' ∉ uid.toList) :
    (Split (pfx ++ "#" ++ nsp ++ "#" ++ uid)).reverse
      = uid :: nsp :: (Split pfx).reverse := by
  have hdata : (pfx ++ "#" ++ nsp ++ "#" ++ uid).toList
      = pfx.toList ++ '#' :: (nsp.toList ++ '#' :: uid.toList) := by
    simp [String.toList, String.data_append]
  unfold Split
  rw [hdata, splitHash_append_hash, splitHash_append_hash, splitHash_no_hash hn,
    splitHash_no_hash hu]
  simp [String.toList]

theorem index_second_to_last {α : Type} {xs : List α} {a b : α} {rest : List α}
    (h : xs.reverse = b :: a :: rest) : index xs ((xs.length : Int) - 2) = some a := by
  have hx : xs = rest.reverse ++ [a, b] := by
    have := congrArg List.reverse h
    simpa using this
  subst hx
  have hlen : (((rest.reverse ++ [a, b]).length : Nat) : Int) - 2
      = ((rest.reverse.length : Nat) : Int) := by
    simp
  rw [hlen]
  simp only [index]
  rw [if_neg (by omega), Int.toNat_ofNat, List.get?_eq_getElem?,
    List.getElem?_append_right (Nat.le_refl _)]
  simp

theorem index_last {α : Type} {xs : List α} {a b : α} {rest : List α}
    (h : xs.reverse = b :: a :: rest) : index xs ((xs.length : Int) - 1) = some b := by
  have hx : xs = rest.reverse ++ [a, b] := by
    have := congrArg List.reverse h
    simpa using this
  subst hx
  have hlen : (((rest.reverse ++ [a, b]).length : Nat) : Int) - 1
      = ((rest.reverse.length + 1 : Nat) : Int) := by
    simp
    omega
  rw [hlen]
  simp only [index]
  rw [if_neg (by omega), Int.toNat_ofNat, List.get?_eq_getElem?,
    List.getElem?_append_right (Nat.le_succ _)]
  simp

/-! ## Numbers: `float64` and `int` -/

theorem ParseFloat_exact (n : Int) (h : n.natAbs ≤ 2 ^ 53) : ParseFloat n = some n := by
  unfold ParseFloat
  by_cases h1 : n.natAbs < 2 ^ 53
  · rw [if_pos h1]
  · have h3 : n = 2 ^ 53 ∨ n = -(2 ^ 53) := by omega
    rcases h3 with h3 | h3 <;> subst h3 <;> decide

theorem droppedBits_le (m : Nat) : ∀ (fuel k j : Nat), j ≤ fuel → m < 2 ^ (53 + k + j) →
    droppedBits m fuel k ≤ k + j := by
  intro fuel
  induction fuel with
  | zero =>
    intro k j hj _
    simp only [droppedBits]
    omega
  | succ fuel ih =>
    intro k j hj hm
    simp only [droppedBits]
    by_cases h : m < 2 ^ (53 + k)
    · rw [if_pos h]
      omega
    · rw [if_neg h]
      have hj0 : j ≠ 0 := by
        intro h0
        subst h0
        exact h hm
      have := ih (k + 1) (j - 1) (by omega)
        (by
          have he : 53 + (k + 1) + (j - 1) = 53 + k + j := by omega
          rw [he]
          exact hm)
      omega

theorem roundTo_le (k m : Nat) : roundTo k m ≤ m + 2 ^ k := by
  unfold roundTo
  have h := Nat.div_mul_le_self m (2 ^ k)
  split
  · rw [Nat.add_mul, Nat.one_mul]
    omega
  · omega

theorem ParseFloat_isSome (n : Int) (h : n.natAbs ≤ 2 ^ 63) : (ParseFloat n).isSome = true := by
  unfold ParseFloat
  by_cases h1 : n.natAbs < 2 ^ 53
  · rw [if_pos h1]
    rfl
  · rw [if_neg h1]
    have hk : droppedBits n.natAbs 972 0 ≤ 0 + 11 :=
      droppedBits_le n.natAbs 972 0 11 (by omega) (by
        have : (2 : Nat) ^ (53 + 0 + 11) = 2 ^ 64 := by norm_num
        rw [this]
        omega)
    have hp : 2 ^ droppedBits n.natAbs 972 0 ≤ 2 ^ 11 :=
      Nat.pow_le_pow_right (by omega) (by omega)
    have hv := roundTo_le (droppedBits n.natAbs 972 0) n.natAbs
    have hk2 : droppedBits (roundTo (droppedBits n.natAbs 972 0) n.natAbs) 972 0 ≤ 0 + 12 :=
      droppedBits_le _ 972 0 12 (by omega) (by
        have : (2 : Nat) ^ (53 + 0 + 12) = 2 ^ 65 := by norm_num
        rw [this]
        have h11 : (2 : Nat) ^ 11 = 2048 := by norm_num
        omega)
    simp only
    rw [if_neg (by omega)]
    rfl

theorem int64_bounds (x : Int) : -(2 ^ 63) ≤ int64 x ∧ int64 x < 2 ^ 63 := by
  unfold int64
  have h1 := Int.emod_nonneg (x + 2 ^ 63) (show (2 : Int) ^ 64 ≠ 0 by norm_num)
  have h2 := Int.emod_lt_of_pos (x + 2 ^ 63) (show (0 : Int) < 2 ^ 64 by norm_num)
  omega

theorem int64_eq (x : Int) (h1 : -(2 ^ 63) ≤ x) (h2 : x < 2 ^ 63) : int64 x = x := by
  unfold int64
  rw [Int.emod_eq_of_lt (by omega) (by omega)]
  omega

theorem intOfFloat64_eq (v : Int) (h1 : -(2 ^ 63) ≤ v) (h2 : v < 2 ^ 63) :
    intOfFloat64 v = v := by
  unfold intOfFloat64
  rw [if_pos ⟨h1, h2⟩]

namespace redis_local

theorem roomLenResponse.ParseFloat_int64 (k : Int) :
    ParseFloat (int64 k) = some (roomLenResponse.decoded k) := by
  have hb := int64_bounds k
  have h := ParseFloat_isSome (int64 k) (by omega)
  unfold roomLenResponse.decoded
  cases hp : ParseFloat (int64 k) with
  | none => rw [hp] at h; exact absurd h (by decide)
  | some v => rfl

theorem roomLenResponse.decoded_exact (k : Int) (h : k.natAbs ≤ 2 ^ 53) :
    roomLenResponse.decoded k = k := by
  unfold roomLenResponse.decoded
  rw [int64_eq k (by omega) (by omega), ParseFloat_exact k h]
  rfl

end redis_local

mutual
theorem decodeInterface_exact : ∀ v : JSON, v.float64Exact = true → decodeInterface v = some v
  | .null, _ => by simp [decodeInterface]
  | .bool _, _ => by simp [decodeInterface]
  | .str _, _ => by simp [decodeInterface]
  | .num n, h => by
    simp only [JSON.float64Exact, decide_eq_true_eq] at h
    simp [decodeInterface, ParseFloat_exact n h]
  | .arr xs, h => by
    simp only [JSON.float64Exact] at h
    simp [decodeInterface, decodeInterfaces_exact xs h]
  | .obj kvs, h => by
    simp only [JSON.float64Exact] at h
    simp [decodeInterface, decodeMembers_exact kvs h]
theorem decodeInterfaces_exact : ∀ xs : List JSON, float64ExactList xs = true →
    decodeInterfaces xs = some xs
  | [], _ => by simp [decodeInterfaces]
  | x :: xs, h => by
    simp only [float64ExactList, Bool.and_eq_true] at h
    simp [decodeInterfaces, decodeInterface_exact x h.1, decodeInterfaces_exact xs h.2]
theorem decodeMembers_exact : ∀ kvs : List (String × JSON), float64ExactMembers kvs = true →
    decodeMembers kvs = some kvs
  | [], _ => by simp [decodeMembers]
  | (k, x) :: kvs, h => by
    simp only [float64ExactMembers, Bool.and_eq_true] at h
    simp [decodeMembers, decodeInterface_exact x h.1, decodeMembers_exact kvs h.2]
end

theorem float64ExactList_iff (xs : List JSON) :
    float64ExactList xs = true ↔ ∀ x ∈ xs, x.float64Exact = true := by
  induction xs with
  | nil => simp [float64ExactList]
  | cons x xs ih => simp [float64ExactList, ih]

theorem decodeInterfaces_strs (rs : List String) :
    decodeInterfaces (rs.map JSON.str) = some (rs.map JSON.str) := by
  apply decodeInterfaces_exact
  rw [float64ExactList_iff]
  intro x hx
  obtain ⟨r, _, rfl⟩ := List.mem_map.1 hx
  rfl

/-! ## The broadcast envelope -/

theorem decodeSlice_marshalSlice (args : List JSON) :
    decodeSlice (marshalSlice args) = decodeInterfaces args := by
  cases args with
  | nil => simp [marshalSlice, decodeSlice, decodeInterfaces]
  | cons x xs => simp [marshalSlice, decodeSlice]

theorem decodeSlice_opts (room event : String) :
    decodeSlice (JSON.arr [JSON.str room, JSON.str event])
      = some [JSON.str room, JSON.str event] := by
  simp [decodeSlice, decodeInterfaces, decodeInterface]

theorem UnmarshalSliceMap_bcMessageJSON (room event : String) (args : List JSON)
    {dargs : List JSON} (hargs : decodeInterfaces args = some dargs) :
    UnmarshalSliceMap (some (redis_local.bcMessageJSON room event args))
      = some (((∅ : GoMap (List JSON)).insert "args" dargs).insert "opts"
          [.str room, .str event]) := by
  simp only [UnmarshalSliceMap, redis_local.bcMessageJSON, decodeObject, List.foldl_cons,
    List.foldl_nil, decodeSlice_marshalSlice, decodeSlice_opts, hargs, Option.some_bind,
    Option.map_some']

namespace redis_local

theorem redisBroadcastRemote.onMessage_dropped (w : World) (channel : String) (msg : Payload)
    {uid nsp : String} {rest : List String}
    (hparts : (Split channel).reverse = uid :: nsp :: rest)
    (h : uid = w.bc.local_.uid ∨ nsp ≠ w.bc.local_.nsp) :
    redisBroadcastRemote.onMessage w channel msg = (.returned none, w) := by
  unfold redisBroadcastRemote.onMessage
  simp only [index_second_to_last hparts, index_last hparts]
  by_cases hn : w.bc.local_.nsp = nsp
  · have hu : w.bc.local_.uid = uid := by
      rcases h with h | h
      · exact h.symm
      · exact absurd hn.symm h
    simp [hn, hu]
  · simp [hn]

theorem redisBroadcastRemote.onMessage_accepted (w : World) (channel : String)
    {uid : String} {rest : List String}
    (hparts : (Split channel).reverse = uid :: w.bc.local_.nsp :: rest)
    (huid : w.bc.local_.uid ≠ uid) (room event : String) (args : List JSON)
    {dargs : List JSON} (hdec : decodeInterfaces args = some dargs) :
    redisBroadcastRemote.onMessage w channel (some (bcMessageJSON room event args))
      = (.returned none,
          { w with emits :=
              if room ≠ "" then w.bc.local_.send room event dargs w.emits
              else w.bc.local_.sendAll event dargs w.emits }) := by
  unfold redisBroadcastRemote.onMessage
  simp only [index_second_to_last hparts, index_last hparts,
    UnmarshalSliceMap_bcMessageJSON room event args hdec]
  have hargs : ((((∅ : GoMap (List JSON)).insert "args" dargs).insert "opts"
      [JSON.str room, JSON.str event]).lookup "args").getD [] = dargs := by
    rw [AList.lookup_insert_ne (by decide), AList.lookup_insert]
    rfl
  have hopts : ((((∅ : GoMap (List JSON)).insert "args" dargs).insert "opts"
      [JSON.str room, JSON.str event]).lookup "opts").getD []
        = [JSON.str room, JSON.str event] := by
    rw [AList.lookup_insert]
    rfl
  simp only [hargs, hopts]
  by_cases hr : room = ""
  · simp [huid, hr, index]
  · simp [huid, hr, index]

theorem redisBroadcastLocal.send_count {α : Type} (bc : redisBroadcastLocal)
    (h : bc.KeyedByID) (room event : String) (args : List α) {cm : connMap}
    (hget : bc.getOccupants room = some cm) (c : Conn) :
    (bc.send room event args []).countP (fun x => decide (x.conn = c))
      = if cm.Map.Load c.ID = some c then 1 else 0 := by
  rw [redisBroadcastLocal.send_eq, hget]
  simp only [List.nil_append]
  rw [countP_emit]
  have hmem : (⟨room, cm⟩ : Σ _ : String, connMap) ∈ bc.roomsSync.Map.m.entries :=
    AList.mem_lookup_iff.1 hget
  exact countP_value_eq cm.Map.m.nodupKeys (h ⟨room, cm⟩ hmem) c

theorem redisBroadcastLocal.send_append {α : Type} (bc : redisBroadcastLocal)
    (room event : String) (args : List α) (t : Trace α) :
    bc.send room event args t = t ++ bc.send room event args [] := by
  rw [redisBroadcastLocal.send_eq bc room event args t,
    redisBroadcastLocal.send_eq bc room event args []]
  simp

end redis_local


theorem redis_local.redisBroadcastLocal.send_calls {α : Type}
    (bc : redis_local.redisBroadcastLocal) (room event : String) (args : List α) :
    ∀ x ∈ bc.send room event args [], x.event = event ∧ x.args = args := by
  intro x hx
  rw [redis_local.redisBroadcastLocal.send_eq] at hx
  cases hget : bc.getOccupants room with
  | none => simp [hget] at hx
  | some cm =>
    simp only [hget, List.nil_append, List.mem_map] at hx
    obtain ⟨e, _, rfl⟩ := hx
    exact ⟨rfl, rfl⟩


/-! ## Responses -/

namespace redis_local

theorem World.lookup_setRequest (w : World) (id : String) (r : Request) :
    (w.setRequest id r).bc.requests.lookup id
      = (w.bc.requests.lookup id).map (fun _ => r) :=
  GoMap.lookup_replace_self w.bc.requests id r

theorem addRooms_strings (rs : List String) (m : GoMap Bool) :
    addRooms (rs.map JSON.str) m = (true, rs.foldl (fun acc r => acc.insert r true) m) := by
  induction rs generalizing m with
  | nil => rfl
  | cons r rs ih => simp [addRooms, ih]

theorem mem_foldl_insert (rs : List String) (m : GoMap Bool) (name : String) :
    name ∈ rs.foldl (fun acc r => acc.insert r true) m ↔ name ∈ m ∨ name ∈ rs := by
  induction rs generalizing m with
  | nil => simp
  | cons r rs ih =>
    rw [List.foldl_cons, ih, AList.mem_insert, List.mem_cons]
    constructor
    · rintro ((h | h) | h)
      · exact Or.inr (Or.inl h)
      · exact Or.inl h
      · exact Or.inr (Or.inr h)
    · rintro (h | h | h)
      · exact Or.inl (Or.inr h)
      · exact Or.inl (Or.inl h)
      · exact Or.inr h

theorem UnmarshalAnyMap_roomLenResponse (ty id : String) (k : Int) :
    UnmarshalAnyMap (some (roomLenResponse.Marshal ⟨ty, id, k⟩))
      = some ((((∅ : GoMap JSON).insert "RequestType" (.str ty)).insert "RequestID"
          (.str id)).insert "Connections" (.num (roomLenResponse.decoded k))) := by
  simp only [UnmarshalAnyMap, roomLenResponse.Marshal, decodeObject, List.foldl_cons,
    List.foldl_nil, decodeInterface, roomLenResponse.ParseFloat_int64, Option.some_bind,
    Option.map_some']

theorem UnmarshalAnyMap_allRoomResponse (ty id : String) (rs : List String) :
    UnmarshalAnyMap (some (allRoomResponse.Marshal ⟨ty, id, rs⟩))
      = some ((((∅ : GoMap JSON).insert "RequestType" (.str ty)).insert "RequestID"
          (.str id)).insert "Rooms" (.arr (rs.map JSON.str))) := by
  simp only [UnmarshalAnyMap, allRoomResponse.Marshal, decodeObject, List.foldl_cons,
    List.foldl_nil, decodeInterface, decodeInterfaces_strs, Option.some_bind,
    Option.map_some']

theorem redisBroadcastRemote.onResponse_roomLen (w : World) (id : String) (k : Int)
    (req : roomLenRequest) (hreq : w.bc.requests.lookup id = some (.roomLen req)) :
    redisBroadcastRemote.onResponse w (some (roomLenResponse.Marshal ⟨roomLenReqType, id, k⟩))
      = if req.numSub = req.msgCount + 1 then
          match req.done.send true with
          | some ch =>
            (.returned none, w.setRequest id (.roomLen { req with
              msgCount := req.msgCount + 1, connections := int64 (req.connections + intOfFloat64 (roomLenResponse.decoded k)), done := ch }))
          | none =>
            (.blocked, w.setRequest id (.roomLen { req with
              msgCount := req.msgCount + 1, connections := int64 (req.connections + intOfFloat64 (roomLenResponse.decoded k)) }))
        else
          (.returned none, w.setRequest id (.roomLen { req with
            msgCount := req.msgCount + 1, connections := int64 (req.connections + intOfFloat64 (roomLenResponse.decoded k)) })) := by
  unfold redisBroadcastRemote.onResponse
  rw [UnmarshalAnyMap_roomLenResponse]
  have h1 : ((((∅ : GoMap JSON).insert "RequestType" (.str roomLenReqType)).insert "RequestID"
      (.str id)).insert "Connections" (.num (roomLenResponse.decoded k))).lookup "RequestID" = some (.str id) := by
    rw [AList.lookup_insert_ne (by decide), AList.lookup_insert]
  have h2 : ((((∅ : GoMap JSON).insert "RequestType" (.str roomLenReqType)).insert "RequestID"
      (.str id)).insert "Connections" (.num (roomLenResponse.decoded k))).lookup "RequestType"
        = some (.str roomLenReqType) := by
    rw [AList.lookup_insert_ne (by decide), AList.lookup_insert_ne (by decide),
      AList.lookup_insert]
  have h3 : ((((∅ : GoMap JSON).insert "RequestType" (.str roomLenReqType)).insert "RequestID"
      (.str id)).insert "Connections" (.num (roomLenResponse.decoded k))).lookup "Connections"
        = some (.num (roomLenResponse.decoded k)) := by
    rw [AList.lookup_insert]
  simp only [h1, h2, h3, hreq, if_true]

theorem redisBroadcastRemote.onResponse_allRoom (w : World) (id : String) (rs : List String)
    (req : allRoomRequest) (hreq : w.bc.requests.lookup id = some (.allRoom req)) :
    redisBroadcastRemote.onResponse w (some (allRoomResponse.Marshal ⟨allRoomReqType, id, rs⟩))
      = if req.numSub = req.msgCount + 1 then
          match req.done.send true with
          | some ch =>
            (.returned none, w.setRequest id (.allRoom { req with
              msgCount := req.msgCount + 1,
              rooms := rs.foldl (fun acc r => acc.insert r true) req.rooms, done := ch }))
          | none =>
            (.blocked, w.setRequest id (.allRoom { req with
              msgCount := req.msgCount + 1,
              rooms := rs.foldl (fun acc r => acc.insert r true) req.rooms }))
        else
          (.returned none, w.setRequest id (.allRoom { req with
            msgCount := req.msgCount + 1,
            rooms := rs.foldl (fun acc r => acc.insert r true) req.rooms })) := by
  unfold redisBroadcastRemote.onResponse
  rw [UnmarshalAnyMap_allRoomResponse]
  have h1 : ((((∅ : GoMap JSON).insert "RequestType" (.str allRoomReqType)).insert "RequestID"
      (.str id)).insert "Rooms" (.arr (rs.map JSON.str))).lookup "RequestID"
        = some (.str id) := by
    rw [AList.lookup_insert_ne (by decide), AList.lookup_insert]
  have h2 : ((((∅ : GoMap JSON).insert "RequestType" (.str allRoomReqType)).insert "RequestID"
      (.str id)).insert "Rooms" (.arr (rs.map JSON.str))).lookup "RequestType"
        = some (.str allRoomReqType) := by
    rw [AList.lookup_insert_ne (by decide), AList.lookup_insert_ne (by decide),
      AList.lookup_insert]
  have h3 : ((((∅ : GoMap JSON).insert "RequestType" (.str allRoomReqType)).insert "RequestID"
      (.str id)).insert "Rooms" (.arr (rs.map JSON.str))).lookup "Rooms"
        = some (.arr (rs.map JSON.str)) := by
    rw [AList.lookup_insert]
  have h4 : ¬ allRoomReqType = roomLenReqType := by decide
  simp only [h1, h2, h3, hreq, h4, if_true, if_false, addRooms_strings]

end redis_local


namespace redis_local

end redis_local


namespace redis_local

theorem redisBroadcastRemote.tryReceiveDone_empty (w : World) (id : String) {req : Request}
    (hreq : w.bc.requests.lookup id = some req) (hd : req.done = []) :
    redisBroadcastRemote.tryReceiveDone w id = none := by
  simp only [redisBroadcastRemote.tryReceiveDone, hreq, hd]

theorem redisBroadcastRemote.tryReceiveDone_signalled (w : World) (id : String)
    {req : Request} (hreq : w.bc.requests.lookup id = some req) (hd : req.done = [true]) :
    redisBroadcastRemote.tryReceiveDone w id = some (w.setRequest id (req.withDone [])) := by
  simp only [redisBroadcastRemote.tryReceiveDone, hreq, hd]

theorem redisBroadcastRemote.awaitDone_cons (id : String) (w : World) (msg : Payload)
    (rest : List Payload) {w1 : World} {e : Option String}
    (hnone : redisBroadcastRemote.tryReceiveDone w id = none)
    (h : redisBroadcastRemote.onResponse w msg = (.returned e, w1)) :
    redisBroadcastRemote.awaitDone id w (msg :: rest)
      = redisBroadcastRemote.awaitDone id w1 rest := by
  simp only [redisBroadcastRemote.awaitDone, hnone, h]

theorem redisBroadcastRemote.awaitDone_roomLen (id : String) :
    ∀ (ks : List Int) (w : World) (req : roomLenRequest),
      w.bc.requests.lookup id = some (.roomLen req) → req.done = [] →
      req.numSub = req.msgCount + (ks.length : Int) → ks ≠ [] →
      ∃ w1 req1,
        redisBroadcastRemote.awaitDone id w
            (ks.map (fun k => some (roomLenResponse.Marshal ⟨roomLenReqType, id, k⟩)))
          = some w1 ∧
        w1.bc.requests.lookup id = some (.roomLen req1) ∧
        req1.connections
          = ks.foldl (fun c k => int64 (c + intOfFloat64 (roomLenResponse.decoded k)))
            req.connections := by
  intro ks
  induction ks with
  | nil => intro w req _ _ _ hne; exact absurd rfl hne
  | cons k ks ih =>
    intro w req hreq hd hN _
    have hnone := redisBroadcastRemote.tryReceiveDone_empty w id hreq
      (show (Request.roomLen req).done = [] from hd)
    have hstep := redisBroadcastRemote.onResponse_roomLen w id k req hreq
    cases ks with
    | nil =>
      have hlast : req.numSub = req.msgCount + 1 := by simpa using hN
      rw [if_pos hlast, hd] at hstep
      simp only [Chan.send, List.length_nil, Nat.lt_one_iff, if_true, List.nil_append]
        at hstep
      refine ⟨(w.setRequest id (.roomLen { req with
          msgCount := req.msgCount + 1, connections := int64 (req.connections + intOfFloat64 (roomLenResponse.decoded k)),
          done := [true] })).setRequest id
            ((Request.roomLen { req with
              msgCount := req.msgCount + 1, connections := int64 (req.connections + intOfFloat64 (roomLenResponse.decoded k)),
              done := [true] }).withDone []),
        { req with
          msgCount := req.msgCount + 1, connections := int64 (req.connections + intOfFloat64 (roomLenResponse.decoded k)), done := [] },
        ?_, ?_, by simp⟩
      · rw [List.map_cons, redisBroadcastRemote.awaitDone_cons id w _ _ hnone hstep]
        simp only [List.map_nil, redisBroadcastRemote.awaitDone]
        exact redisBroadcastRemote.tryReceiveDone_signalled _ id
          (by rw [World.lookup_setRequest, hreq]; rfl) rfl
      · rw [World.lookup_setRequest, World.lookup_setRequest, hreq]
        rfl
    | cons k2 ks2 =>
      have hlast : ¬ req.numSub = req.msgCount + 1 := by
        rw [hN]
        simp only [List.length_cons]
        push_cast
        omega
      rw [if_neg hlast] at hstep
      obtain ⟨w1, req1, hrun, hlook, hsum⟩ :=
        ih _ { req with msgCount := req.msgCount + 1, connections := int64 (req.connections + intOfFloat64 (roomLenResponse.decoded k)) }
          (by rw [World.lookup_setRequest, hreq]; rfl) hd
          (by
            rw [hN]
            simp only [List.length_cons]
            push_cast
            omega)
          (by simp)
      refine ⟨w1, req1, ?_, hlook, ?_⟩
      · rw [List.map_cons, redisBroadcastRemote.awaitDone_cons id w _ _ hnone hstep]
        exact hrun
      · rw [hsum]
        rfl

theorem redisBroadcastRemote.awaitDone_allRoom (id : String) :
    ∀ (rss : List (List String)) (w : World) (req : allRoomRequest),
      w.bc.requests.lookup id = some (.allRoom req) → req.done = [] →
      req.numSub = req.msgCount + (rss.length : Int) → rss ≠ [] →
      ∃ w1 req1,
        redisBroadcastRemote.awaitDone id w
            (rss.map (fun rs => some (allRoomResponse.Marshal ⟨allRoomReqType, id, rs⟩)))
          = some w1 ∧
        w1.bc.requests.lookup id = some (.allRoom req1) ∧
        (∀ name, name ∈ req1.rooms ↔ name ∈ req.rooms ∨ ∃ rs ∈ rss, name ∈ rs) := by
  intro rss
  induction rss with
  | nil => intro w req _ _ _ hne; exact absurd rfl hne
  | cons rs rss ih =>
    intro w req hreq hd hN _
    have hnone := redisBroadcastRemote.tryReceiveDone_empty w id hreq
      (show (Request.allRoom req).done = [] from hd)
    have hstep := redisBroadcastRemote.onResponse_allRoom w id rs req hreq
    cases rss with
    | nil =>
      have hlast : req.numSub = req.msgCount + 1 := by simpa using hN
      rw [if_pos hlast, hd] at hstep
      simp only [Chan.send, List.length_nil, Nat.lt_one_iff, if_true, List.nil_append]
        at hstep
      refine ⟨(w.setRequest id (.allRoom { req with
          msgCount := req.msgCount + 1,
          rooms := rs.foldl (fun acc r => acc.insert r true) req.rooms,
          done := [true] })).setRequest id
            ((Request.allRoom { req with
              msgCount := req.msgCount + 1,
              rooms := rs.foldl (fun acc r => acc.insert r true) req.rooms,
              done := [true] }).withDone []),
        { req with
          msgCount := req.msgCount + 1,
          rooms := rs.foldl (fun acc r => acc.insert r true) req.rooms, done := [] },
        ?_, ?_, ?_⟩
      · rw [List.map_cons, redisBroadcastRemote.awaitDone_cons id w _ _ hnone hstep]
        simp only [List.map_nil, redisBroadcastRemote.awaitDone]
        exact redisBroadcastRemote.tryReceiveDone_signalled _ id
          (by rw [World.lookup_setRequest, hreq]; rfl) rfl
      · rw [World.lookup_setRequest, World.lookup_setRequest, hreq]
        rfl
      · intro name
        simp [mem_foldl_insert]
    | cons rs2 rss2 =>
      have hlast : ¬ req.numSub = req.msgCount + 1 := by
        rw [hN]
        simp only [List.length_cons]
        push_cast
        omega
      rw [if_neg hlast] at hstep
      obtain ⟨w1, req1, hrun, hlook, hmem⟩ :=
        ih _ { req with
            msgCount := req.msgCount + 1,
            rooms := rs.foldl (fun acc r => acc.insert r true) req.rooms }
          (by rw [World.lookup_setRequest, hreq]; rfl) hd
          (by
            rw [hN]
            simp only [List.length_cons]
            push_cast
            omega)
          (by simp)
      refine ⟨w1, req1, ?_, hlook, ?_⟩
      · rw [List.map_cons, redisBroadcastRemote.awaitDone_cons id w _ _ hnone hstep]
        exact hrun
      · intro name
        rw [hmem name, mem_foldl_insert]
        simp only [List.mem_cons, exists_eq_or_imp]
        tauto

end redis_local


namespace redis_local

theorem redisBroadcastRemote.onResponse_unknown_id (w : World) (msg : Payload)
    {res : GoMap JSON} {id : String} (hdec : UnmarshalAnyMap msg = some res)
    (hid : res.lookup "RequestID" = some (.str id)) (hreq : w.bc.requests.lookup id = none) :
    redisBroadcastRemote.onResponse w msg = (.returned none, w) := by
  simp only [redisBroadcastRemote.onResponse, hdec, hid, hreq]

theorem redisBroadcastRemote.onResponse_unknown_type (w : World) (msg : Payload)
    {res : GoMap JSON} {id : String} {req : Request} (hdec : UnmarshalAnyMap msg = some res)
    (hid : res.lookup "RequestID" = some (.str id)) (hreq : w.bc.requests.lookup id = some req)
    (hty : ∀ ty, res.lookup "RequestType" = some (.str ty) →
      ty ≠ roomLenReqType ∧ ty ≠ allRoomReqType) :
    redisBroadcastRemote.onResponse w msg = (.returned none, w) := by
  simp only [redisBroadcastRemote.onResponse, hdec, hid, hreq]
  cases hl : res.lookup "RequestType" with
  | none => rfl
  | some v =>
    cases v with
    | str ty =>
      have h := hty ty hl
      simp [h.1, h.2]
    | null => rfl
    | bool b => rfl
    | num n => rfl
    | arr xs => rfl
    | obj kvs => rfl

theorem redisBroadcastRemote.lookup_lenRoomStart (w : World) (room uuid : String) (n : Int) :
    (redisBroadcastRemote.lenRoomStart w room uuid (some n) true).1 = none ∧
    (redisBroadcastRemote.lenRoomStart w room uuid (some n) true).2.bc.requests.lookup uuid
      = some (.roomLen
          { RequestType := roomLenReqType, RequestID := uuid, Room := room, numSub := n,
            msgCount := 0, connections := 0, done := [] }) := by
  simp [redisBroadcastRemote.lenRoomStart, redisBroadcastRemote.publish, AList.lookup_insert]

theorem redisBroadcastRemote.lookup_allRoomsStart (w : World) (uuid : String) (n : Int) :
    (redisBroadcastRemote.allRoomsStart w uuid (some n) true).1 = none ∧
    (redisBroadcastRemote.allRoomsStart w uuid (some n) true).2.bc.requests.lookup uuid
      = some (.allRoom
          { RequestType := allRoomReqType, RequestID := uuid, rooms := ∅, numSub := n,
            msgCount := 0, done := [] }) := by
  simp [redisBroadcastRemote.allRoomsStart, redisBroadcastRemote.publish, AList.lookup_insert]

end redis_local


/-! ## Repeated clear -/

namespace redis_local

theorem redisBroadcastLocal.clear_clear (bc : redisBroadcastLocal) (room : String) :
    (bc.clear room).clear room = bc.clear room := by
  have h : room ∉ (AList.erase room bc.roomsSync.Map.m).keys := by
    rw [← AList.mem_keys, AList.mem_erase]
    simp
  have h2 : AList.erase room (AList.erase room bc.roomsSync.Map.m)
      = AList.erase room bc.roomsSync.Map.m :=
    AList.ext (List.kerase_of_not_mem_keys h)
  simp only [redisBroadcastLocal.clear, roomMap.delete, SyncMap.Delete, h2]

theorem redisBroadcastLocal.clear_absent (bc : redisBroadcastLocal) (room : String)
    (h : bc.getOccupants room = none) : bc.clear room = bc := by
  have hk : room ∉ bc.roomsSync.Map.m.keys := by
    rw [← AList.mem_keys, ← AList.lookup_eq_none]
    exact h
  have h2 : AList.erase room bc.roomsSync.Map.m = bc.roomsSync.Map.m :=
    AList.ext (List.kerase_of_not_mem_keys hk)
  simp only [redisBroadcastLocal.clear, roomMap.delete, SyncMap.Delete, h2]

theorem onRequest_clearRoomRequest (w : World) (id room uuid : String) :
    redisBroadcastRemote.onRequest w
        (some (clearRoomRequest.Marshal ⟨clearRoomReqType, id, room, uuid⟩))
      = if w.bc.local_.uid = uuid then (.returned none, w)
        else (.returned none, { w with bc := { w.bc with local_ := w.bc.local_.clear room } })
    := by
  have hdec : UnmarshalStringMap
      (some (clearRoomRequest.Marshal ⟨clearRoomReqType, id, room, uuid⟩))
      = some (((((∅ : GoMap String).insert "RequestType" clearRoomReqType).insert
          "RequestID" id).insert "Room" room).insert "UUID" uuid) := by
    simp only [UnmarshalStringMap, clearRoomRequest.Marshal, decodeObject, decodeString,
      List.foldl_cons, List.foldl_nil, Option.some_bind, Option.map_some']
  have hty : GoMap.getString (((((∅ : GoMap String).insert "RequestType" clearRoomReqType).insert
      "RequestID" id).insert "Room" room).insert "UUID" uuid) "RequestType"
      = clearRoomReqType := by
    unfold GoMap.getString
    rw [AList.lookup_insert_ne (by decide), AList.lookup_insert_ne (by decide),
      AList.lookup_insert_ne (by decide), AList.lookup_insert]
    rfl
  have hroom : GoMap.getString (((((∅ : GoMap String).insert "RequestType" clearRoomReqType).insert
      "RequestID" id).insert "Room" room).insert "UUID" uuid) "Room" = room := by
    unfold GoMap.getString
    rw [AList.lookup_insert_ne (by decide), AList.lookup_insert]
    rfl
  have huuid : GoMap.getString (((((∅ : GoMap String).insert "RequestType" clearRoomReqType).insert
      "RequestID" id).insert "Room" room).insert "UUID" uuid) "UUID" = uuid := by
    unfold GoMap.getString
    rw [AList.lookup_insert]
    rfl
  have h0 : ¬ clearRoomReqType = roomLenReqType := by decide
  have h2 : ¬ clearRoomReqType = allRoomReqType := by decide
  simp only [redisBroadcastRemote.onRequest, hdec, hty, hroom, huuid, h0, h2, if_false, if_true]

end redis_local


/-! ## The payload encoder -/

namespace payload

theorem encodeStd_append : ∀ (xs ys : List Nat), xs.length % 3 = 0 →
    encodeStd (xs ++ ys) = encodeStd xs ++ encodeStd ys
  | [], ys, _ => by simp [encodeStd]
  | [_], _, h => by simp at h
  | [_, _], _, h => by simp at h
  | a :: b :: c :: rest, ys, h => by
    have h1 : rest.length % 3 = 0 := by
      simp only [List.length_cons] at h
      omega
    simp [encodeStd, encodeStd_append rest ys h1]

theorem encodeStd_take_drop (data s : List Nat) :
    encodeStd (data.take (data.length / 3 * 3)) ++ encodeStd (data.drop (data.length / 3 * 3) ++ s)
      = encodeStd (data ++ s) := by
  have hlen : (data.take (data.length / 3 * 3)).length % 3 = 0 := by
    rw [List.length_take]
    have : data.length / 3 * 3 ≤ data.length := Nat.div_mul_le_self _ _
    rw [Nat.min_eq_left this]
    exact Nat.mul_mod_left _ _
  rw [← encodeStd_append _ _ hlen, ← List.append_assoc, List.take_append_drop]

theorem encoder.foldl_Write_fields (chunks : List (List Nat)) : ∀ (e : encoder),
    (chunks.foldl encoder.Write e).ft = e.ft ∧ (chunks.foldl encoder.Write e).pt = e.pt ∧
    (chunks.foldl encoder.Write e).rawWriter = e.rawWriter ∧
    (chunks.foldl encoder.Write e).feeder = e.feeder := by
  induction chunks with
  | nil => intro e; exact ⟨rfl, rfl, rfl, rfl⟩
  | cons p rest ih =>
    intro e
    rw [List.foldl_cons]
    obtain ⟨h1, h2, h3, h4⟩ := ih (e.Write p)
    rw [h1, h2, h3, h4]
    unfold encoder.Write
    cases e.b64Writer <;> exact ⟨rfl, rfl, rfl, rfl⟩

theorem encoder.foldl_Write_text (chunks : List (List Nat)) : ∀ (e : encoder),
    e.b64Writer = none →
    (chunks.foldl encoder.Write e).b64Writer = none ∧
    (chunks.foldl encoder.Write e).frameCache = e.frameCache ++ chunks.flatten := by
  induction chunks with
  | nil => intro e h; simp [h]
  | cons p rest ih =>
    intro e h
    have hw : e.Write p = { e with frameCache := e.frameCache ++ p } := by
      simp [encoder.Write, h]
    rw [List.foldl_cons, hw]
    obtain ⟨h1, h2⟩ := ih { e with frameCache := e.frameCache ++ p } h
    rw [h1, h2]
    simp

theorem encoder.foldl_Write_binary (chunks : List (List Nat)) : ∀ (e : encoder)
    (b : b64Encoder), e.b64Writer = some b →
    ∃ b1, (chunks.foldl encoder.Write e).b64Writer = some b1 ∧
      (chunks.foldl encoder.Write e).frameCache ++ encodeStd b1.buf
        = e.frameCache ++ encodeStd (b.buf ++ chunks.flatten) := by
  induction chunks with
  | nil => intro e b h; exact ⟨b, by simpa using h, by simp⟩
  | cons p rest ih =>
    intro e b h
    have hw : e.Write p = { e with
        frameCache := e.frameCache ++ encodeStd ((b.buf ++ p).take ((b.buf ++ p).length / 3 * 3))
        b64Writer := some ⟨(b.buf ++ p).drop ((b.buf ++ p).length / 3 * 3)⟩ } := by
      simp [encoder.Write, h]
    obtain ⟨b1, h1, h2⟩ := ih (e.Write p) ⟨(b.buf ++ p).drop ((b.buf ++ p).length / 3 * 3)⟩
      (by rw [hw])
    refine ⟨b1, by rw [List.foldl_cons]; exact h1, ?_⟩
    rw [List.foldl_cons, h2, hw]
    simp only [List.flatten_cons, List.append_assoc]
    rw [encodeStd_take_drop (b.buf ++ p) rest.flatten]
    simp

end payload


namespace payload

theorem bufferWriteTo_ok (buf : List Nat) (recv : List Nat) :
    bufferWriteTo buf (some ⟨recv, none⟩) = some ([], some ⟨recv ++ buf, none⟩, none) := by
  cases buf with
  | nil => simp [bufferWriteTo]
  | cons b bs => simp [bufferWriteTo, Writer.Write]

theorem encoder.Close_eq (g : encoder) (w : Writer) (hr : g.rawWriter = some w)
    (hw : w.err = none) :
    ∃ e1, g.Close = some (g.feeder.putWriter none, e1) ∧
      e1.rawWriter = some { w with received := w.received ++
        ((if g.ft = .Binary then [g.pt.StringByte, 98] else [g.pt.StringByte]) ++
          (g.frameCache ++
            (match g.b64Writer with
              | some b => encodeStd b.buf
              | none => []))) } ∧
      e1.header = [] ∧ e1.frameCache = [] ∧ e1.feeder = g.feeder := by
  obtain ⟨sb, feeder, ft, pt, header, fc, b64, raw⟩ := g
  simp only at hr
  subst hr
  obtain ⟨recv, werr⟩ := w
  simp only at hw
  subst hw
  cases ft <;> cases b64 <;> cases hp : feeder.putWriter none <;>
    simp [encoder.Close, encoder.writeB64Header, encoder.writeTextHeader, bufferWriteTo_ok, hp]

end payload


/-! ## The sum of the `Connections` values -/

namespace redis_local

theorem foldl_connections_eq_sum : ∀ (ks : List Int) (c : Int),
    (∀ k ∈ ks, -(2 ^ 53) ≤ k ∧ k ≤ 2 ^ 53) →
    (∀ i ≤ ks.length, -(2 ^ 63) ≤ c + (ks.take i).sum ∧ c + (ks.take i).sum < 2 ^ 63) →
    ks.foldl (fun c k => int64 (c + intOfFloat64 (roomLenResponse.decoded k))) c
      = c + ks.sum := by
  intro ks
  induction ks with
  | nil => intro c _ _; simp
  | cons k ks ih =>
    intro c hk hsum
    have hk1 := hk k (List.mem_cons_self _ _)
    have hdec : roomLenResponse.decoded k = k := roomLenResponse.decoded_exact k (by omega)
    have h1 := hsum 1 (by simp)
    simp only [List.take_succ_cons, List.take_zero, List.sum_cons, List.sum_nil,
      Int.add_zero] at h1
    have hstep : int64 (c + intOfFloat64 (roomLenResponse.decoded k)) = c + k := by
      rw [hdec, intOfFloat64_eq k (by omega) (by omega), int64_eq _ h1.1 h1.2]
    rw [List.foldl_cons, hstep, ih (c + k) (fun x hx => hk x (List.mem_cons_of_mem _ hx))]
    · simp only [List.sum_cons]
      omega
    · intro i hi
      have h2 := hsum (i + 1) (by simp only [List.length_cons]; omega)
      simp only [List.take_succ_cons, List.sum_cons] at h2
      omega

end redis_local


/-! ## map.go with its pointers: what a callback leaves alone -/

namespace map_go_mem

theorem Memory.read_write_ne (mem : Memory) {a b : Nat} (m : GoMap Conn) (h : a ≠ b) :
    (mem.write b m).read a = mem.read a := by
  unfold Memory.read Memory.write
  rw [List.getD_eq_getElem?_getD, List.getD_eq_getElem?_getD,
    List.getElem?_set_ne (fun hba => h hba.symm)]

theorem Memory.length_write (mem : Memory) (b : Nat) (m : GoMap Conn) :
    (mem.write b m).length = mem.length := by
  unfold Memory.write
  rw [List.length_set]

theorem Memory.read_alloc_lt (mem : Memory) {a : Nat} (m : GoMap Conn) (h : a < mem.length) :
    (mem.alloc m).1.read a = mem.read a := by
  unfold Memory.read Memory.alloc
  rw [List.getD_eq_getElem?_getD, List.getD_eq_getElem?_getD, List.getElem?_append_left h]

theorem Memory.read_alloc_new (mem : Memory) (m : GoMap Conn) :
    (mem.alloc m).1.read (mem.alloc m).2 = m := by
  unfold Memory.read Memory.alloc
  rw [List.getD_eq_getElem?_getD]
  simp

theorem Memory.length_alloc (mem : Memory) (m : GoMap Conn) :
    (mem.alloc m).1.length = mem.length + 1 := by
  unfold Memory.alloc
  simp

theorem connMap.join_apart (cm : connMap) (conn : Conn) (mem : Memory) {a : Nat}
    (h : cm.data ≠ a) :
    (cm.join conn mem).read a = mem.read a ∧ (cm.join conn mem).length = mem.length :=
  ⟨Memory.read_write_ne mem _ (fun hab => h hab.symm), Memory.length_write mem _ _⟩

theorem connMap.leave_apart (cm : connMap) (conn : Conn) (mem : Memory) {a : Nat}
    (h : cm.data ≠ a) :
    (cm.leave conn mem).read a = mem.read a ∧ (cm.leave conn mem).length = mem.length :=
  ⟨Memory.read_write_ne mem _ (fun hab => h hab.symm), Memory.length_write mem _ _⟩

theorem mem_entries_insert {V : Type} {m : GoMap V} {k : String} {v : V}
    {e : Σ _ : String, V} (h : e ∈ (m.insert k v).entries) : e = ⟨k, v⟩ ∨ e ∈ m.entries := by
  rw [AList.insert_entries] at h
  rcases List.mem_cons.1 h with h | h
  · exact Or.inl h
  · exact Or.inr ((List.kerase_sublist k m.entries).subset h)

theorem mem_entries_erase {V : Type} {m : GoMap V} {k : String}
    {e : Σ _ : String, V} (h : e ∈ (m.erase k).entries) : e ∈ m.entries :=
  (List.kerase_sublist k m.entries).subset h

theorem roomMap.join_room_apart (rm : roomMap) (room : String) (conn : Conn) (mem : Memory)
    {a : Nat} (ha : a < mem.length) (hr : ∀ e ∈ rm.data.entries, e.2.data ≠ a) :
    a < (rm.join room conn mem).2.length ∧
    (∀ e ∈ (rm.join room conn mem).1.data.entries, e.2.data ≠ a) ∧
    (rm.join room conn mem).2.read a = mem.read a := by
  unfold roomMap.join
  cases hl : rm.data.lookup room with
  | some cm =>
    have hcm : cm.data ≠ a := hr ⟨room, cm⟩ (AList.mem_lookup_iff.1 hl)
    obtain ⟨h1, h2⟩ := connMap.join_apart cm conn mem hcm
    exact ⟨by simp only; omega, hr, h1⟩
  | none =>
    have hnew : (⟨(mem.alloc ∅).2⟩ : connMap).data ≠ a := by
      show mem.length ≠ a
      omega
    obtain ⟨h1, h2⟩ := connMap.join_apart ⟨(mem.alloc ∅).2⟩ conn (mem.alloc ∅).1 hnew
    simp only [newConnMap]
    refine ⟨?_, ?_, ?_⟩
    · rw [h2, Memory.length_alloc]
      omega
    · intro e he
      rcases mem_entries_insert he with he | he
      · rw [he]
        exact hnew
      · exact hr e he
    · rw [h1, Memory.read_alloc_lt mem ∅ ha]

theorem roomMap.leave_room_apart (rm : roomMap) (room : String) (conn : Conn) (mem : Memory)
    {a : Nat} (ha : a < mem.length) (hr : ∀ e ∈ rm.data.entries, e.2.data ≠ a) :
    a < (rm.leave room conn mem).2.length ∧
    (∀ e ∈ (rm.leave room conn mem).1.data.entries, e.2.data ≠ a) ∧
    (rm.leave room conn mem).2.read a = mem.read a := by
  unfold roomMap.leave
  cases hl : rm.data.lookup room with
  | none => exact ⟨ha, hr, rfl⟩
  | some cm =>
    have hcm : cm.data ≠ a := hr ⟨room, cm⟩ (AList.mem_lookup_iff.1 hl)
    obtain ⟨h1, h2⟩ := connMap.leave_apart cm conn mem hcm
    simp only
    split
    · exact ⟨by simp only; omega, fun e he => hr e (mem_entries_erase he), h1⟩
    · exact ⟨by simp only; omega, hr, h1⟩

theorem foldl_leave_apart (conn : Conn) {a : Nat} :
    ∀ (l : List (Σ _ : String, connMap)) (mem : Memory), (∀ e ∈ l, e.2.data ≠ a) →
      (l.foldl (fun mem1 e => e.2.leave conn mem1) mem).read a = mem.read a ∧
      (l.foldl (fun mem1 e => e.2.leave conn mem1) mem).length = mem.length := by
  intro l
  induction l with
  | nil => intro mem _; exact ⟨rfl, rfl⟩
  | cons e l ih =>
    intro mem h
    obtain ⟨h1, h2⟩ := connMap.leave_apart e.2 conn mem (h e (List.mem_cons_self _ _))
    obtain ⟨h3, h4⟩ := ih (e.2.leave conn mem) (fun x hx => h x (List.mem_cons_of_mem _ hx))
    rw [List.foldl_cons, h3, h4]
    exact ⟨h1, h2⟩

theorem roomMap.leaveAll_apart (rm : roomMap) (conn : Conn) (mem : Memory) {a : Nat}
    (hr : ∀ e ∈ rm.data.entries, e.2.data ≠ a) :
    (rm.leaveAll conn mem).read a = mem.read a ∧ (rm.leaveAll conn mem).length = mem.length := by
  unfold roomMap.leaveAll roomMap.iterableData
  rw [rangeLoop_true (fun _ (cm : connMap) (mem1 : Memory) => cm.leave conn mem1),
    copyMap_entries]
  exact foldl_leave_apart conn _ mem (fun e he => hr e (List.mem_reverse.1 he))

theorem Op.run_apart {τ : Type} (op : Op) (w : World τ) {a : Nat} (ha : a < w.mem.length)
    (hr : ∀ e ∈ w.bc.roomsSync.data.entries, e.2.data ≠ a) :
    a < (op.run w).mem.length ∧
    (∀ e ∈ (op.run w).bc.roomsSync.data.entries, e.2.data ≠ a) ∧
    (op.run w).mem.read a = w.mem.read a ∧
    (op.run w).ext = w.ext ∧ (op.run w).calls = w.calls := by
  cases op with
  | join room conn =>
    obtain ⟨h1, h2, h3⟩ := roomMap.join_room_apart w.bc.roomsSync room conn w.mem ha hr
    exact ⟨h1, h2, h3, rfl, rfl⟩
  | leave room conn =>
    obtain ⟨h1, h2, h3⟩ := roomMap.leave_room_apart w.bc.roomsSync room conn w.mem ha hr
    exact ⟨h1, h2, h3, rfl, rfl⟩
  | leaveAll conn =>
    obtain ⟨h1, h2⟩ := roomMap.leaveAll_apart w.bc.roomsSync conn w.mem hr
    refine ⟨?_, hr, h1, rfl, rfl⟩
    show a < (w.bc.roomsSync.leaveAll conn w.mem).length
    omega
  | clear room =>
    exact ⟨ha, fun e he => hr e (mem_entries_erase he), rfl, rfl, rfl⟩

theorem foldl_run_apart {τ : Type} {a : Nat} : ∀ (ops : List Op) (w : World τ),
    a < w.mem.length → (∀ e ∈ w.bc.roomsSync.data.entries, e.2.data ≠ a) →
    a < (ops.foldl (fun w1 op => op.run w1) w).mem.length ∧
    (∀ e ∈ (ops.foldl (fun w1 op => op.run w1) w).bc.roomsSync.data.entries, e.2.data ≠ a) ∧
    (ops.foldl (fun w1 op => op.run w1) w).mem.read a = w.mem.read a := by
  intro ops
  induction ops with
  | nil => intro w ha hr; exact ⟨ha, hr, rfl⟩
  | cons op ops ih =>
    intro w ha hr
    obtain ⟨h1, h2, h3, _, _⟩ := Op.run_apart op w ha hr
    obtain ⟨h4, h5, h6⟩ := ih (op.run w) h1 h2
    rw [List.foldl_cons]
    exact ⟨h4, h5, by rw [h6, h3]⟩

theorem EachFunc.call_apart {τ : Type} (f : EachFunc τ) (conn : Conn) (w : World τ) {a : Nat}
    (ha : a < w.mem.length) (hr : ∀ e ∈ w.bc.roomsSync.data.entries, e.2.data ≠ a) :
    a < (f.call conn w).mem.length ∧
    (∀ e ∈ (f.call conn w).bc.roomsSync.data.entries, e.2.data ≠ a) ∧
    (f.call conn w).mem.read a = w.mem.read a ∧
    (f.call conn w).calls = w.calls ++ [conn] := by
  obtain ⟨h1, h2, h3⟩ := foldl_run_apart (f.ops conn w) w ha hr
  exact ⟨h1, h2, h3, rfl⟩

end map_go_mem


/-! ## map.go with its pointers: the loop over a map, reachable states -/

namespace map_go_mem

theorem rangeMap_invariant {V σ : Type} (m : σ → GoMap V) (h : String → V → σ → Bool × σ)
    (c : GoMap V) (P : List (Σ _ : String, V) → σ → Prop)
    (hm : ∀ pre s, P pre s → m s = c)
    (hstep : ∀ pre e s, P pre s → (h e.1 e.2 s).1 = true ∧ P (pre ++ [e]) (h e.1 e.2 s).2) :
    ∀ (post pre : List (Σ _ : String, V)) (fuel : Nat) (s : σ),
      c.entries = pre ++ post → post.length ≤ fuel → P pre s →
      ∃ s1, rangeMap m h fuel (pre.map (fun e => e.1)) s = some s1 ∧ P c.entries s1 := by
  intro post
  induction post with
  | nil =>
    intro pre fuel s hc _ hP
    have hpre : c.entries = pre := by simpa using hc
    have hfind : (m s).entries.find? (fun e => decide (e.1 ∉ pre.map (fun e => e.1))) = none := by
      rw [hm pre s hP, hpre, List.find?_eq_none]
      intro x hx
      simp only [decide_eq_true_eq, not_not]
      exact List.mem_map_of_mem _ hx
    refine ⟨s, ?_, by rw [hpre]; exact hP⟩
    cases fuel <;> simp only [rangeMap, hfind]
  | cons e post ih =>
    intro pre fuel s hc hfuel hP
    have hnd : (pre ++ e :: post).NodupKeys := by
      rw [← hc]
      exact c.nodupKeys
    have hnot : e.1 ∉ pre.map (fun e => e.1) := by
      have h1 : ((pre ++ e :: post).map Sigma.fst).Nodup := hnd
      rw [List.map_append, List.map_cons] at h1
      have h2 := (List.nodup_append.1 h1).2.2
      intro hmem
      exact h2 hmem (List.mem_cons_self _ _)
    have hfind : (m s).entries.find? (fun e => decide (e.1 ∉ pre.map (fun e => e.1)))
        = some e := by
      rw [hm pre s hP, hc, List.find?_append]
      have hnone : pre.find? (fun e => decide (e.1 ∉ pre.map (fun e => e.1))) = none := by
        rw [List.find?_eq_none]
        intro x hx
        simp only [decide_eq_true_eq, not_not]
        exact List.mem_map_of_mem _ hx
      rw [hnone, List.find?_cons_of_pos _ (by simpa using hnot)]
      rfl
    obtain ⟨hb, hP1⟩ := hstep pre e s hP
    obtain ⟨fuel1, rfl⟩ : ∃ fuel1, fuel = fuel1 + 1 := by
      simp only [List.length_cons] at hfuel
      exact ⟨fuel - 1, by omega⟩
    obtain ⟨s1, hrun, hfin⟩ := ih (pre ++ [e]) fuel1 (h e.1 e.2 s).2
      (by rw [hc]; simp) (by simp only [List.length_cons] at hfuel; omega) hP1
    refine ⟨s1, ?_, hfin⟩
    have hpair : h e.1 e.2 s = (true, (h e.1 e.2 s).2) := by
      rw [← hb]
    simp only [rangeMap, hfind]
    rw [hpair]
    simp only
    rw [← hrun]
    simp

theorem roomMap.join_wf (rm : roomMap) (room : String) (conn : Conn) (mem : Memory)
    (h : ∀ e ∈ rm.data.entries, e.2.data < mem.length) :
    ∀ e ∈ (rm.join room conn mem).1.data.entries,
      e.2.data < (rm.join room conn mem).2.length := by
  unfold roomMap.join
  cases hl : rm.data.lookup room with
  | some cm =>
    intro e he
    simp only [connMap.join, Memory.length_write]
    exact h e he
  | none =>
    intro e he
    simp only [newConnMap, connMap.join, Memory.length_write, Memory.length_alloc]
    rcases mem_entries_insert he with he | he
    · rw [he]
      show mem.length < mem.length + 1
      omega
    · have := h e he
      omega

theorem roomMap.leave_wf (rm : roomMap) (room : String) (conn : Conn) (mem : Memory)
    (h : ∀ e ∈ rm.data.entries, e.2.data < mem.length) :
    ∀ e ∈ (rm.leave room conn mem).1.data.entries,
      e.2.data < (rm.leave room conn mem).2.length := by
  unfold roomMap.leave
  cases hl : rm.data.lookup room with
  | none => exact h
  | some cm =>
    simp only
    split
    · intro e he
      simp only [connMap.leave, Memory.length_write]
      exact h e (mem_entries_erase he)
    · intro e he
      simp only [connMap.leave, Memory.length_write]
      exact h e he

theorem foldl_leave_length (conn : Conn) :
    ∀ (l : List (Σ _ : String, connMap)) (mem : Memory),
      (l.foldl (fun mem1 e => e.2.leave conn mem1) mem).length = mem.length := by
  intro l
  induction l with
  | nil => intro mem; rfl
  | cons e l ih =>
    intro mem
    rw [List.foldl_cons, ih]
    simp only [connMap.leave, Memory.length_write]

theorem roomMap.leaveAll_length (rm : roomMap) (conn : Conn) (mem : Memory) :
    (rm.leaveAll conn mem).length = mem.length := by
  unfold roomMap.leaveAll roomMap.iterableData
  rw [rangeLoop_true (fun _ (cm : connMap) (mem1 : Memory) => cm.leave conn mem1)]
  exact foldl_leave_length conn _ mem

theorem Op.run_wf {τ : Type} (op : Op) (w : World τ) (h : w.WellFormed) :
    (op.run w).WellFormed := by
  cases op with
  | join room conn => exact roomMap.join_wf w.bc.roomsSync room conn w.mem h
  | leave room conn => exact roomMap.leave_wf w.bc.roomsSync room conn w.mem h
  | leaveAll conn =>
    intro e he
    show e.2.data < (w.bc.roomsSync.leaveAll conn w.mem).length
    rw [roomMap.leaveAll_length]
    exact h e he
  | clear room => exact fun e he => h e (mem_entries_erase he)

theorem Reachable.wellFormed {τ : Type} {w : World τ} (h : Reachable w) : w.WellFormed := by
  induction h with
  | new nsp uid x => intro e he; exact absurd he (List.not_mem_nil _)
  | run op _ ih => exact Op.run_wf op _ ih

theorem keyed_write {mem : Memory} {a : Nat} {m : GoMap Conn}
    (h : ∀ x ∈ mem, ∀ e ∈ x.entries, e.2.ID = e.1) (hm : ∀ e ∈ m.entries, e.2.ID = e.1) :
    ∀ x ∈ mem.write a m, ∀ e ∈ x.entries, e.2.ID = e.1 := by
  intro x hx
  rcases List.mem_or_eq_of_mem_set hx with hx | hx
  · exact h x hx
  · rw [hx]
    exact hm

theorem keyed_read {mem : Memory} (h : ∀ x ∈ mem, ∀ e ∈ x.entries, e.2.ID = e.1) (a : Nat) :
    ∀ e ∈ (mem.read a).entries, e.2.ID = e.1 := by
  unfold Memory.read
  rw [List.getD_eq_getElem?_getD]
  cases hget : mem[a]? with
  | none => intro e he; exact absurd he (List.not_mem_nil _)
  | some m => exact h m (List.getElem?_mem hget)

theorem keyed_join (cm : connMap) (conn : Conn) {mem : Memory}
    (h : ∀ x ∈ mem, ∀ e ∈ x.entries, e.2.ID = e.1) :
    ∀ x ∈ cm.join conn mem, ∀ e ∈ x.entries, e.2.ID = e.1 := by
  refine keyed_write h ?_
  intro e he
  rcases mem_entries_insert he with he | he
  · rw [he]
  · exact keyed_read h cm.data e he

theorem keyed_leave (cm : connMap) (conn : Conn) {mem : Memory}
    (h : ∀ x ∈ mem, ∀ e ∈ x.entries, e.2.ID = e.1) :
    ∀ x ∈ cm.leave conn mem, ∀ e ∈ x.entries, e.2.ID = e.1 :=
  keyed_write h (fun e he => keyed_read h cm.data e (mem_entries_erase he))

theorem keyed_foldl_leave (conn : Conn) :
    ∀ (l : List (Σ _ : String, connMap)) (mem : Memory),
      (∀ x ∈ mem, ∀ e ∈ x.entries, e.2.ID = e.1) →
      ∀ x ∈ l.foldl (fun mem1 e => e.2.leave conn mem1) mem, ∀ e ∈ x.entries, e.2.ID = e.1 := by
  intro l
  induction l with
  | nil => intro mem h; exact h
  | cons e l ih =>
    intro mem h
    rw [List.foldl_cons]
    exact ih _ (keyed_leave e.2 conn h)

theorem Op.run_keyed {τ : Type} (op : Op) (w : World τ)
    (h : ∀ x ∈ w.mem, ∀ e ∈ x.entries, e.2.ID = e.1) :
    ∀ x ∈ (op.run w).mem, ∀ e ∈ x.entries, e.2.ID = e.1 := by
  cases op with
  | join room conn =>
    show ∀ x ∈ (w.bc.roomsSync.join room conn w.mem).2, ∀ e ∈ x.entries, e.2.ID = e.1
    unfold roomMap.join
    cases hl : w.bc.roomsSync.data.lookup room with
    | some cm => exact keyed_join cm conn h
    | none =>
      refine keyed_join _ conn ?_
      intro x hx
      simp only [newConnMap, Memory.alloc, List.mem_append, List.mem_singleton] at hx
      rcases hx with hx | hx
      · exact h x hx
      · rw [hx]
        intro e he
        exact absurd he (List.not_mem_nil _)
  | leave room conn =>
    show ∀ x ∈ (w.bc.roomsSync.leave room conn w.mem).2, ∀ e ∈ x.entries, e.2.ID = e.1
    unfold roomMap.leave
    cases hl : w.bc.roomsSync.data.lookup room with
    | none => exact h
    | some cm =>
      simp only
      split
      · exact keyed_leave cm conn h
      · exact keyed_leave cm conn h
  | leaveAll conn =>
    show ∀ x ∈ w.bc.roomsSync.leaveAll conn w.mem, ∀ e ∈ x.entries, e.2.ID = e.1
    unfold roomMap.leaveAll
    rw [rangeLoop_true (fun _ (cm : connMap) (mem1 : Memory) => cm.leave conn mem1)]
    exact keyed_foldl_leave conn _ w.mem h
  | clear room => exact h

theorem Reachable.keyed {τ : Type} {w : World τ} (h : Reachable w) (a : Nat) :
    ∀ e ∈ (w.mem.read a).entries, e.2.ID = e.1 := by
  have hall : ∀ x ∈ w.mem, ∀ e ∈ x.entries, e.2.ID = e.1 := by
    induction h with
    | new nsp uid x => intro x hx; exact absurd hx (List.not_mem_nil _)
    | run op _ ih => exact Op.run_keyed op _ ih
  exact keyed_read hall a

theorem redisBroadcastLocal.forEach_snapshot {τ : Type} (w : World τ) (hwf : w.WellFormed)
    (room : String) (f : EachFunc τ) (fuel : Nat) (occupants : connMap)
    (hget : w.bc.getOccupants room = some occupants)
    (hfuel : (w.mem.read occupants.data).len ≤ fuel) :
    ∃ w1, redisBroadcastLocal.forEach room f fuel w = some w1 ∧
      w1.calls = w.calls ++ ((w.mem.read occupants.data).entries.reverse.map (fun e => e.2)) := by
  have hmem : (⟨room, occupants⟩ : Σ _ : String, connMap) ∈ w.bc.roomsSync.data.entries :=
    AList.mem_lookup_iff.1 hget
  obtain ⟨s1, hrun, _, _, _, hcalls⟩ :=
    rangeMap_invariant (fun w1 : World τ => w1.mem.read w.mem.length)
      (fun _ conn w1 => (true, f.call conn w1))
      (copyMap (w.mem.read occupants.data))
      (fun pre s => w.mem.length < s.mem.length ∧
        (∀ e ∈ s.bc.roomsSync.data.entries, e.2.data ≠ w.mem.length) ∧
        s.mem.read w.mem.length = copyMap (w.mem.read occupants.data) ∧
        s.calls = w.calls ++ pre.map (fun e => e.2))
      (fun pre s hP => hP.2.2.1)
      (fun pre e s hP => by
        obtain ⟨h1, h2, h3, h4⟩ := EachFunc.call_apart f e.2 s hP.1 hP.2.1
        refine ⟨rfl, h1, h2, by rw [h3]; exact hP.2.2.1, ?_⟩
        simp only
        rw [h4, hP.2.2.2]
        simp)
      (copyMap (w.mem.read occupants.data)).entries [] fuel
      { w with mem := (occupants.iterableData w.mem).1 }
      (by simp)
      (by
        rw [copyMap_entries, List.length_reverse]
        exact hfuel)
      ⟨by
        show w.mem.length < (w.mem.alloc _).1.length
        rw [Memory.length_alloc]
        omega,
       fun e he => Nat.ne_of_lt (hwf e he),
       Memory.read_alloc_new w.mem _,
       by simp⟩
  refine ⟨s1, ?_, ?_⟩
  · unfold redisBroadcastLocal.forEach
    rw [hget]
    exact hrun
  · rw [hcalls, copyMap_entries]

end map_go_mem


namespace map_go_mem

/-- A loop over the connection map of "r" itself (address 0), with the callback that removes
c1 and c2 from "r": the callback is called with c2 only, though c1 was a member when the loop
began. The loop of `connMap.forEach` runs over the copy instead. -/
theorem rangeMap_over_the_map_itself :
    twoInRoom.bc.getOccupants "r" = some ⟨0⟩ ∧
    (twoInRoom.mem.read 0).entries.map (fun e => e.2) = [⟨"c2", 2⟩, ⟨"c1", 1⟩] ∧
    (rangeMap (fun w1 : World Unit => w1.mem.read 0)
      (fun _ conn w1 => (true, leaveBoth.call conn w1)) 2 [] twoInRoom).map (fun w => w.calls)
      = some [⟨"c2", 2⟩] := by
  decide

end map_go_mem


namespace redis_local

/-- On node A, `allRooms` whose subscriber-count query has failed and whose `PUBLISH` has
succeeded does not return: `numSub` is 0, the count of the responses never equals it, and
nothing is sent on `done`, be there no response or the responses of two nodes. -/
theorem allRooms_waits_after_a_failed_numSub :
    (redisBroadcastRemote.allRooms scenarioA "q1" none true []).isNone = true ∧
    (redisBroadcastRemote.allRooms scenarioA "q1" none true
      [some (allRoomResponse.Marshal ⟨"2", "q1", ["r"]⟩),
       some (allRoomResponse.Marshal ⟨"2", "q1", ["r"]⟩)]).isNone = true := by
  decide

end redis_local


/-! ## Claims -/

/-- C1, as the code has it: after the two distinct connections c1 and c2 joined room "r" of an
empty index, the connection map of "r" has two entries, yet `lenRoom("r")` is 1, in
broadcast_redis_local.go and in namespace/broadcast_local.go alike: `lenRoom` counts the rooms
named "r", not the connections of "r". -/
theorem lenRoom_counts_rooms_not_members :
    ((((redis_local.newRedisBroadcastLocal "/" "node").join "r" ⟨"c1", 1⟩).join "r" ⟨"c2", 2⟩).getOccupants
        "r").map (fun cm => cm.Map.m.len) = some 2 ∧
    (((redis_local.newRedisBroadcastLocal "/" "node").join "r" ⟨"c1", 1⟩).join "r" ⟨"c2", 2⟩).lenRoom "r" = 1 ∧
    ((((redis_local.newBroadcastLocal "/" "node").join "r" ⟨"c1", 1⟩).join "r" ⟨"c2", 2⟩).getOccupants
        "r").map (fun cm => cm.Map.m.len) = some 2 ∧
    (((redis_local.newBroadcastLocal "/" "node").join "r" ⟨"c1", 1⟩).join "r" ⟨"c2", 2⟩).lenRoom "r" = 1 := by
  decide

/-- C2, as the code has it: in map.go, after c1 joined "r" of an empty room map, `leaveAll(c1)`
removes the last member of "r" and the entry of "r" stays, with an empty connection map, and
`allRooms` still lists "r"; `leave("r", c1)` on the same state deletes the entry. -/
theorem leaveAll_keeps_the_emptied_room :
    ((map_go.newRoomMap.join "r" ⟨"c1", 1⟩).leaveAll ⟨"c1", 1⟩).getConnections "r" = some ⟨∅⟩ ∧
    (((map_go.newRedisBroadcastLocal "/" "node").join "r" ⟨"c1", 1⟩).leaveAll ⟨"c1", 1⟩).allRooms = ["r"] ∧
    ((map_go.newRoomMap.join "r" ⟨"c1", 1⟩).leave "r" ⟨"c1", 1⟩).getConnections "r" = none ∧
    (((map_go.newRedisBroadcastLocal "/" "node").join "r" ⟨"c1", 1⟩).leave "r" ⟨"c1", 1⟩).allRooms = [] := by
  decide

/-- C3: `join` of map.go is idempotent: a second `join(r, c)` leaves the room map as the first
one made it, and after it the id of `c` is a key of the connection map of `r` exactly once,
mapped to `c`. -/
theorem roomMap_join_idempotent (rm : map_go.roomMap) (room : String) (conn : Conn) :
    (rm.join room conn).join room conn = rm.join room conn ∧
    ∃ cm, (rm.join room conn).getConnections room = some cm ∧
      cm.data.lookup conn.ID = some conn ∧ cm.data.keys.count conn.ID = 1 := by
  constructor
  · cases h : rm.data.lookup room with
    | none =>
      have h1 : rm.join room conn = ⟨rm.data.insert room (map_go.newConnMap.join conn)⟩ := by
        simp [map_go.roomMap.join, h, GoMap.replace_insert]
      rw [h1]
      simp [map_go.roomMap.join, AList.lookup_insert, map_go.connMap.join_join, GoMap.replace_insert]
    | some cm =>
      have h1 : rm.join room conn = ⟨rm.data.replace room (cm.join conn)⟩ := by
        simp [map_go.roomMap.join, h]
      rw [h1]
      simp [map_go.roomMap.join, GoMap.lookup_replace_self, h, map_go.connMap.join_join,
        GoMap.replace_replace]
  · refine ⟨((rm.data.lookup room).getD map_go.newConnMap).join conn, ?_, ?_, ?_⟩
    · simpa [map_go.roomMap.getConnections] using map_go.roomMap.lookup_join rm room conn room
    · simp [map_go.connMap.join, AList.lookup_insert]
    · apply List.count_eq_one_of_mem (AList.keys_nodup _)
      simp [map_go.connMap.join, AList.keys_insert]

/-- C5: for every state of the local index of broadcast_redis_local.go, every connection `c` and
every room name `r`: `r` occurs in `getRoomsByConn(c)` if and only if `r` is a room whose
connection map has the key `c.ID()`, and no room occurs twice in the returned list. -/
theorem getRoomsByConn_spec (bc : redis_local.redisBroadcastLocal) (c : Conn) :
    (∀ r, r ∈ bc.getRoomsByConn c
      ↔ ∃ cm, bc.getOccupants r = some cm ∧ c.ID ∈ cm.Map.m.keys) ∧
    (bc.getRoomsByConn c).Nodup := by
  refine ⟨redis_local.redisBroadcastLocal.mem_getRoomsByConn bc c, ?_⟩
  rw [redis_local.redisBroadcastLocal.getRoomsByConn_eq]
  exact nodup_filter_keys _ bc.roomsSync.Map.m.nodupKeys

/-- C6: after `leaveAll(c)` the connection `c` is in no room (`getRoomsByConn(c)` is empty),
and for every connection `d` with another id `getRoomsByConn(d)` is what it was before the
call. This holds for the local index of broadcast_redis_local.go (`bc`) and for the same index
over the room map of map.go (`bm`). -/
theorem leaveAll_removes_only_that_connection (bc : redis_local.redisBroadcastLocal)
    (bm : map_go.redisBroadcastLocal) (c : Conn) :
    (bc.leaveAll c).getRoomsByConn c = [] ∧
    (∀ d : Conn, d.ID ≠ c.ID → (bc.leaveAll c).getRoomsByConn d = bc.getRoomsByConn d) ∧
    (bm.leaveAll c).getRoomsByConn c = [] ∧
    (∀ d : Conn, d.ID ≠ c.ID → (bm.leaveAll c).getRoomsByConn d = bm.getRoomsByConn d) := by
  refine ⟨?_, ?_, ?_, ?_⟩
  · rw [redis_local.redisBroadcastLocal.getRoomsByConn_leaveAll]
    simp
  · intro d hd
    rw [redis_local.redisBroadcastLocal.getRoomsByConn_leaveAll,
      redis_local.redisBroadcastLocal.getRoomsByConn_eq]
    simp [hd]
  · rw [map_go.redisBroadcastLocal.getRoomsByConn_leaveAll_mapgo]
    simp
  · intro d hd
    rw [map_go.redisBroadcastLocal.getRoomsByConn_leaveAll_mapgo,
      map_go.redisBroadcastLocal.getRoomsByConn_eq_mapgo]
    simp [hd]

theorem leaveAll_removes_only_that_connection_witness :
    ((((redis_local.newRedisBroadcastLocal "/" "node").join "r" ⟨"c1", 1⟩).join "r"
        ⟨"c2", 2⟩).leaveAll ⟨"c1", 1⟩).getRoomsByConn ⟨"c2", 2⟩ = ["r"] ∧
    ((((map_go.newRedisBroadcastLocal "/" "node").join "r" ⟨"c1", 1⟩).join "r"
        ⟨"c2", 2⟩).leaveAll ⟨"c1", 1⟩).getRoomsByConn ⟨"c2", 2⟩ = ["r"] := by
  have h := leaveAll_removes_only_that_connection
    (((redis_local.newRedisBroadcastLocal "/" "node").join "r" ⟨"c1", 1⟩).join "r" ⟨"c2", 2⟩)
    (((map_go.newRedisBroadcastLocal "/" "node").join "r" ⟨"c1", 1⟩).join "r" ⟨"c2", 2⟩)
    ⟨"c1", 1⟩
  refine ⟨?_, ?_⟩
  · rw [h.2.1 ⟨"c2", 2⟩ (by decide)]
    decide
  · rw [h.2.2.2 ⟨"c2", 2⟩ (by decide)]
    decide

/-- C7: after `clear(r)` the room `r` is absent: `allRooms` does not list it and
`forEach(r, f)` leaves every state as it is, so `f` is not called, whatever the members of `r`
were; every other room keeps its connection map. This holds for the local index of
broadcast_redis_local.go (`bc`) and for the same index over the room map of map.go (`bm`). -/
theorem clear_drops_only_that_room (bc : redis_local.redisBroadcastLocal)
    (bm : map_go.redisBroadcastLocal) (r : String) :
    r ∉ (bc.clear r).allRooms ∧
    (∀ (σ : Type) (f : Conn → σ → σ) (s : σ), (bc.clear r).forEach r f s = s) ∧
    (∀ r1, r1 ≠ r → (bc.clear r).getOccupants r1 = bc.getOccupants r1) ∧
    r ∉ (bm.clear r).allRooms ∧
    (∀ (τ : Type) (f : Conn → map_go.redisBroadcastLocal × τ → map_go.redisBroadcastLocal × τ)
      (x : τ), map_go.redisBroadcastLocal.forEach r f (bm.clear r, x) = (bm.clear r, x)) ∧
    (∀ r1, r1 ≠ r → (bm.clear r).getOccupants r1 = bm.getOccupants r1) := by
  refine ⟨?_, ?_, ?_, ?_, ?_, ?_⟩
  · rw [redis_local.redisBroadcastLocal.allRooms_eq]
    show r ∉ (AList.erase r bc.roomsSync.Map.m).keys
    rw [← AList.mem_keys, AList.mem_erase]
    simp
  · intro σ f s
    simp [redis_local.redisBroadcastLocal.forEach, redis_local.redisBroadcastLocal.getOccupants,
      redis_local.redisBroadcastLocal.clear, redis_local.roomMap.delete,
      redis_local.roomMap.getConnections, redis_local.SyncMap.Delete,
      redis_local.SyncMap.Load, AList.lookup_erase]
  · intro r1 h
    simp [redis_local.redisBroadcastLocal.getOccupants,
      redis_local.redisBroadcastLocal.clear, redis_local.roomMap.delete,
      redis_local.roomMap.getConnections, redis_local.SyncMap.Delete,
      redis_local.SyncMap.Load, AList.lookup_erase_ne h]
  · rw [map_go.redisBroadcastLocal.allRooms_eq_mapgo, keys_reverse_mem]
    show r ∉ (AList.erase r bm.roomsSync.data).keys
    rw [← AList.mem_keys, AList.mem_erase]
    simp
  · intro τ f x
    simp [map_go.redisBroadcastLocal.forEach, map_go.redisBroadcastLocal.getOccupants,
      map_go.redisBroadcastLocal.clear, map_go.roomMap.delete,
      map_go.roomMap.getConnections, AList.lookup_erase]
  · intro r1 h
    simp [map_go.redisBroadcastLocal.getOccupants,
      map_go.redisBroadcastLocal.clear, map_go.roomMap.delete,
      map_go.roomMap.getConnections, AList.lookup_erase_ne h]

theorem clear_drops_only_that_room_witness :
    ((((redis_local.newRedisBroadcastLocal "/" "node").join "r" ⟨"c1", 1⟩).join "q"
        ⟨"c2", 2⟩).clear "r").getOccupants "q" = some (redis_local.newConnMap.join ⟨"c2", 2⟩) ∧
    ((((map_go.newRedisBroadcastLocal "/" "node").join "r" ⟨"c1", 1⟩).join "q"
        ⟨"c2", 2⟩).clear "r").getOccupants "q" = some (map_go.newConnMap.join ⟨"c2", 2⟩) := by
  have h := clear_drops_only_that_room
    (((redis_local.newRedisBroadcastLocal "/" "node").join "r" ⟨"c1", 1⟩).join "q" ⟨"c2", 2⟩)
    (((map_go.newRedisBroadcastLocal "/" "node").join "r" ⟨"c1", 1⟩).join "q" ⟨"c2", 2⟩) "r"
  refine ⟨?_, ?_⟩
  · rw [h.2.2.1 "q" (by decide)]
    decide
  · rw [h.2.2.2.2.2 "q" (by decide)]
    decide

/-- C8: local `send(r, e, args)` on an index whose connections are stored under their ids.
The calls it makes are appended to the trace; each of them is `Emit(e, args)`; when `r` is a
room with connection map `cm`, a connection `c` gets exactly one call if `cm` holds `c` under
`c.ID()` and none otherwise; when `r` is not a room no call is made. -/
theorem send_emits_once_per_member {α : Type} (bc : redis_local.redisBroadcastLocal) (h : bc.KeyedByID)
    (room event : String) (args : List α) (t : Trace α) :
    bc.send room event args t = t ++ bc.send room event args [] ∧
    (∀ x ∈ bc.send room event args [], x.event = event ∧ x.args = args) ∧
    (∀ cm, bc.getOccupants room = some cm → ∀ c : Conn,
      (bc.send room event args []).countP (fun x => decide (x.conn = c))
        = if cm.Map.Load c.ID = some c then 1 else 0) ∧
    (bc.getOccupants room = none → bc.send room event args t = t) := by
  refine ⟨?_, ?_, ?_, ?_⟩
  · rw [redis_local.redisBroadcastLocal.send_eq bc room event args t,
      redis_local.redisBroadcastLocal.send_eq bc room event args []]
    simp
  · intro x hx
    rw [redis_local.redisBroadcastLocal.send_eq] at hx
    cases hget : bc.getOccupants room with
    | none => simp [hget] at hx
    | some cm =>
      simp only [hget, List.nil_append, List.mem_map] at hx
      obtain ⟨e, _, rfl⟩ := hx
      exact ⟨rfl, rfl⟩
  · intro cm hget c
    rw [redis_local.redisBroadcastLocal.send_eq, hget]
    simp only [List.nil_append]
    rw [countP_emit]
    have hmem : (⟨room, cm⟩ : Σ _ : String, redis_local.connMap) ∈ bc.roomsSync.Map.m.entries :=
      AList.mem_lookup_iff.1 hget
    exact countP_value_eq cm.Map.m.nodupKeys (h ⟨room, cm⟩ hmem) c
  · intro hget
    rw [redis_local.redisBroadcastLocal.send_eq, hget]
    simp

theorem send_emits_once_per_member_witness :
    (((redis_local.newRedisBroadcastLocal "/" "node").join "r" ⟨"c1", 1⟩).join "r" ⟨"c2", 2⟩).KeyedByID ∧
    ((((redis_local.newRedisBroadcastLocal "/" "node").join "r" ⟨"c1", 1⟩).join "r" ⟨"c2", 2⟩).send
        "r" "evt" ["hello"] []).countP (fun x => decide (x.conn = ⟨"c1", 1⟩)) = 1 ∧
    (((redis_local.newRedisBroadcastLocal "/" "node").join "r" ⟨"c1", 1⟩).join "r" ⟨"c2", 2⟩).send
        "q" "evt" ["hello"] [] = [] := by
  have h := fun room => send_emits_once_per_member
    (((redis_local.newRedisBroadcastLocal "/" "node").join "r" ⟨"c1", 1⟩).join "r" ⟨"c2", 2⟩) (by decide)
    room "evt" ["hello"] []
  refine ⟨by decide, ?_, ?_⟩
  · rw [(h "r").2.2.1 ((redis_local.newConnMap.join ⟨"c1", 1⟩).join ⟨"c2", 2⟩) (by decide) ⟨"c1", 1⟩]
    decide
  · exact (h "q").2.2.2 (by decide)

/-- C9: local `sendAll(e, args)` on an index whose connections are stored under their ids.
The calls it makes are appended to the trace; each of them is `Emit(e, args)`; a connection
`c` gets exactly as many calls as there are rooms whose connection map holds `c` under
`c.ID()`, so none when it is in no room. -/
theorem sendAll_emits_once_per_room {α : Type} (bc : redis_local.redisBroadcastLocal) (h : bc.KeyedByID)
    (event : String) (args : List α) (t : Trace α) :
    bc.sendAll event args t = t ++ bc.sendAll event args [] ∧
    (∀ x ∈ bc.sendAll event args [], x.event = event ∧ x.args = args) ∧
    (∀ c : Conn, (bc.sendAll event args []).countP (fun x => decide (x.conn = c))
      = bc.roomsSync.Map.m.entries.countP (fun e => decide (e.2.Map.Load c.ID = some c))) := by
  refine ⟨?_, ?_, ?_⟩
  · rw [redis_local.redisBroadcastLocal.sendAll_eq bc event args t,
      redis_local.redisBroadcastLocal.sendAll_eq bc event args []]
    simp
  · intro x hx
    rw [redis_local.redisBroadcastLocal.sendAll_eq] at hx
    simp only [List.nil_append, List.mem_flatMap, List.mem_map] at hx
    obtain ⟨e, _, y, _, rfl⟩ := hx
    exact ⟨rfl, rfl⟩
  · intro c
    rw [redis_local.redisBroadcastLocal.sendAll_eq]
    simp only [List.nil_append]
    apply countP_flatMap_indicator
    intro e he
    rw [countP_emit, countP_value_eq e.2.Map.m.nodupKeys (h e he) c]
    simp [redis_local.SyncMap.Load, AList.lookup]

theorem sendAll_emits_once_per_room_witness :
    ((((redis_local.newRedisBroadcastLocal "/" "node").join "r" ⟨"c1", 1⟩).join "q" ⟨"c1", 1⟩).join "r"
        ⟨"c2", 2⟩).KeyedByID ∧
    (((((redis_local.newRedisBroadcastLocal "/" "node").join "r" ⟨"c1", 1⟩).join "q" ⟨"c1", 1⟩).join "r"
        ⟨"c2", 2⟩).sendAll "evt" ["hello"] []).countP (fun x => decide (x.conn = ⟨"c1", 1⟩))
      = 2 := by
  refine ⟨by decide, ?_⟩
  rw [(sendAll_emits_once_per_room
    ((((redis_local.newRedisBroadcastLocal "/" "node").join "r" ⟨"c1", 1⟩).join "q" ⟨"c1", 1⟩).join "r"
      ⟨"c2", 2⟩) (by decide) "evt" ["hello"] []).2.2 ⟨"c1", 1⟩]
  decide

/-- C10: `forEach(r, f)` over the room map of map.go, the connection maps living in a memory
that the callback changes through the methods of the index (join, leave, leaveAll, clear) while
the walk is under way. When `r` is a room at the moment of the call, `forEach` returns, given
fuel for as many calls as the room has members then, and the connections `f` has been called
with are the members of `r` at the moment of the call, each entry of its connection map giving
one call, whatever `f` does to the index; so `f` is called exactly once with every connection
that the map held under its id and with no other connection. When `r` is not a room `f` is not
called. -/
theorem forEach_calls_each_snapshot_member_once {τ : Type} (w : map_go_mem.World τ)
    (hwf : w.WellFormed) (room : String) (f : map_go_mem.EachFunc τ) (fuel : Nat) :
    (∀ occupants, w.bc.getOccupants room = some occupants →
      (w.mem.read occupants.data).len ≤ fuel →
      ∃ w1 called, map_go_mem.redisBroadcastLocal.forEach room f fuel w = some w1 ∧
        w1.calls = w.calls ++ called ∧
        called.Perm ((w.mem.read occupants.data).entries.map (fun e => e.2)) ∧
        ((∀ e ∈ (w.mem.read occupants.data).entries, e.2.ID = e.1) →
          ∀ c : Conn, called.count c
            = if (w.mem.read occupants.data).lookup c.ID = some c then 1 else 0)) ∧
    (w.bc.getOccupants room = none →
      map_go_mem.redisBroadcastLocal.forEach room f fuel w = some w) := by
  refine ⟨?_, ?_⟩
  · intro occupants hget hfuel
    obtain ⟨w1, hrun, hcalls⟩ :=
      map_go_mem.redisBroadcastLocal.forEach_snapshot w hwf room f fuel occupants hget hfuel
    have hperm : ((w.mem.read occupants.data).entries.reverse.map (fun e => e.2)).Perm
        ((w.mem.read occupants.data).entries.map (fun e => e.2)) :=
      (List.reverse_perm _).map _
    refine ⟨w1, _, hrun, hcalls, hperm, ?_⟩
    intro hk c
    rw [hperm.count_eq, count_values]
    exact countP_value_eq (w.mem.read occupants.data).nodupKeys hk c
  · intro hget
    unfold map_go_mem.redisBroadcastLocal.forEach
    rw [hget]

theorem forEach_calls_each_snapshot_member_once_witness :
    map_go_mem.twoInRoom.WellFormed ∧
    ∃ w1 called,
      map_go_mem.redisBroadcastLocal.forEach "r" map_go_mem.clearAndJoin 2
          map_go_mem.twoInRoom = some w1 ∧
      w1.calls = map_go_mem.twoInRoom.calls ++ called ∧
      called.count ⟨"c1", 1⟩ = 1 ∧ called.count ⟨"c2", 2⟩ = 1 ∧
      called.count ⟨"c9", 9⟩ = 0 := by
  refine ⟨by decide, ?_⟩
  obtain ⟨w1, called, h1, h2, _, h4⟩ :=
    (forEach_calls_each_snapshot_member_once map_go_mem.twoInRoom (by decide) "r"
      map_go_mem.clearAndJoin 2).1 ⟨0⟩ (by decide) (by decide)
  refine ⟨w1, called, h1, h2, ?_, ?_, ?_⟩
  · rw [h4 (by decide) ⟨"c1", 1⟩]
    decide
  · rw [h4 (by decide) ⟨"c2", 2⟩]
    decide
  · rw [h4 (by decide) ⟨"c9", 9⟩]
    decide

/-- C11: echo suppression and misrouting defence. For every payload, `onMessage` on a channel
whose last `#`-separated segment is this node's uid, or whose second-to-last segment is not
this node's namespace, returns nil and leaves the whole state of the node as it was: no `Emit`
is made and the local index is unchanged. -/
theorem onMessage_drops_echo_and_misrouted (w : redis_local.World) (channel : String)
    (msg : Payload) (uid nsp : String) (rest : List String)
    (hparts : (Split channel).reverse = uid :: nsp :: rest)
    (h : uid = w.bc.local_.uid ∨ nsp ≠ w.bc.local_.nsp) :
    redis_local.redisBroadcastRemote.onMessage w channel msg = (.returned none, w) :=
  redis_local.redisBroadcastRemote.onMessage_dropped w channel msg hparts h

theorem onMessage_drops_echo_and_misrouted_witness :
    redis_local.redisBroadcastRemote.onMessage redis_local.scenarioB "socket.io#/#B"
        (some (redis_local.bcMessageJSON "r" "evt" [.str "x"]))
      = (.returned none, redis_local.scenarioB) ∧
    redis_local.redisBroadcastRemote.onMessage redis_local.scenarioB "socket.io#/chat#A"
        (some (redis_local.bcMessageJSON "r" "evt" [.str "x"]))
      = (.returned none, redis_local.scenarioB) :=
  ⟨onMessage_drops_echo_and_misrouted redis_local.scenarioB "socket.io#/#B" _ "B" "/"
      ["socket.io"] (by decide) (Or.inl (by decide)),
   onMessage_drops_echo_and_misrouted redis_local.scenarioB "socket.io#/chat#A" _ "A" "/chat"
      ["socket.io"] (by decide) (Or.inr (by decide))⟩

/-- C12, as the code has it: with the namespace "a#b", node v (uid "v", c1 in room "r") gets
the broadcast that node u (uid "u") of the same namespace published on its channel
"socket.io#a#b#u": `onMessage` takes "b" for the namespace, returns nil and makes no `Emit`,
although c1 is a member of "r". -/
theorem cross_node_delivery_fails_with_hash_in_namespace :
    ((redis_local.newRedisBroadcastLocal "a#b" "v").join "r" ⟨"c1", 1⟩).getOccupants "r"
      = some (redis_local.newConnMap.join ⟨"c1", 1⟩) ∧
    (redis_local.redisBroadcastRemote.onMessage
      ⟨redis_local.newRedisBroadcastRemote "a#b" "socket.io"
        ((redis_local.newRedisBroadcastLocal "a#b" "v").join "r" ⟨"c1", 1⟩), []⟩
      (redis_local.newRedisBroadcastRemote "a#b" "socket.io"
        (redis_local.newRedisBroadcastLocal "a#b" "u")).key
      (some (redis_local.bcMessageJSON "r" "evt" [.str "hi"]))).1 = .returned none ∧
    (redis_local.redisBroadcastRemote.onMessage
      ⟨redis_local.newRedisBroadcastRemote "a#b" "socket.io"
        ((redis_local.newRedisBroadcastLocal "a#b" "v").join "r" ⟨"c1", 1⟩), []⟩
      (redis_local.newRedisBroadcastRemote "a#b" "socket.io"
        (redis_local.newRedisBroadcastLocal "a#b" "u")).key
      (some (redis_local.bcMessageJSON "r" "evt" [.str "hi"]))).2.emits.length = 0 := by
  decide

/-- C12, amended: for every prefix, every namespace `nsp` without `#` and every node u whose
uid has no `#`, the channel `<Prefix>#<nsp>#<u>` splits into segments ending in `nsp` and the
uid of u; a node of namespace `nsp` with another uid, given on that channel the broadcast that
`publishMessage(room, event, args)` writes for a room that is not "", `dargs` being what the
arguments `args` decode to, returns nil and has made the calls of its local
`send(room, event, dargs)`: each of them is `Emit(event, dargs)` and a connection gets exactly
one when the room's connection map holds it under its id, none otherwise. -/
theorem cross_node_delivery (pfx nsp : String) (locU : redis_local.redisBroadcastLocal)
    (w : redis_local.World) (hn : '#' ∉ nsp.toList) (hu : '#' ∉ locU.uid.toList)
    (hnsp : w.bc.local_.nsp = nsp) (huv : w.bc.local_.uid ≠ locU.uid)
    (hk : w.bc.local_.KeyedByID) (room event : String) (args dargs : List JSON)
    (hdec : decodeInterfaces args = some dargs) (hroom : room ≠ "") :
    (Split (redis_local.newRedisBroadcastRemote nsp pfx locU).key).reverse
      = locU.uid :: nsp :: (Split pfx).reverse ∧
    redis_local.redisBroadcastRemote.onMessage w
        (redis_local.newRedisBroadcastRemote nsp pfx locU).key
        (some (redis_local.bcMessageJSON room event args))
      = (.returned none,
          { w with emits := w.emits ++ w.bc.local_.send room event dargs [] }) ∧
    (∀ x ∈ w.bc.local_.send room event dargs [], x.event = event ∧ x.args = dargs) ∧
    (∀ cm, w.bc.local_.getOccupants room = some cm → ∀ c : Conn,
      (w.bc.local_.send room event dargs []).countP (fun x => decide (x.conn = c))
        = if cm.Map.Load c.ID = some c then 1 else 0) := by
  have hkey : (Split (redis_local.newRedisBroadcastRemote nsp pfx locU).key).reverse
      = locU.uid :: nsp :: (Split pfx).reverse := Split_key pfx nsp locU.uid hn hu
  refine ⟨hkey, ?_, redis_local.redisBroadcastLocal.send_calls _ room event dargs, ?_⟩
  · subst hnsp
    rw [redis_local.redisBroadcastRemote.onMessage_accepted w _ hkey huv room event args hdec,
      if_pos hroom, ← redis_local.redisBroadcastLocal.send_append]
  · intro cm hget c
    exact redis_local.redisBroadcastLocal.send_count _ hk room event dargs hget c

theorem cross_node_delivery_witness :
    (redis_local.redisBroadcastRemote.onMessage redis_local.scenarioB
      (redis_local.newRedisBroadcastRemote "/" "socket.io"
        redis_local.scenarioA.bc.local_).key
      (some (redis_local.bcMessageJSON "r" "evt" [.str "hi"]))).1 = .returned none ∧
    (redis_local.scenarioB.bc.local_.send "r" "evt" [JSON.str "hi"] []).countP
      (fun x => decide (x.conn = ⟨"c3", 3⟩)) = 1 := by
  have h := cross_node_delivery "socket.io" "/" redis_local.scenarioA.bc.local_
    redis_local.scenarioB (by decide) (by decide) (by decide) (by decide) (by decide)
    "r" "evt" [.str "hi"] [.str "hi"] rfl (by decide)
  refine ⟨?_, ?_⟩
  · rw [h.2.1]
  · rw [h.2.2.2 (redis_local.newConnMap.join ⟨"c3", 3⟩) (by decide) ⟨"c3", 3⟩]
    decide

/-- C14, as the code has it: node B receives from node A a broadcast frame whose payload is not
JSON and then a valid broadcast for room "r". `dispatch` returns at the first frame: the second
frame is left unprocessed and c3 gets no `Emit`, while the second frame alone makes one
`Emit`. -/
theorem dispatch_returns_at_a_malformed_broadcast :
    (redis_local.redisBroadcastRemote.dispatch redis_local.scenarioB
      [.Message "socket.io#/#A" none,
       .Message "socket.io#/#A" (some (redis_local.bcMessageJSON "r" "evt" [.str "hi"]))]).1
      = .returned ∧
    (redis_local.redisBroadcastRemote.dispatch redis_local.scenarioB
      [.Message "socket.io#/#A" none,
       .Message "socket.io#/#A"
        (some (redis_local.bcMessageJSON "r" "evt" [.str "hi"]))]).2.2.length = 1 ∧
    (redis_local.redisBroadcastRemote.dispatch redis_local.scenarioB
      [.Message "socket.io#/#A" none,
       .Message "socket.io#/#A"
        (some (redis_local.bcMessageJSON "r" "evt" [.str "hi"]))]).2.1.emits.length = 0 ∧
    (redis_local.redisBroadcastRemote.dispatch redis_local.scenarioB
      [.Message "socket.io#/#A"
        (some (redis_local.bcMessageJSON "r" "evt" [.str "hi"]))]).2.1.emits.length = 1 := by
  decide


/-- C15: clear originator suppression. For every state of the node and every request payload
that decodes to a string map whose `RequestType` is `clearRoomReqType`: when its `UUID` is this
node's uid, `onRequest` leaves the whole state as it was (the local index unchanged, nothing
published); otherwise `onRequest` replaces the local index by `clear(Room)` of it and changes
nothing else, so nothing is published, the room `Room` is gone and every other room keeps its
connection map. -/
theorem onRequest_clearRoom (w : redis_local.World) (msg : Payload) (req : GoMap String)
    (hdec : UnmarshalStringMap msg = some req)
    (hty : req.getString "RequestType" = redis_local.clearRoomReqType) :
    (w.bc.local_.uid = req.getString "UUID" →
      redis_local.redisBroadcastRemote.onRequest w msg = (.returned none, w)) ∧
    (w.bc.local_.uid ≠ req.getString "UUID" →
      redis_local.redisBroadcastRemote.onRequest w msg
        = (.returned none,
            { w with bc := { w.bc with
                local_ := w.bc.local_.clear (req.getString "Room") } }) ∧
      (w.bc.local_.clear (req.getString "Room")).getOccupants (req.getString "Room") = none ∧
      ∀ r1, r1 ≠ req.getString "Room" →
        (w.bc.local_.clear (req.getString "Room")).getOccupants r1
          = w.bc.local_.getOccupants r1) := by
  have h0 : ¬ redis_local.clearRoomReqType = redis_local.roomLenReqType := by decide
  have h2 : ¬ redis_local.clearRoomReqType = redis_local.allRoomReqType := by decide
  refine ⟨?_, ?_⟩
  · intro hu
    simp only [redis_local.redisBroadcastRemote.onRequest, hdec, hty, h0, h2, if_false,
      if_true, hu]
  · intro hu
    refine ⟨?_, ?_, ?_⟩
    · simp only [redis_local.redisBroadcastRemote.onRequest, hdec, hty, h0, h2, if_false,
        if_true, hu]
    · simp [redis_local.redisBroadcastLocal.getOccupants, redis_local.redisBroadcastLocal.clear,
        redis_local.roomMap.getConnections_delete]
    · intro r1 hr
      simp [redis_local.redisBroadcastLocal.getOccupants, redis_local.redisBroadcastLocal.clear,
        redis_local.roomMap.getConnections_delete, hr]

theorem onRequest_clearRoom_witness :
    redis_local.redisBroadcastRemote.onRequest redis_local.scenarioA
        (some (redis_local.clearRoomRequest.Marshal ⟨"1", "id1", "r", "A"⟩))
      = (.returned none, redis_local.scenarioA) ∧
    ((redis_local.redisBroadcastRemote.onRequest redis_local.scenarioB
        (some (redis_local.clearRoomRequest.Marshal
          ⟨"1", "id1", "r", "A"⟩))).2.bc.local_.getOccupants "r") = none := by
  have hdec : UnmarshalStringMap (some (redis_local.clearRoomRequest.Marshal
      ⟨"1", "id1", "r", "A"⟩))
      = some (((((∅ : GoMap String).insert "RequestType" "1").insert "RequestID" "id1").insert
          "Room" "r").insert "UUID" "A") := by decide
  refine ⟨?_, ?_⟩
  · exact (onRequest_clearRoom redis_local.scenarioA _ _ hdec (by decide)).1 (by decide)
  · rw [((onRequest_clearRoom redis_local.scenarioB _ _ hdec (by decide)).2 (by decide)).1]
    decide

/-- C17, as the code has it: c1 and c2 are in "r" on node A (two entries in the connection
map) and c3 is in "r" on node B (one entry); `Len("r")` issued on node A, with both nodes
answering through `onRequest`, returns 2, the number of nodes that have a room "r", not 3. -/
theorem cluster_Len_counts_nodes :
    (redis_local.scenarioA.bc.local_.getOccupants "r").map (fun cm => cm.Map.m.len) = some 2 ∧
    (redis_local.scenarioB.bc.local_.getOccupants "r").map (fun cm => cm.Map.m.len) = some 1 ∧
    (redis_local.clusterLen redis_local.scenarioA [redis_local.scenarioB] "r" "q1").map
      (fun r => r.1) = some 2 := by
  decide

/-- C18, as the code has it: on node A, `lenRoom` with one response carrying the `Connections`
value 9007199254740993, which is 2^53 + 1, returns 9007199254740992; with two responses
carrying 4611686018427387904, which is 2^62, it returns -9223372036854775808, not their sum
2^63. -/
theorem lenRoom_rounds_and_wraps :
    (redis_local.redisBroadcastRemote.lenRoom redis_local.scenarioA "r" "q1" (some 1) true
      [some (redis_local.roomLenResponse.Marshal ⟨"0", "q1", 9007199254740993⟩)]).map
        (fun r => r.1) = some 9007199254740992 ∧
    (redis_local.redisBroadcastRemote.lenRoom redis_local.scenarioA "r" "q1" (some 2) true
      [some (redis_local.roomLenResponse.Marshal ⟨"0", "q1", 4611686018427387904⟩),
       some (redis_local.roomLenResponse.Marshal ⟨"0", "q1", 4611686018427387904⟩)]).map
        (fun r => r.1) = some (-9223372036854775808) := by
  decide

/-- C18, amended: roomLen aggregation. `lenRoom` issued with numSub = N ≥ 1 and a `PUBLISH`
that succeeds, the dispatch loop then handling N responses that bear the request's id and
carry the `Connections` values `ks`, returns; what it returns is got by adding the values one
by one, each read as a `float64` and converted to `int`, in 64-bit arithmetic. It is the sum of
`ks` when every value is an integer of absolute value at most 2^53 and every partial sum
k1 + ... + kj is within the range of a 64-bit `int`. -/
theorem lenRoom_returns_the_sum (w : redis_local.World) (room uuid : String) (ks : List Int)
    (hne : ks ≠ []) :
    (redis_local.redisBroadcastRemote.lenRoom w room uuid (some (ks.length : Int)) true
      (ks.map (fun k => some (redis_local.roomLenResponse.Marshal
        ⟨redis_local.roomLenReqType, uuid, k⟩)))).map (fun r => r.1)
      = some (ks.foldl
          (fun c k => int64 (c + intOfFloat64 (redis_local.roomLenResponse.decoded k))) 0) ∧
    ((∀ k ∈ ks, -(2 ^ 53) ≤ k ∧ k ≤ 2 ^ 53) →
      (∀ i ≤ ks.length, -(2 ^ 63) ≤ (ks.take i).sum ∧ (ks.take i).sum < 2 ^ 63) →
      (redis_local.redisBroadcastRemote.lenRoom w room uuid (some (ks.length : Int)) true
        (ks.map (fun k => some (redis_local.roomLenResponse.Marshal
          ⟨redis_local.roomLenReqType, uuid, k⟩)))).map (fun r => r.1) = some ks.sum) := by
  have hstart := redis_local.redisBroadcastRemote.lookup_lenRoomStart w room uuid
    (ks.length : Int)
  obtain ⟨w1, req1, hrun, hlook, hsum⟩ :=
    redis_local.redisBroadcastRemote.awaitDone_roomLen uuid ks _ _ hstart.2 rfl
      (by simp) hne
  have hfst : redis_local.redisBroadcastRemote.lenRoomStart w room uuid
      (some (ks.length : Int)) true
      = (none, (redis_local.redisBroadcastRemote.lenRoomStart w room uuid
          (some (ks.length : Int)) true).2) := by
    rw [← hstart.1]
  have hres : (redis_local.redisBroadcastRemote.lenRoom w room uuid (some (ks.length : Int))
      true (ks.map (fun k => some (redis_local.roomLenResponse.Marshal
        ⟨redis_local.roomLenReqType, uuid, k⟩)))).map (fun r => r.1)
      = some (ks.foldl
          (fun c k => int64 (c + intOfFloat64 (redis_local.roomLenResponse.decoded k))) 0) := by
    unfold redis_local.redisBroadcastRemote.lenRoom
    rw [hfst]
    simp only [hrun, Option.map_some', redis_local.redisBroadcastRemote.lenRoomFinish, hlook,
      hsum]
  refine ⟨hres, ?_⟩
  intro hk hpart
  rw [hres, redis_local.foldl_connections_eq_sum ks 0 hk (by simpa using hpart)]
  simp

theorem lenRoom_returns_the_sum_witness :
    (redis_local.redisBroadcastRemote.lenRoom redis_local.scenarioA "r" "q1" (some 2) true
      [some (redis_local.roomLenResponse.Marshal ⟨"0", "q1", 2⟩),
       some (redis_local.roomLenResponse.Marshal ⟨"0", "q1", 1⟩)]).map (fun r => r.1)
      = some 3 :=
  (lenRoom_returns_the_sum redis_local.scenarioA "r" "q1" [2, 1] (by decide)).2
    (by decide) (by decide)

/-- C19: allRooms aggregation is a set union. `allRooms` issued with numSub = N ≥ 1 and a
`PUBLISH` that succeeds, the dispatch loop then handling N responses that bear the request's id
and carry the `Rooms` arrays `rss`, returns a list without duplicates that contains a name if
and only if the name is in one of the arrays. -/
theorem allRooms_returns_the_union (w : redis_local.World) (uuid : String)
    (rss : List (List String)) (hne : rss ≠ []) :
    ∃ rooms w1,
      redis_local.redisBroadcastRemote.allRooms w uuid (some (rss.length : Int)) true
          (rss.map (fun rs => some (redis_local.allRoomResponse.Marshal
            ⟨redis_local.allRoomReqType, uuid, rs⟩)))
        = some (rooms, w1) ∧
      rooms.Nodup ∧ ∀ name, name ∈ rooms ↔ ∃ rs ∈ rss, name ∈ rs := by
  have hstart := redis_local.redisBroadcastRemote.lookup_allRoomsStart w uuid
    (rss.length : Int)
  obtain ⟨w1, req1, hrun, hlook, hmem⟩ :=
    redis_local.redisBroadcastRemote.awaitDone_allRoom uuid rss _ _ hstart.2 rfl
      (by simp) hne
  have hfst : redis_local.redisBroadcastRemote.allRoomsStart w uuid
      (some (rss.length : Int)) true
      = (none, (redis_local.redisBroadcastRemote.allRoomsStart w uuid
          (some (rss.length : Int)) true).2) := by
    rw [← hstart.1]
  refine ⟨req1.rooms.keys, (redis_local.redisBroadcastRemote.allRoomsFinish w1 uuid).2,
    ?_, AList.keys_nodup _, ?_⟩
  · unfold redis_local.redisBroadcastRemote.allRooms
    rw [hfst]
    simp only [hrun, redis_local.redisBroadcastRemote.allRoomsFinish, hlook]
  · intro name
    rw [← AList.mem_keys, hmem name]
    simp

theorem allRooms_returns_the_union_witness :
    ∃ rooms w1,
      redis_local.redisBroadcastRemote.allRooms redis_local.scenarioA "q1" (some 2) true
          [some (redis_local.allRoomResponse.Marshal ⟨"2", "q1", ["r1", "r2"]⟩),
           some (redis_local.allRoomResponse.Marshal ⟨"2", "q1", ["r2", "r3"]⟩)]
        = some (rooms, w1) ∧
      rooms.Nodup ∧ ∀ name, name ∈ rooms ↔ ∃ rs ∈ [["r1", "r2"], ["r2", "r3"]], name ∈ rs :=
  allRooms_returns_the_union redis_local.scenarioA "q1" [["r1", "r2"], ["r2", "r3"]]
    (by decide)

/-- C20, as the code has it: on a response payload that is a JSON object without a `RequestID`
member (the empty object, or an object with only a `RequestType`), `onResponse` panics in
`res["RequestID"].(string)`, whatever the state of the node. -/
theorem onResponse_panics_without_RequestID (w : redis_local.World) :
    redis_local.redisBroadcastRemote.onResponse w (some (.obj []))
      = (.panicked "interface conversion", w) ∧
    redis_local.redisBroadcastRemote.onResponse w
        (some (.obj [("RequestType", .str "0")]))
      = (.panicked "interface conversion", w) := by
  refine ⟨?_, ?_⟩
  · simp [redis_local.redisBroadcastRemote.onResponse, UnmarshalAnyMap, decodeObject]
  · have hl : ((∅ : GoMap JSON).insert "RequestType" (JSON.str "0")).lookup "RequestID"
        = none := by
      rw [AList.lookup_insert_ne (by decide)]
      rfl
    have hdec : UnmarshalAnyMap (some (.obj [("RequestType", .str "0")]))
        = some ((∅ : GoMap JSON).insert "RequestType" (JSON.str "0")) := by
      simp only [UnmarshalAnyMap, decodeObject, List.foldl_cons, List.foldl_nil,
        decodeInterface, Option.some_bind, Option.map_some']
    simp only [redis_local.redisBroadcastRemote.onResponse, hdec, hl]



/-- C21, as the code has it: when the `PUBLISH` of the query returns an error, `lenRoom` returns
-1 and `allRooms` returns the empty list while the record they registered under the fresh id is
still in the pending table, whatever the state of the node; on node A, whose table is empty
before the call, the table holds the id "q1" after `lenRoom` has returned. -/
theorem failed_publish_leaves_the_pending_record (w : redis_local.World) (room uuid : String)
    (n : Int) (numSub : Option Int) (inbound : List Payload) :
    (redis_local.redisBroadcastRemote.lenRoom w room uuid (some n) false inbound).map
        (fun r => (r.1, (r.2.bc.requests.lookup uuid).isSome)) = some (-1, true) ∧
    (redis_local.redisBroadcastRemote.allRooms w uuid numSub false inbound).map
        (fun r => (r.1, (r.2.bc.requests.lookup uuid).isSome)) = some ([], true) ∧
    redis_local.scenarioA.bc.requests.keys = [] ∧
    (redis_local.redisBroadcastRemote.lenRoom redis_local.scenarioA "r" "q1" (some 2) false
        []).map (fun r => r.2.bc.requests.keys) = some ["q1"] := by
  refine ⟨?_, ?_, by decide, by decide⟩
  · simp [redis_local.redisBroadcastRemote.lenRoom, redis_local.redisBroadcastRemote.lenRoomStart,
      redis_local.redisBroadcastRemote.publish]
  · simp [redis_local.redisBroadcastRemote.allRooms,
      redis_local.redisBroadcastRemote.allRoomsStart, redis_local.redisBroadcastRemote.publish]


/-- C22, as the code has it: on node A, `Len("r")` returns -1 when the subscriber-count query
returns an error, and -1 when the publish returns an error. -/
theorem Len_returns_minus_one_on_a_bus_error :
    (redis_local.redisBroadcast.Len redis_local.scenarioA "r" "q1" none true []).map Prod.fst
      = some (-1) ∧
    (redis_local.redisBroadcast.Len redis_local.scenarioA "r" "q1" (some 2) false []).map
      Prod.fst = some (-1) := by
  decide

/-- C22, amended: when the subscriber-count query returns an error, `Len` returns -1 and leaves
the node as it was; when the publish returns an error, `Len` returns -1 and `AllRooms` returns
the empty list. -/
theorem bus_failure_results (w : redis_local.World) (room uuid : String) (n : Int)
    (numSub : Option Int) (publishOk : Bool) (inbound : List Payload) :
    redis_local.redisBroadcast.Len w room uuid none publishOk inbound = some (-1, w) ∧
    (redis_local.redisBroadcast.Len w room uuid (some n) false inbound).map Prod.fst
      = some (-1) ∧
    (redis_local.redisBroadcast.AllRooms w uuid numSub false inbound).map Prod.fst
      = some [] := by
  refine ⟨?_, ?_, ?_⟩
  · simp [redis_local.redisBroadcast.Len, redis_local.redisBroadcastRemote.lenRoom,
      redis_local.redisBroadcastRemote.lenRoomStart]
  · simp [redis_local.redisBroadcast.Len, redis_local.redisBroadcastRemote.lenRoom,
      redis_local.redisBroadcastRemote.lenRoomStart]
  · simp [redis_local.redisBroadcast.AllRooms, redis_local.redisBroadcastRemote.allRooms,
      redis_local.redisBroadcastRemote.allRoomsStart]


/-- C24, as the code has it: node B receives on the channel "socket.io#/#A", which matches its
subscribe pattern, a payload that is the empty JSON object, the JSON value null, or an envelope
whose `opts` array has one element: `onMessage` panics with an index out of range on `opts`. -/
theorem onMessage_panics_on_short_opts :
    (redis_local.redisBroadcastRemote.onMessage redis_local.scenarioB "socket.io#/#A"
      (some (.obj []))).1 = .panicked "index out of range" ∧
    (redis_local.redisBroadcastRemote.onMessage redis_local.scenarioB "socket.io#/#A"
      (some .null)).1 = .panicked "index out of range" ∧
    (redis_local.redisBroadcastRemote.onMessage redis_local.scenarioB "socket.io#/#A"
      (some (.obj [("args", .arr []), ("opts", .arr [.str "r"])]))).1
      = .panicked "index out of range" := by
  decide


/-- C25, as the code has it: after `join("r", c1)` and `leave("r", c1)` on an empty map, the
room map of map.go has no room "r" and lists no room, while the room map of
broadcast_redis_local.go still has the room "r", with an empty connection map, and lists it. -/
theorem room_maps_differ_after_last_leave :
    ((map_go.newRoomMap.join "r" ⟨"c1", 1⟩).leave "r" ⟨"c1", 1⟩).getConnections "r" = none ∧
    (map_go.redisBroadcastLocal.allRooms
      ⟨"/", "A", (map_go.newRoomMap.join "r" ⟨"c1", 1⟩).leave "r" ⟨"c1", 1⟩⟩) = [] ∧
    ((redis_local.newRoomMap.join "r" ⟨"c1", 1⟩).leave "r" ⟨"c1", 1⟩).getConnections "r"
      = some redis_local.newConnMap ∧
    (redis_local.redisBroadcastLocal.allRooms
      ⟨"/", "A", (redis_local.newRoomMap.join "r" ⟨"c1", 1⟩).leave "r" ⟨"c1", 1⟩⟩) = ["r"] := by
  decide


/-- C26, as the code has it: `getDispatchDisconnectData` returns ("", nil) for no argument and
(args[0], nil) for a single string argument, and it panics for every argument list of two or
more values, since it reads the details from `args[0]`, which cannot be both a string and a
map; so it does for the reason "transport close" and the details map with "code" = 1. -/
theorem getDispatchDisconnectData_panics_on_two_arguments (a b : JSON) (rest : List JSON)
    (s : String) :
    getDispatchDisconnectData [] = .ok ("", none) ∧
    getDispatchDisconnectData [.str s] = .ok (s, none) ∧
    getDispatchDisconnectData (a :: b :: rest) = .error "interface conversion" ∧
    getDispatchDisconnectData [.str "transport close", .obj [("code", .num 1)]]
      = .error "interface conversion" := by
  refine ⟨rfl, rfl, ?_, rfl⟩
  cases a <;> simp [getDispatchDisconnectData, index]



/-- C23, as the code has it: node A calls `Clear("r")`, node B applies the clearRoom request and
the connection c4 then joins "r" on node B. Node A calls `Clear("r")` a second time, which
publishes a second clearRoom request; node B, on processing it, removes its room "r" again, so
that its index after the request differs from its index before it. -/
theorem second_Clear_makes_the_peer_clear_again :
    redis_local.scenarioA_cleared.bc.local_.getOccupants "r" = none ∧
    (redis_local.scenarioB_rejoined.bc.local_.getOccupants "r").isSome = true ∧
    (redis_local.redisBroadcast.Clear redis_local.scenarioA_cleared "r" "u2").bc.pub.length
      = 2 ∧
    ((redis_local.redisBroadcastRemote.onRequest redis_local.scenarioB_rejoined
        (redis_local.lastPublished
          (redis_local.redisBroadcast.Clear redis_local.scenarioA_cleared "r"
            "u2"))).2.bc.local_.getOccupants "r") = none ∧
    (redis_local.redisBroadcastRemote.onRequest redis_local.scenarioB_rejoined
        (redis_local.lastPublished
          (redis_local.redisBroadcast.Clear redis_local.scenarioA_cleared "r"
            "u2"))).2.bc.local_ ≠ redis_local.scenarioB_rejoined.bc.local_ := by
  decide

/-- C23, amended: for every state of node A and of a node B with another uid, a second
`Clear(room)` on node A leaves A's local index as the first call made it and publishes one more
clearRoom request on the request channel, bearing A's uid; node B, on processing that request,
replaces its index by `clear(room)` of it, so the room is absent on B afterwards; B's index is
the one it had before the request when the room was absent on B at that time. -/
theorem repeated_Clear (wA wB : redis_local.World) (room u1 u2 : String)
    (hne : wB.bc.local_.uid ≠ wA.bc.local_.uid) :
    (redis_local.redisBroadcast.Clear (redis_local.redisBroadcast.Clear wA room u1) room
        u2).bc.local_
      = (redis_local.redisBroadcast.Clear wA room u1).bc.local_ ∧
    (redis_local.redisBroadcast.Clear (redis_local.redisBroadcast.Clear wA room u1) room
        u2).bc.pub
      = (redis_local.redisBroadcast.Clear wA room u1).bc.pub ++
          [(wA.bc.reqChannel, redis_local.clearRoomRequest.Marshal
            ⟨redis_local.clearRoomReqType, u2, room, wA.bc.local_.uid⟩)] ∧
    redis_local.redisBroadcastRemote.onRequest wB
        (redis_local.lastPublished
          (redis_local.redisBroadcast.Clear (redis_local.redisBroadcast.Clear wA room u1)
            room u2))
      = (.returned none,
          { wB with bc := { wB.bc with local_ := wB.bc.local_.clear room } }) ∧
    (wB.bc.local_.clear room).getOccupants room = none ∧
    (wB.bc.local_.getOccupants room = none → wB.bc.local_.clear room = wB.bc.local_) := by
  have hpub : (redis_local.redisBroadcast.Clear (redis_local.redisBroadcast.Clear wA room u1)
        room u2).bc.pub
      = (redis_local.redisBroadcast.Clear wA room u1).bc.pub ++
          [(wA.bc.reqChannel, redis_local.clearRoomRequest.Marshal
            ⟨redis_local.clearRoomReqType, u2, room, wA.bc.local_.uid⟩)] := by
    simp [redis_local.redisBroadcast.Clear, redis_local.redisBroadcastRemote.clear,
      redis_local.redisBroadcastRemote.publishClear, redis_local.redisBroadcastRemote.publish,
      redis_local.redisBroadcastLocal.clear]
  refine ⟨?_, hpub, ?_, ?_, ?_⟩
  · simp only [redis_local.redisBroadcast.Clear, redis_local.redisBroadcastRemote.clear,
      redis_local.redisBroadcastRemote.publishClear, redis_local.redisBroadcastRemote.publish,
      redis_local.redisBroadcastLocal.clear_clear]
  · have hlast : redis_local.lastPublished
        (redis_local.redisBroadcast.Clear (redis_local.redisBroadcast.Clear wA room u1)
          room u2)
        = some (redis_local.clearRoomRequest.Marshal
            ⟨redis_local.clearRoomReqType, u2, room, wA.bc.local_.uid⟩) := by
      unfold redis_local.lastPublished
      rw [hpub, List.getLast?_append]
      rfl
    rw [hlast, redis_local.onRequest_clearRoomRequest, if_neg hne]
  · simp [redis_local.redisBroadcastLocal.getOccupants, redis_local.redisBroadcastLocal.clear,
      redis_local.roomMap.getConnections_delete]
  · exact redis_local.redisBroadcastLocal.clear_absent _ _

theorem repeated_Clear_witness :
    (redis_local.redisBroadcast.Clear
        (redis_local.redisBroadcast.Clear redis_local.scenarioA "r" "u1") "r" "u2").bc.local_
      = (redis_local.redisBroadcast.Clear redis_local.scenarioA "r" "u1").bc.local_ ∧
    ((redis_local.redisBroadcastRemote.onRequest redis_local.scenarioB
        (redis_local.lastPublished
          (redis_local.redisBroadcast.Clear
            (redis_local.redisBroadcast.Clear redis_local.scenarioA "r" "u1") "r"
            "u2"))).2.bc.local_.getOccupants "r") = none := by
  have h := repeated_Clear redis_local.scenarioA redis_local.scenarioB "r" "u1" "u2"
    (by decide)
  refine ⟨h.1, ?_⟩
  rw [h.2.2.1]
  exact h.2.2.2.1





/-- C27: payload encoder framing. For every encoder state, whatever a previous frame left in its
header, frame cache and stream encoder, whose feeder hands out a writer `w` that takes writes:
`NextWriter(ft, pt)`, a `Write` of each chunk and `Close` do not panic, `Close` returns what
`putWriter(nil)` returns, and the writer has then received, after what it held, for a text frame
pt's string byte followed by the concatenation of the chunks, and for a binary frame pt's string
byte, 'b' and the standard padded base64 encoding of the concatenation of the chunks; header and
frame cache are left empty. -/
theorem encoder_framing (e : payload.encoder) (ft : payload.FrameType)
    (pt : payload.PacketType) (chunks : List (List Nat)) (w : payload.Writer)
    (hget : e.feeder.getWriter = .ok w) (hw : w.err = none) :
    ∃ e1, e.writeFrame ft pt chunks = some (e.feeder.putWriter none, e1) ∧
      e1.rawWriter = some { w with received := w.received ++
        (match ft with
          | .Text => pt.StringByte :: chunks.flatten
          | .Binary => pt.StringByte :: 98 :: payload.encodeStd chunks.flatten) } ∧
      e1.header = [] ∧ e1.frameCache = [] ∧ e1.feeder = e.feeder := by
  cases ft with
  | Text =>
    obtain ⟨hf1, hf2, hf3, hf4⟩ := payload.encoder.foldl_Write_fields chunks
      { e with rawWriter := some w, ft := .Text, pt := pt, frameCache := [], b64Writer := none }
    obtain ⟨hb, hc⟩ := payload.encoder.foldl_Write_text chunks
      { e with rawWriter := some w, ft := .Text, pt := pt, frameCache := [], b64Writer := none }
      rfl
    obtain ⟨e1, h1, h2, h3, h4, h5⟩ := payload.encoder.Close_eq _ w hf3 hw
    refine ⟨e1, ?_, ?_, h3, h4, ?_⟩
    · rw [hf4] at h1
      simpa [payload.encoder.writeFrame, payload.encoder.NextWriter, hget] using h1
    · rw [h2, hf1, hf2, hb, hc]
      simp
    · rw [h5, hf4]
  | Binary =>
    obtain ⟨hf1, hf2, hf3, hf4⟩ := payload.encoder.foldl_Write_fields chunks
      { e with rawWriter := some w, ft := .Binary, pt := pt, frameCache := [],
               b64Writer := some ⟨[]⟩ }
    obtain ⟨b1, hb, hc⟩ := payload.encoder.foldl_Write_binary chunks
      { e with rawWriter := some w, ft := .Binary, pt := pt, frameCache := [],
               b64Writer := some ⟨[]⟩ } ⟨[]⟩ rfl
    obtain ⟨e1, h1, h2, h3, h4, h5⟩ := payload.encoder.Close_eq _ w hf3 hw
    refine ⟨e1, ?_, ?_, h3, h4, ?_⟩
    · rw [hf4] at h1
      simpa [payload.encoder.writeFrame, payload.encoder.NextWriter, hget] using h1
    · rw [h2, hf1, hf2, hb]
      simp only [hc]
      simp
    · rw [h5, hf4]

/-- An encoder that a binary frame has left with bytes in its header, frame cache and stream
encoder writes the binary frame of type '4' with the chunks "M" and "a" as "4bTWE=", and the
text frame of type '4' with the chunks "he" and "llo" as "4hello". -/
theorem encoder_framing_witness :
    (∃ e1, payload.usedEncoder.writeFrame .Binary ⟨52⟩ [payload.bytesOf "M", payload.bytesOf "a"]
        = some (none, e1) ∧
      e1.rawWriter = some ⟨payload.bytesOf "4bTWE=", none⟩) ∧
    (∃ e1, payload.usedEncoder.writeFrame .Text ⟨52⟩ [payload.bytesOf "he", payload.bytesOf "llo"]
        = some (none, e1) ∧
      e1.rawWriter = some ⟨payload.bytesOf "4hello", none⟩) := by
  refine ⟨?_, ?_⟩
  · obtain ⟨e1, h1, h2, _⟩ := encoder_framing payload.usedEncoder .Binary ⟨52⟩
      [payload.bytesOf "M", payload.bytesOf "a"] ⟨[], none⟩ rfl rfl
    exact ⟨e1, h1, by rw [h2]; decide⟩
  · obtain ⟨e1, h1, h2, _⟩ := encoder_framing payload.usedEncoder .Text ⟨52⟩
      [payload.bytesOf "he", payload.bytesOf "llo"] ⟨[], none⟩ rfl rfl
    exact ⟨e1, h1, by rw [h2]; decide⟩


end socketio
